import Mathlib

/-!
# The `dict` hash table of C-Snip (`src/dict.c`)

A shallow embedding of the separate-chaining hash table and its iterator,
followed by theorems about it.

Conventions of the embedding.

* A key `(char *key, size_t len)` is the list of its `len` bytes.  The table
  stores the caller's key pointer without copying; the embedding assumes the
  caller keeps that storage unchanged while the entry lives.
* A `void *` value is a natural number (an address); `NULL` is `0`.
* A chain (`struct dict_node *` followed through `next`) is the list of its
  nodes, the null pointer being the empty list.  A pointer into a chain is the
  list of nodes from that node on.
* The bucket array `dict->table` is the list of its chains.
* `malloc` of a node may fail.  Every function that allocates nodes takes
  `mem`, the number of node allocations that succeed before `malloc` returns
  `NULL`, and a function that allocates returns the outcome with the state.
  The allocation of the new bucket array in `dict_resize` is not tested by
  the source: `dict_resize` and `dict_set` describe the runs in which it
  returns an array, and `dict_resize_alloc` and `dict_set_alloc` take its
  outcome as an argument and have no result when it returns `NULL`.
* `dict_node_free` is recorded in the ghost field `freed` of a node, so that a
  node that is released while still linked stays visible in the state.
* `size_t` counters are natural numbers; the decrement `len -= 1` wraps at 0
  as it does for a 64-bit `size_t`.  The counter `len` counts live heap nodes
  and the increment `len += 1` cannot wrap.
* `dict.h` is not among the sources: the size table `dict_table_sizes`, its
  last index `dict_idx_max`, the load test made with `DICT_LOAD_LIMIT` and the
  signedness of `char` are parameters, collected in `dict_env`.
-/

namespace CSnip

/-! ## Data model -/

/-- A key: the bytes `key[0] .. key[len-1]`. -/
abbrev Key := List (Fin 256)

/-- A value reference (`void *`). -/
abbrev Val := Nat

/-- The null pointer. -/
def NULL : Val := 0

/-- Parameters of the program that `dict.c` takes from `dict.h` and from the
C implementation: the signedness of `char`, the table `dict_table_sizes`, the
constant `dict_idx_max`, and the comparison
`dict_table_sizes[idx] * DICT_LOAD_LIMIT < n` as a function of the size and
of `n`. -/
structure dict_env where
  char_signed : Bool
  dict_table_sizes : List Nat
  dict_idx_max : Nat
  load_exceeded : Nat → Nat → Bool

/-- Modelled from the spec: `dict.h` is missing; the two status codes returned
by `dict_set` and `dict_resize`, a success code and the out-of-memory code
(also used for capacity exhaustion), taken as distinct constants. -/
inductive dict_status where
  | DICT_OK
  | DICT_ENOMEM
deriving DecidableEq

open dict_status

/-- Modelled from the spec: the declaration of `struct dict_node` in `dict.h` is
missing; the fields are those that `dict.c` uses.  A node has its `key` with
the `len` of the key and its `val`; the `next` link is the rest of the chain
the node stands in.  The field `freed` is ghost state: whether the node has
been passed to `dict_node_free`. -/
structure dict_node where
  key : Key
  val : Val
  freed : Bool
deriving DecidableEq

/-- Modelled from the spec: the declaration of `struct dict` in `dict.h` is
missing; the fields are those that `dict.c` uses: the size-class index `idx`,
the entry count `len` and the bucket array `table`. -/
structure dict where
  idx : Nat
  len : Nat
  table : List (List dict_node)
deriving DecidableEq

/-- Modelled from the spec: the declaration of `struct dict_iter` in `dict.h` is
missing; the fields are those that `dict.c` uses: the table it walks, the
index of the next bucket to load, and the pending node (a pointer into a
chain).  The iterator holds a pointer to the table; the embedding holds the
table itself, which is the same as long as the table is not modified. -/
structure dict_iter where
  dict : dict
  index : Nat
  node : List dict_node
deriving DecidableEq

/-- The entry `dict_table_sizes[idx]`. -/
def dict_table_size (env : dict_env) (idx : Nat) : Nat :=
  env.dict_table_sizes.getD idx 0

/-! ## Hash and key equality -/

/-- The value of `key[i]` after conversion to `uint32_t`: a `char` is promoted
to `int` and then converted modulo `2^32`, so a byte above 127 becomes
`2^32 - 256 + b` where `char` is signed. -/
def char_to_uint32 (char_signed : Bool) (b : Fin 256) : Nat :=
  if char_signed && decide (128 ≤ b.val) then 2 ^ 32 - 256 + b.val else b.val

/-- One round of the loop of `jenkins_hash`. -/
def jenkins_round (hash : Nat) (c : Nat) : Nat :=
  let h1 := (hash + c) % 2 ^ 32
  let h2 := (h1 + (h1 <<< 10) % 2 ^ 32) % 2 ^ 32
  h2 ^^^ (h2 >>> 6)

/-- The three statements after the loop of `jenkins_hash`. -/
def jenkins_final (hash : Nat) : Nat :=
  let h1 := (hash + (hash <<< 3) % 2 ^ 32) % 2 ^ 32
  let h2 := h1 ^^^ (h1 >>> 11)
  (h2 + (h2 <<< 15) % 2 ^ 32) % 2 ^ 32

/-- The function `jenkins_hash(key, len)`.  The loop counter of the source is a
`uint32_t`; the embedding covers keys shorter than `2^32` bytes. -/
def jenkins_hash (char_signed : Bool) (key : Key) : Nat :=
  jenkins_final (key.foldl (fun hash b => jenkins_round hash (char_to_uint32 char_signed b)) 0)

/-- The function `dict_hash`. -/
def dict_hash (env : dict_env) (key : Key) : Nat :=
  jenkins_hash env.char_signed key

/-- The function `dict_table_idx(idx, key, len)`. -/
def dict_table_idx (env : dict_env) (idx : Nat) (key : Key) : Nat :=
  dict_hash env key % dict_table_size env idx

/-- The libc function `memcmp` on the first `n` bytes. -/
def memcmp : Key → Key → Nat → Int
  | a :: s1, b :: s2, n + 1 =>
    if a.val < b.val then -1 else if b.val < a.val then 1 else memcmp s1 s2 n
  | _, _, _ => 0

/-- The function `dict_key_equals(key1, len1, key2, len2)`. -/
def dict_key_equals (key1 key2 : Key) : Bool :=
  decide (key1.length = key2.length) && decide (memcmp key1 key2 key1.length = 0)

/-! ## Nodes -/

/-- The function `dict_node_new`: with no allocation left `malloc` returns
`NULL`; otherwise a fresh node. -/
def dict_node_new (mem : Nat) (key : Key) (val : Val) : Option dict_node × Nat :=
  match mem with
  | 0 => (none, 0)
  | m + 1 => (some { key := key, val := val, freed := false }, m)

/-- The function `dict_node_free`. -/
def dict_node_free (node : dict_node) : dict_node :=
  { node with freed := true }

/-- The tail insertion written out in `dict_resize` and in `dict_set`: the node
becomes the head of an empty chain, else the `next` of the last node. -/
def chain_link (table : List (List dict_node)) (index : Nat) (new_node : dict_node) :
    List (List dict_node) :=
  match table.getD index [] with
  | [] => table.set index [new_node]
  | cursor :: rest => table.set index ((cursor :: rest) ++ [new_node])

/-! ## Resize -/

/-- The state of the rehash loops of `dict_resize`: `ok` is false once
`return DICT_ENOMEM` has been taken, `mem` the allocations left, `old` the
part of the old table walked (a chain or the whole array), `new_table` the
array under construction. -/
structure rehash (α : Type) where
  ok : Bool
  mem : Nat
  old : α
  new_table : List (List dict_node)

/-- The inner loop of `dict_resize` over one old chain (`while (node != NULL)`). -/
def dict_resize_chain (env : dict_env) (new_idx : Nat) :
    List dict_node → Nat → List (List dict_node) → rehash (List dict_node)
  | [], mem, new_table => { ok := true, mem := mem, old := [], new_table := new_table }
  | node :: next, mem, new_table =>
    match dict_node_new mem node.key node.val with
    | (none, mem1) => { ok := false, mem := mem1, old := node :: next, new_table := new_table }
    | (some new_node, mem1) =>
      let new_index := dict_table_idx env new_idx new_node.key
      let r := dict_resize_chain env new_idx next mem1 (chain_link new_table new_index new_node)
      { r with old := dict_node_free node :: r.old }

/-- The body of the outer loop of `dict_resize` for one `index`. -/
def dict_resize_bucket (env : dict_env) (new_idx : Nat)
    (st : rehash (List (List dict_node))) (index : Nat) : rehash (List (List dict_node)) :=
  if st.ok then
    let r := dict_resize_chain env new_idx (st.old.getD index []) st.mem st.new_table
    { ok := r.ok, mem := r.mem, old := st.old.set index r.old, new_table := r.new_table }
  else st

/-- The function `dict_resize` on the runs in which the `malloc` of the new
bucket array (line 87) returns an array: status, table afterwards, node
allocations left.  The source does not test that pointer; the runs in which it
is `NULL` are those of `dict_resize_alloc` with `table_ok = false`. -/
def dict_resize (env : dict_env) (mem : Nat) (d : dict) : dict_status × dict × Nat :=
  let new_idx := d.idx + 1
  if new_idx > env.dict_idx_max then (DICT_ENOMEM, d, mem)
  else
    let new_table_size := dict_table_size env new_idx
    let new_table : List (List dict_node) := List.replicate new_table_size []
    let table_size := dict_table_size env d.idx
    let r := (List.range table_size).foldl (dict_resize_bucket env new_idx)
      { ok := true, mem := mem, old := d.table, new_table := new_table }
    if r.ok then (DICT_OK, { idx := new_idx, len := d.len, table := r.new_table }, r.mem)
    else (DICT_ENOMEM, { d with table := r.old }, r.mem)

/-- The function `dict_resize` with the outcome of the `malloc` of the new
bucket array as an argument: `table_ok` says whether it returns an array.  The
test of `new_idx` comes before the allocation.  When `malloc` returns `NULL`
the initialisation loop (lines 92-93) stores `new_table[0] = NULL` through the
null pointer as soon as the new size is positive: the behaviour is undefined
and the function has no result (`none`).  With a new size of 0, which `env_ok`
excludes, that loop stores nothing and the result is left to `dict_resize`. -/
def dict_resize_alloc (env : dict_env) (table_ok : Bool) (mem : Nat) (d : dict) :
    Option (dict_status × dict × Nat) :=
  let new_idx := d.idx + 1
  if new_idx > env.dict_idx_max then some (DICT_ENOMEM, d, mem)
  else
    let new_table_size := dict_table_size env new_idx
    if table_ok = false ∧ 0 < new_table_size then none
    else some (dict_resize env mem d)

/-! ## Construction and teardown -/

/-- The function `dict_new`; the two arguments say whether the allocation of
the `struct dict` and of the bucket array succeed. -/
def dict_new (env : dict_env) (mem_dict mem_table : Bool) : Option dict :=
  if mem_dict then
    if mem_table then
      some { idx := 0, len := 0, table := List.replicate (dict_table_size env 0) [] }
    else none
  else none

/-- The statement `dict->len -= 1` on a 64-bit `size_t`. -/
def size_dec (len : Nat) : Nat :=
  if len = 0 then 2 ^ 64 - 1 else len - 1

/-- The inner loop of `dict_clear`: every node of the chain is freed and the
count decremented. -/
def dict_clear_chain : List dict_node → Nat → Nat
  | [], len => len
  | _ :: next, len => dict_clear_chain next (size_dec len)

/-- The body of the outer loop of `dict_clear` for one `index`. -/
def dict_clear_bucket (d : dict) (index : Nat) : dict :=
  { d with len := dict_clear_chain (d.table.getD index []) d.len,
           table := d.table.set index [] }

/-- The function `dict_clear`. -/
def dict_clear (env : dict_env) (d : dict) : dict :=
  (List.range (dict_table_size env d.idx)).foldl dict_clear_bucket d

/-- The function `dict_len`. -/
def dict_len (d : dict) : Nat := d.len

/-! ## Set, get, has, pop -/

/-- The search loop of `dict_set`: the chain with the first node whose key
equals `key` overwritten in place, or `none` when no node matches. -/
def dict_set_chain : List dict_node → Key → Val → Option (List dict_node)
  | [], _, _ => none
  | node :: next, key, val =>
    if dict_key_equals node.key key then
      some ({ node with key := key, val := val } :: next)
    else
      (dict_set_chain next key val).map (fun c => node :: c)

/-- Lines 212 to 246 of `dict_set`: what follows the load test. -/
def dict_set_entry (env : dict_env) (mem : Nat) (d : dict) (key : Key) (val : Val) :
    dict_status × dict :=
  let index := dict_table_idx env d.idx key
  match dict_set_chain (d.table.getD index []) key val with
  | some chain => (DICT_OK, { d with table := d.table.set index chain })
  | none =>
    match dict_node_new mem key val with
    | (none, _) => (DICT_ENOMEM, d)
    | (some new_node, _) =>
      (DICT_OK, { d with table := chain_link d.table index new_node, len := d.len + 1 })

/-- The function `dict_set` on the runs in which the bucket array of a resize,
if one is made, is allocated (see `dict_resize`): status and table
afterwards. -/
def dict_set (env : dict_env) (mem : Nat) (d : dict) (key : Key) (val : Val) :
    dict_status × dict :=
  if env.load_exceeded (dict_table_size env d.idx) (d.len + 1) then
    match dict_resize env mem d with
    | (DICT_OK, d1, mem1) => dict_set_entry env mem1 d1 key val
    | (DICT_ENOMEM, d1, _) => (DICT_ENOMEM, d1)
  else dict_set_entry env mem d key val

/-- The function `dict_set` with the outcome of the allocation of the bucket
array as an argument, as in `dict_resize_alloc`: no result when the resize has
none. -/
def dict_set_alloc (env : dict_env) (table_ok : Bool) (mem : Nat) (d : dict) (key : Key)
    (val : Val) : Option (dict_status × dict) :=
  if env.load_exceeded (dict_table_size env d.idx) (d.len + 1) then
    match dict_resize_alloc env table_ok mem d with
    | none => none
    | some (DICT_OK, d1, mem1) => some (dict_set_entry env mem1 d1 key val)
    | some (DICT_ENOMEM, d1, _) => some (DICT_ENOMEM, d1)
  else some (dict_set_entry env mem d key val)

/-- The loop of `dict_get` over a chain. -/
def dict_get_chain : List dict_node → Key → Val
  | [], _ => NULL
  | node :: next, key =>
    if dict_key_equals node.key key then node.val else dict_get_chain next key

/-- The function `dict_get`. -/
def dict_get (env : dict_env) (d : dict) (key : Key) : Val :=
  dict_get_chain (d.table.getD (dict_table_idx env d.idx key) []) key

/-- The loop of `dict_has` over a chain. -/
def dict_has_chain : List dict_node → Key → Bool
  | [], _ => false
  | node :: next, key =>
    if dict_key_equals node.key key then true else dict_has_chain next key

/-- The function `dict_has`. -/
def dict_has (env : dict_env) (d : dict) (key : Key) : Bool :=
  dict_has_chain (d.table.getD (dict_table_idx env d.idx key) []) key

/-- The loop of `dict_pop` over a chain: the value of the first matching node
and the chain with that node unlinked, or `none`. -/
def dict_pop_chain : List dict_node → Key → Option (Val × List dict_node)
  | [], _ => none
  | node :: next, key =>
    if dict_key_equals node.key key then some (node.val, next)
    else (dict_pop_chain next key).map (fun r => (r.1, node :: r.2))

/-- The function `dict_pop`: returned value and table afterwards. -/
def dict_pop (env : dict_env) (d : dict) (key : Key) : Val × dict :=
  let index := dict_table_idx env d.idx key
  match dict_pop_chain (d.table.getD index []) key with
  | some (val, chain) => (val, { d with table := d.table.set index chain, len := size_dec d.len })
  | none => (NULL, d)

/-! ## Iterator -/

/-- The function `dict_iter_new`; `mem` says whether the allocation succeeds. -/
def dict_iter_new (d : dict) (mem : Bool) : Option dict_iter :=
  if mem then some { dict := d, index := 0, node := [] } else none

/-- The loop `while (iter->node == NULL)` of `dict_iter_next`, run for at most
`fuel` rounds: the index and pending node it ends with. -/
def dict_iter_seek (table : List (List dict_node)) (table_size : Nat) :
    Nat → Nat → List dict_node → Nat × List dict_node
  | _, index, node :: next => (index, node :: next)
  | 0, index, [] => (index, [])
  | fuel + 1, index, [] =>
    if index ≥ table_size then (index, [])
    else dict_iter_seek table table_size fuel (index + 1) (table.getD index [])

/-- The function `dict_iter_next`: the node returned (`none` for `NULL`) and the
iterator afterwards.  The loop runs at most `table_size - index + 1` rounds,
each round but the last raising `index`.  The test `dict->table == NULL` of the
source is never true of a table made by `dict_new` and has no counterpart. -/
def dict_iter_next (env : dict_env) (iter : dict_iter) : Option dict_node × dict_iter :=
  let table_size := dict_table_size env iter.dict.idx
  if iter.index ≥ table_size then (none, iter)
  else
    match dict_iter_seek iter.dict.table table_size (table_size - iter.index + 1)
        iter.index iter.node with
    | (index, []) => (none, { iter with index := index, node := [] })
    | (index, node :: next) => (some node, { iter with index := index, node := next })

/-- The function `dict_iter_rewind`. -/
def dict_iter_rewind (iter : dict_iter) : dict_iter :=
  { iter with node := [], index := 0 }

/-- A full pass: the nodes returned by successive `dict_iter_next` calls up to
the first `NULL`, making at most `calls` calls. -/
def dict_iter_pass (env : dict_env) : Nat → dict_iter → List dict_node
  | 0, _ => []
  | calls + 1, iter =>
    match dict_iter_next env iter with
    | (none, _) => []
    | (some node, iter1) => node :: dict_iter_pass env calls iter1

/-! ## Well-formed tables -/

/-- The entries of a table, in bucket order then chain order. -/
def dict_nodes (d : dict) : List dict_node := d.table.flatten

/-- The parameters are usable: every size class up to `dict_idx_max` has a
positive size (so the class exists in `dict_table_sizes`). -/
def env_ok (env : dict_env) : Prop :=
  ∀ idx, idx ≤ env.dict_idx_max → 0 < dict_table_size env idx

/-- A well-formed table: the size class is in range, the bucket array has the
size of its class, every node stands in the bucket of its hash, no two nodes
have the same key, `len` counts the nodes, and no linked node has been freed. -/
structure dict_wf (env : dict_env) (d : dict) : Prop where
  idx_le : d.idx ≤ env.dict_idx_max
  table_len : d.table.length = dict_table_size env d.idx
  placed : ∀ i, ∀ n ∈ d.table.getD i [], dict_table_idx env d.idx n.key = i
  keys_nodup : ((dict_nodes d).map dict_node.key).Nodup
  len_eq : d.len = (dict_nodes d).length
  live : ∀ n ∈ dict_nodes d, n.freed = false

/-! ## Definitions used in the statements and proofs -/

/-- The copy of an old node that `dict_resize` links into the new array. -/
def rehash_link (env : dict_env) (new_idx : Nat) (t : List (List dict_node)) (n : dict_node) :
    List (List dict_node) :=
  chain_link t (dict_table_idx env new_idx n.key) { key := n.key, val := n.val, freed := false }

/-- The outer loop of `dict_resize` run over the first `n` buckets. -/
def dict_resize_loop (env : dict_env) (ni : Nat) (n : Nat) (mem : Nat)
    (old nt : List (List dict_node)) : rehash (List (List dict_node)) :=
  (List.range n).foldl (dict_resize_bucket env ni)
    { ok := true, mem := mem, old := old, new_table := nt }

/-- The key and value of a node, without the ghost field. -/
def node_kv (n : dict_node) : Key × Val := (n.key, n.val)

/-- The placement property of a bucket array for size class `idx`. -/
def table_placed (env : dict_env) (idx : Nat) (t : List (List dict_node)) : Prop :=
  ∀ i, ∀ n ∈ t.getD i [], dict_table_idx env idx n.key = i

/-- The table that a successful `dict_resize` installs. -/
def dict_resized (env : dict_env) (d : dict) : dict :=
  { idx := d.idx + 1, len := d.len,
    table := (dict_nodes d).foldl (rehash_link env (d.idx + 1))
      (List.replicate (dict_table_size env (d.idx + 1)) []) }

/-- The end of `dict_resize`, after the loops. -/
def dict_resize_finish (d : dict) (ni : Nat) (r : rehash (List (List dict_node))) :
    dict_status × dict × Nat :=
  if r.ok then (DICT_OK, ⟨ni, d.len, r.new_table⟩, r.mem)
  else (DICT_ENOMEM, ⟨d.idx, d.len, r.old⟩, r.mem)

/-- The tables that calls of `dict_set`, `dict_pop`, `dict_clear` and
`dict_resize` produce from a table made by `dict_new`, whatever the calls
return and whatever node allocations fail, every call being made on a table
that links no freed node and every bucket array being allocated.  A call on a
table that links a freed node reads freed memory, and a resize whose bucket
array is not allocated stores through a null pointer: their behaviour is
undefined and no table is taken from them. -/
inductive dict_reachable (env : dict_env) : dict → Prop
  | new (d : dict) (h : dict_new env true true = some d) : dict_reachable env d
  | set (mem : Nat) (d : dict) (k : Key) (v : Val) (h : dict_reachable env d)
      (hl : ∀ n ∈ dict_nodes d, n.freed = false) :
      dict_reachable env (dict_set env mem d k v).2
  | pop (d : dict) (k : Key) (h : dict_reachable env d)
      (hl : ∀ n ∈ dict_nodes d, n.freed = false) :
      dict_reachable env (dict_pop env d k).2
  | clear (d : dict) (h : dict_reachable env d)
      (hl : ∀ n ∈ dict_nodes d, n.freed = false) : dict_reachable env (dict_clear env d)
  | resize (mem : Nat) (d : dict) (h : dict_reachable env d)
      (hl : ∀ n ∈ dict_nodes d, n.freed = false) :
      dict_reachable env (dict_resize env mem d).2.1

/-- A list of `dict_set` calls, each with its own supply of allocations; the
table after the last call if every call returns `DICT_OK`. -/
def dict_set_list (env : dict_env) : List (Nat × Key × Val) → dict → Option dict
  | [], d => some d
  | (mem, k, v) :: rest, d =>
    match dict_set env mem d k v with
    | (DICT_OK, d1) => dict_set_list env rest d1
    | (DICT_ENOMEM, _) => none

/-- The decimal digits of `n` as ASCII bytes, most significant first; `fuel`
bounds the number of digits. -/
def dec_bytes : Nat → Nat → List (Fin 256) → List (Fin 256)
  | 0, _, acc => acc
  | fuel + 1, n, acc =>
    if n < 10 then Fin.ofNat (48 + n) :: acc
    else dec_bytes fuel (n / 10) (Fin.ofNat (48 + n % 10) :: acc)

/-- The key "k" followed by the decimal digits of `i` (for `i < 10000`): "k0",
"k1", ..., "k999". -/
def key_k (i : Nat) : Key := 107 :: dec_bytes 4 i []

/-- The number that a key made by `key_k` spells. -/
def key_k_number (k : Key) : Nat :=
  k.tail.foldl (fun n b => 10 * n + (b.val - 48)) 0

/-- The calls `set("k0", 0)`, ..., `set("k" n-1, n-1)`, the call for "k" i being
given `mem i` allocations. -/
def calls_k (mem : Nat → Nat) (n : Nat) : List (Nat × Key × Val) :=
  (List.range n).map (fun i => (mem i, key_k i, i))

/-- The tables built from a new table by `dict_pop`, `dict_clear`, by
`dict_set` and `dict_resize` calls that return `DICT_OK`, and by `dict_set`
calls that return `DICT_ENOMEM` without a rehash failing after its first node
allocation (`mem = 0`, or memory for every node of the table). -/
inductive dict_built (env : dict_env) : dict → Prop
  | new (d : dict) (h : dict_new env true true = some d) : dict_built env d
  | set (mem : Nat) (d d1 : dict) (k : Key) (v : Val) (h : dict_built env d)
      (hs : dict_set env mem d k v = (DICT_OK, d1)) : dict_built env d1
  | set_enomem (mem : Nat) (d d1 : dict) (k : Key) (v : Val) (h : dict_built env d)
      (hs : dict_set env mem d k v = (DICT_ENOMEM, d1)) (hm : mem = 0 ∨ d.len ≤ mem) :
      dict_built env d1
  | pop (d : dict) (k : Key) (h : dict_built env d) : dict_built env (dict_pop env d k).2
  | clear (d : dict) (h : dict_built env d) : dict_built env (dict_clear env d)
  | resize (mem : Nat) (d d1 : dict) (m1 : Nat) (h : dict_built env d)
      (hr : dict_resize env mem d = (DICT_OK, d1, m1)) : dict_built env d1

/-- The nodes that a pass returns from the buckets still to load: every chain
in full, except the chain of the last bucket, of which only the head is
returned. -/
def dict_iter_yield : List (List dict_node) → List dict_node
  | [] => []
  | [c] => c.take 1
  | c :: c1 :: rest => c ++ dict_iter_yield (c1 :: rest)

/-- What is left to return in a state of the iterator. -/
def dict_iter_left (env : dict_env) (iter : dict_iter) : List dict_node :=
  if dict_table_size env iter.dict.idx ≤ iter.index then []
  else iter.node ++ dict_iter_yield (iter.dict.table.drop iter.index)

/-! ### Successive calls of `dict_iter_next` -/

/-- The results of `n` successive calls of `dict_iter_next`, `none` standing for
`NULL`. -/
def dict_iter_calls (env : dict_env) : Nat → dict_iter → List (Option dict_node)
  | 0, _ => []
  | n + 1, iter =>
    (dict_iter_next env iter).1 :: dict_iter_calls env n (dict_iter_next env iter).2

/-- The iterator after `n` successive calls of `dict_iter_next`. -/
def dict_iter_after (env : dict_env) : Nat → dict_iter → dict_iter
  | 0, iter => iter
  | n + 1, iter => dict_iter_after env n (dict_iter_next env iter).2

/-! ### The loop of `jenkins_hash` -/

/-- The loop of `jenkins_hash` as the source writes it, with the `uint32_t`
counter `i` (`++i` wraps modulo `2^32`) compared with the `size_t` length, run
for at most `fuel` tests of `i < len`: the value returned, or `none` when the
loop is still running after `fuel` tests. -/
def jenkins_hash_loop (char_signed : Bool) (key : Key) : Nat → Nat → Nat → Option Nat
  | 0, _, _ => none
  | fuel + 1, i, hash =>
    if i < key.length then
      jenkins_hash_loop char_signed key fuel ((i + 1) % 2 ^ 32)
        (jenkins_round hash (char_to_uint32 char_signed (key.getD i 0)))
    else some (jenkins_final hash)

/-- The hash as the specification words it, over the values taken for the
bytes: starting from `h = 0`, for each value `b` in order `h += b`,
`h += h << 10`, `h ^= h >> 6`; then `h += h << 3`, `h ^= h >> 11`,
`h += h << 15`, all modulo `2^32`.  The specification takes each byte as its
value 0..255, which is `one_at_a_time_spec (key.map Fin.val)`. -/
def one_at_a_time_spec (bytes : List Nat) : Nat :=
  let h := bytes.foldl (fun h b =>
    let h := (h + b) % 2 ^ 32
    let h := (h + (h <<< 10)) % 2 ^ 32
    h ^^^ (h >>> 6)) 0
  let h := (h + (h <<< 3)) % 2 ^ 32
  let h := h ^^^ (h >>> 11)
  (h + (h <<< 15)) % 2 ^ 32

/-! ## Concrete parameters used in the examples

The sizes are the first primes of a doubling sequence and the load limit is
the fraction 72/100; `char` is signed. -/

/-- An example parameter set. -/
def env_example : dict_env :=
  { char_signed := true,
    dict_table_sizes := [7, 17, 37, 79, 163, 331, 673, 1361, 2729],
    dict_idx_max := 8,
    load_exceeded := fun size n => decide (size * 72 < n * 100) }

/-- The empty table of the example parameters. -/
def dict_empty_example : dict :=
  { idx := 0, len := 0, table := List.replicate 7 [] }

/-- A decidable form of `dict_wf`, with the bucket index bounded. -/
def dict_wf_dec (env : dict_env) (d : dict) : Prop :=
  d.idx ≤ env.dict_idx_max ∧
  d.table.length = dict_table_size env d.idx ∧
  (∀ i, i < d.table.length → ∀ n ∈ d.table.getD i [], dict_table_idx env d.idx n.key = i) ∧
  ((dict_nodes d).map dict_node.key).Nodup ∧
  d.len = (dict_nodes d).length ∧
  ∀ n ∈ dict_nodes d, n.freed = false

instance (env : dict_env) (d : dict) : Decidable (dict_wf_dec env d) := by
  unfold dict_wf_dec
  infer_instance

/-- The table of the example parameters after `set("a",1)`, `set("b",2)`,
`set("c",3)`, `set("d",4)`, `set("e",5)` on the empty table. -/
def dict_five_example : dict :=
  { idx := 0, len := 5,
    table := [[⟨[97], 1, false⟩, ⟨[99], 3, false⟩, ⟨[100], 4, false⟩], [], [],
              [⟨[98], 2, false⟩, ⟨[101], 5, false⟩], [], [], []] }

/-- A parameter set with two size classes, used to reach the largest class. -/
def env_small : dict_env :=
  { char_signed := true,
    dict_table_sizes := [2, 5],
    dict_idx_max := 1,
    load_exceeded := fun size n => decide (size * 72 < n * 100) }

/-- The table of `env_small` after `set("a",1)`, `set("b",2)`, `set("c",3)`: it
stands in the largest size class and its load test asks for a resize. -/
def dict_full_small : dict :=
  { idx := 1, len := 3,
    table := [[], [⟨[99], 3, false⟩], [⟨[97], 1, false⟩], [⟨[98], 2, false⟩], []] }

/-- The table of `env_example` after `set("x",1)`, `set("v",2)`: both keys
stand in bucket 6, the last one. -/
def dict_xv_example : dict :=
  { idx := 0, len := 2,
    table := [[], [], [], [], [], [], [⟨[120], 1, false⟩, ⟨[118], 2, false⟩]] }

/-- The table of `env_example` after `set("x",1)`, `set("y",2)`, `set("z",3)`:
the keys stand in the buckets 6, 4 and 5. -/
def dict_xyz_example : dict :=
  { idx := 0, len := 3,
    table := [[], [], [], [], [⟨[121], 2, false⟩], [⟨[122], 3, false⟩], [⟨[120], 1, false⟩]] }

/-- The table of `env_example` after `set("a",1)`, `set("b",2)`, `set("c",3)`,
`set("d",4)` on the empty table. -/
def dict_four_example : dict :=
  { idx := 0, len := 4,
    table := [[⟨[97], 1, false⟩, ⟨[99], 3, false⟩, ⟨[100], 4, false⟩], [], [],
              [⟨[98], 2, false⟩], [], [], []] }

/-- The table of `env_example` after `set("k0",0)`, ..., `set("k5",5)` on the
empty table; the sixth call resizes from 7 to 17 buckets. -/
def dict_k_example : dict :=
  { idx := 1, len := 6,
    table := [[⟨[107, 48], 0, false⟩, ⟨[107, 53], 5, false⟩], [], [], [], [], [], [], [], [],
      [], [], [⟨[107, 52], 4, false⟩], [⟨[107, 49], 1, false⟩, ⟨[107, 50], 2, false⟩], [], [],
      [⟨[107, 51], 3, false⟩], []] }

/-- The entries of a table that have not been passed to `dict_node_free`. -/
def dict_live_nodes (d : dict) : List dict_node :=
  (dict_nodes d).filter (fun n => !n.freed)

/-- The table that `set("f", 6)` leaves of the table of five entries when the
second node allocation of the rehash fails: the node of "a", first of bucket
0, has been freed and is still the head of its chain. -/
def dict_broken_example : dict :=
  { idx := 0, len := 5,
    table := [[⟨[97], 1, true⟩, ⟨[99], 3, false⟩, ⟨[100], 4, false⟩], [], [],
              [⟨[98], 2, false⟩, ⟨[101], 5, false⟩], [], [], []] }

theorem memcmp_eq_zero_iff (k1 k2 : Key) (h : k1.length = k2.length) :
    memcmp k1 k2 k1.length = 0 ↔ k1 = k2 := by
  induction k1 generalizing k2 with
  | nil =>
    cases k2 with
    | nil => simp [memcmp]
    | cons b s2 => simp at h
  | cons a s1 ih =>
    cases k2 with
    | nil => simp at h
    | cons b s2 =>
      simp only [List.length_cons, Nat.add_right_cancel_iff] at h
      simp only [List.length_cons, memcmp, List.cons.injEq]
      by_cases h1 : a.val < b.val
      · simp only [h1, if_true]
        constructor
        · intro h2; simp at h2
        · rintro ⟨rfl, _⟩; exact absurd h1 (lt_irrefl _)
      · by_cases h2 : b.val < a.val
        · simp only [h1, h2, if_true, if_false]
          constructor
          · intro h3; simp at h3
          · rintro ⟨rfl, _⟩; exact absurd h2 (lt_irrefl _)
        · simp only [h1, h2, if_false]
          have hab : a = b := Fin.ext (by omega)
          rw [ih s2 h]
          simp [hab]

theorem dict_key_equals_iff (k1 k2 : Key) : dict_key_equals k1 k2 = true ↔ k1 = k2 := by
  unfold dict_key_equals
  constructor
  · intro h
    simp only [Bool.and_eq_true, decide_eq_true_eq] at h
    exact (memcmp_eq_zero_iff k1 k2 h.1).1 h.2
  · rintro rfl
    simp only [Bool.and_eq_true, decide_eq_true_eq, true_and]
    exact (memcmp_eq_zero_iff k1 k1 rfl).2 rfl

theorem dict_key_equals_eq_decide (k1 k2 : Key) : dict_key_equals k1 k2 = decide (k1 = k2) := by
  by_cases h : k1 = k2
  · simp [h, (dict_key_equals_iff k2 k2).2 rfl]
  · have : dict_key_equals k1 k2 = false := by
      cases hk : dict_key_equals k1 k2 with
      | false => rfl
      | true => exact absurd ((dict_key_equals_iff k1 k2).1 hk) h
    simp [h, this]

theorem dict_get_chain_of_not_mem (c : List dict_node) (k : Key)
    (h : ∀ n ∈ c, n.key ≠ k) : dict_get_chain c k = NULL := by
  induction c with
  | nil => rfl
  | cons a c ih =>
    have ha : a.key ≠ k := h a (List.mem_cons_self _ _)
    simp only [dict_get_chain, dict_key_equals_eq_decide, ha, decide_False, if_false]
    exact ih (fun n hn => h n (List.mem_cons_of_mem _ hn))

theorem dict_get_chain_of_mem (c : List dict_node) (n : dict_node)
    (hnd : (c.map dict_node.key).Nodup) (hn : n ∈ c) : dict_get_chain c n.key = n.val := by
  induction c with
  | nil => simp at hn
  | cons a c ih =>
    simp only [List.map_cons, List.nodup_cons, List.mem_map, not_exists, not_and] at hnd
    simp only [dict_get_chain, dict_key_equals_eq_decide]
    rcases List.mem_cons.1 hn with rfl | hn
    · simp
    · have : a.key ≠ n.key := fun e => hnd.1 n hn e.symm
      simp only [this, decide_False, if_false]
      exact ih hnd.2 hn

theorem dict_has_chain_iff (c : List dict_node) (k : Key) :
    dict_has_chain c k = true ↔ ∃ n ∈ c, n.key = k := by
  induction c with
  | nil => simp [dict_has_chain]
  | cons a c ih =>
    simp only [dict_has_chain, dict_key_equals_eq_decide, List.mem_cons, exists_eq_or_imp]
    by_cases h : a.key = k
    · simp [h]
    · simp [h, ih]

/-! ## Lemmas on bucket arrays -/

theorem getD_set_chain (t : List (List dict_node)) (i j : Nat) (c : List dict_node) :
    (t.set i c).getD j [] = if i = j ∧ i < t.length then c else t.getD j [] := by
  simp only [List.getD_eq_getElem?_getD, List.getElem?_set]
  by_cases h : i = j
  · subst h
    by_cases h2 : i < t.length
    · simp [h2]
    · simp [h2, List.getElem?_eq_none (not_lt.1 h2)]
  · simp [h]

theorem mem_flatten_iff_getD (t : List (List dict_node)) (n : dict_node) :
    n ∈ t.flatten ↔ ∃ i, n ∈ t.getD i [] := by
  constructor
  · intro h
    obtain ⟨c, hc, hn⟩ := List.mem_flatten.1 h
    obtain ⟨i, hi, rfl⟩ := List.mem_iff_getElem.1 hc
    exact ⟨i, by rw [List.getD_eq_getElem _ _ hi]; exact hn⟩
  · rintro ⟨i, hi⟩
    by_cases h : i < t.length
    · rw [List.getD_eq_getElem _ _ h] at hi
      exact List.mem_flatten.2 ⟨_, List.getElem_mem h, hi⟩
    · rw [List.getD_eq_default _ _ (not_lt.1 h)] at hi
      simp at hi

theorem flatten_perm_getD (t : List (List dict_node)) (i : Nat) (h : i < t.length) :
    List.Perm t.flatten (t.getD i [] ++ (t.set i []).flatten) := by
  induction t generalizing i with
  | nil => simp at h
  | cons c t ih =>
    cases i with
    | zero => simp
    | succ i =>
      simp only [List.length_cons, Nat.add_lt_add_iff_right] at h
      simp only [List.flatten_cons, List.getD_cons_succ, List.set_cons_succ]
      refine (List.Perm.append_left c (ih i h)).trans ?_
      rw [← List.append_assoc, ← List.append_assoc]
      exact List.Perm.append_right _ List.perm_append_comm

theorem flatten_set_perm (t : List (List dict_node)) (i : Nat) (c : List dict_node)
    (h : i < t.length) :
    List.Perm (t.set i c).flatten (c ++ (t.set i []).flatten) := by
  have h1 := flatten_perm_getD (t.set i c) i (by simpa using h)
  simpa [getD_set_chain, h] using h1

theorem chain_link_eq (t : List (List dict_node)) (i : Nat) (n : dict_node) :
    chain_link t i n = t.set i (t.getD i [] ++ [n]) := by
  unfold chain_link
  cases h : t.getD i [] with
  | nil => simp
  | cons a c => simp

theorem chain_link_length (t : List (List dict_node)) (i : Nat) (n : dict_node) :
    (chain_link t i n).length = t.length := by
  simp [chain_link_eq]

theorem getD_chain_link (t : List (List dict_node)) (i j : Nat) (n : dict_node) :
    (chain_link t i n).getD j [] =
      if i = j ∧ i < t.length then t.getD i [] ++ [n] else t.getD j [] := by
  rw [chain_link_eq, getD_set_chain]

theorem flatten_chain_link_perm (t : List (List dict_node)) (i : Nat) (n : dict_node)
    (h : i < t.length) : List.Perm (chain_link t i n).flatten (n :: t.flatten) := by
  rw [chain_link_eq]
  refine (flatten_set_perm t i _ h).trans ?_
  have h1 := (flatten_perm_getD t i h).symm
  refine List.Perm.trans ?_ (List.Perm.cons n h1)
  rw [List.append_assoc]
  exact (List.perm_middle).trans (by simp)

theorem chain_keys_nodup_of_flatten (t : List (List dict_node)) (i : Nat)
    (h : (t.flatten.map dict_node.key).Nodup) : ((t.getD i []).map dict_node.key).Nodup := by
  by_cases hi : i < t.length
  · have hp := (flatten_perm_getD t i hi).map dict_node.key
    have h2 := (hp.nodup_iff).1 h
    rw [List.map_append] at h2
    exact (List.nodup_append.1 h2).1
  · rw [List.getD_eq_default _ _ (not_lt.1 hi)]; simp

/-! ### The search loops -/

theorem dict_set_chain_none_iff (c : List dict_node) (k : Key) (v : Val) :
    dict_set_chain c k v = none ↔ ∀ n ∈ c, n.key ≠ k := by
  induction c with
  | nil => simp [dict_set_chain]
  | cons a c ih =>
    simp only [dict_set_chain, dict_key_equals_eq_decide, List.mem_cons, forall_eq_or_imp]
    by_cases h : a.key = k
    · simp [h]
    · simp [h, ih]

theorem dict_set_chain_keys (c c1 : List dict_node) (k : Key) (v : Val)
    (h : dict_set_chain c k v = some c1) : c1.map dict_node.key = c.map dict_node.key := by
  induction c generalizing c1 with
  | nil => simp [dict_set_chain] at h
  | cons a c ih =>
    simp only [dict_set_chain, dict_key_equals_eq_decide] at h
    by_cases hk : a.key = k
    · simp only [hk, decide_True, if_true, Option.some.injEq] at h
      subst h; simp [hk]
    · simp only [hk, decide_False, if_false] at h
      obtain ⟨c2, hc2, rfl⟩ := Option.map_eq_some'.1 h
      simp [ih c2 hc2]

theorem dict_set_chain_live (c c1 : List dict_node) (k : Key) (v : Val)
    (h : dict_set_chain c k v = some c1) (hl : ∀ n ∈ c, n.freed = false) :
    ∀ n ∈ c1, n.freed = false := by
  induction c generalizing c1 with
  | nil => simp [dict_set_chain] at h
  | cons a c ih =>
    simp only [dict_set_chain, dict_key_equals_eq_decide] at h
    by_cases hk : a.key = k
    · simp only [hk, decide_True, if_true, Option.some.injEq] at h
      subst h
      intro n hn
      rcases List.mem_cons.1 hn with rfl | hn
      · exact hl a (List.mem_cons_self _ _)
      · exact hl n (List.mem_cons_of_mem _ hn)
    · simp only [hk, decide_False, if_false] at h
      obtain ⟨c2, hc2, rfl⟩ := Option.map_eq_some'.1 h
      intro n hn
      rcases List.mem_cons.1 hn with rfl | hn
      · exact hl _ (List.mem_cons_self _ _)
      · exact ih c2 hc2 (fun m hm => hl m (List.mem_cons_of_mem _ hm)) n hn

theorem dict_set_chain_get (c c1 : List dict_node) (k : Key) (v : Val)
    (h : dict_set_chain c k v = some c1) (k1 : Key) :
    dict_get_chain c1 k1 = if k1 = k then v else dict_get_chain c k1 := by
  induction c generalizing c1 with
  | nil => simp [dict_set_chain] at h
  | cons a c ih =>
    simp only [dict_set_chain, dict_key_equals_eq_decide] at h
    by_cases hk : a.key = k
    · simp only [hk, decide_True, if_true, Option.some.injEq] at h
      subst h
      simp only [dict_get_chain, dict_key_equals_eq_decide, hk]
      by_cases h1 : k = k1
      · simp [h1]
      · simp [h1, Ne.symm h1]
    · simp only [hk, decide_False, if_false] at h
      obtain ⟨c2, hc2, rfl⟩ := Option.map_eq_some'.1 h
      simp only [dict_get_chain, dict_key_equals_eq_decide]
      by_cases h1 : a.key = k1
      · have : k1 ≠ k := fun e => hk (h1.trans e)
        simp [h1, this]
      · simp [h1, ih c2 hc2]

theorem dict_set_chain_mem (c c1 : List dict_node) (k : Key) (v : Val)
    (h : dict_set_chain c k v = some c1) :
    (∃ n ∈ c1, n.key = k ∧ n.val = v) ∧
    ∀ n ∈ c1, n.key = k ∨ n ∈ c := by
  induction c generalizing c1 with
  | nil => simp [dict_set_chain] at h
  | cons a c ih =>
    simp only [dict_set_chain, dict_key_equals_eq_decide] at h
    by_cases hk : a.key = k
    · simp only [hk, decide_True, if_true, Option.some.injEq] at h
      subst h
      refine ⟨⟨_, List.mem_cons_self _ _, rfl, rfl⟩, ?_⟩
      intro n hn
      rcases List.mem_cons.1 hn with rfl | hn
      · exact Or.inl rfl
      · exact Or.inr (List.mem_cons_of_mem _ hn)
    · simp only [hk, decide_False, if_false] at h
      obtain ⟨c2, hc2, rfl⟩ := Option.map_eq_some'.1 h
      obtain ⟨⟨n, hn, h1, h2⟩, h3⟩ := ih c2 hc2
      refine ⟨⟨n, List.mem_cons_of_mem _ hn, h1, h2⟩, ?_⟩
      intro m hm
      rcases List.mem_cons.1 hm with rfl | hm
      · exact Or.inr (List.mem_cons_self _ _)
      · rcases h3 m hm with h4 | h4
        · exact Or.inl h4
        · exact Or.inr (List.mem_cons_of_mem _ h4)

theorem dict_pop_chain_none_iff (c : List dict_node) (k : Key) :
    dict_pop_chain c k = none ↔ ∀ n ∈ c, n.key ≠ k := by
  induction c with
  | nil => simp [dict_pop_chain]
  | cons a c ih =>
    simp only [dict_pop_chain, dict_key_equals_eq_decide, List.mem_cons, forall_eq_or_imp]
    by_cases h : a.key = k
    · simp [h]
    · simp [h, ih]

theorem dict_pop_chain_some (c c1 : List dict_node) (k : Key) (v : Val)
    (h : dict_pop_chain c k = some (v, c1)) :
    ∃ n, n.key = k ∧ n.val = v ∧ List.Perm c (n :: c1) := by
  induction c generalizing c1 with
  | nil => simp [dict_pop_chain] at h
  | cons a c ih =>
    simp only [dict_pop_chain, dict_key_equals_eq_decide] at h
    by_cases hk : a.key = k
    · simp only [hk, decide_True, if_true, Option.some.injEq, Prod.mk.injEq] at h
      obtain ⟨rfl, rfl⟩ := h
      exact ⟨a, hk, rfl, List.Perm.refl _⟩
    · simp only [hk, decide_False, if_false] at h
      obtain ⟨⟨v2, c2⟩, hc2, h5⟩ := Option.map_eq_some'.1 h
      simp only [Prod.mk.injEq] at h5
      obtain ⟨rfl, rfl⟩ := h5
      obtain ⟨n, h1, h2, h3⟩ := ih c2 hc2
      exact ⟨n, h1, h2, (List.Perm.cons a h3).trans (List.Perm.swap _ _ _)⟩

/-! ### Lookup in a well-formed table -/

theorem flatten_replicate_nil (n : Nat) :
    (List.replicate n ([] : List dict_node)).flatten = [] := by
  induction n with
  | zero => rfl
  | succ n ih => simp [List.replicate_succ, ih]

theorem getD_replicate_nil (n i : Nat) :
    (List.replicate n ([] : List dict_node)).getD i [] = [] := by
  by_cases h : i < n
  · rw [List.getD_eq_getElem _ _ (by simpa using h)]; simp
  · rw [List.getD_eq_default _ _ (by simpa using h)]

theorem dict_table_idx_lt (env : dict_env) (d : dict) (he : env_ok env)
    (hw : dict_wf env d) (k : Key) : dict_table_idx env d.idx k < d.table.length := by
  rw [hw.table_len]
  exact Nat.mod_lt _ (he d.idx hw.idx_le)

theorem mem_nodes_bucket (env : dict_env) (d : dict) (hw : dict_wf env d) (n : dict_node)
    (hn : n ∈ dict_nodes d) : n ∈ d.table.getD (dict_table_idx env d.idx n.key) [] := by
  obtain ⟨i, hi⟩ := (mem_flatten_iff_getD d.table n).1 hn
  rw [hw.placed i n hi]; exact hi

theorem dict_get_of_mem (env : dict_env) (d : dict) (hw : dict_wf env d) (n : dict_node)
    (hn : n ∈ dict_nodes d) : dict_get env d n.key = n.val :=
  dict_get_chain_of_mem _ n (chain_keys_nodup_of_flatten d.table _ hw.keys_nodup)
    (mem_nodes_bucket env d hw n hn)

theorem dict_get_of_not_mem (env : dict_env) (d : dict) (k : Key)
    (h : ∀ n ∈ dict_nodes d, n.key ≠ k) : dict_get env d k = NULL :=
  dict_get_chain_of_not_mem _ k
    (fun n hn => h n ((mem_flatten_iff_getD d.table n).2 ⟨_, hn⟩))

theorem dict_has_iff (env : dict_env) (d : dict) (hw : dict_wf env d) (k : Key) :
    dict_has env d k = true ↔ ∃ n ∈ dict_nodes d, n.key = k := by
  unfold dict_has
  rw [dict_has_chain_iff]
  constructor
  · rintro ⟨n, hn, hk⟩
    exact ⟨n, (mem_flatten_iff_getD d.table n).2 ⟨_, hn⟩, hk⟩
  · rintro ⟨n, hn, hk⟩
    refine ⟨n, ?_, hk⟩
    have := mem_nodes_bucket env d hw n hn
    rwa [hk] at this

theorem dict_new_eq (env : dict_env) (d : dict) (h : dict_new env true true = some d) :
    d = { idx := 0, len := 0, table := List.replicate (dict_table_size env 0) [] } := by
  simp only [dict_new, if_true, Option.some.injEq] at h
  exact h.symm

theorem dict_new_wf (env : dict_env) (d : dict) (h : dict_new env true true = some d) :
    dict_wf env d := by
  rw [dict_new_eq env d h]
  refine ⟨Nat.zero_le _, by simp, ?_, ?_, ?_, ?_⟩
  · intro i n hn
    rw [getD_replicate_nil] at hn
    simp at hn
  · simp [dict_nodes, flatten_replicate_nil]
  · simp [dict_nodes, flatten_replicate_nil]
  · simp [dict_nodes, flatten_replicate_nil]

/-! ### Lemmas on the rehash loops -/

theorem dict_resize_chain_eq (env : dict_env) (ni : Nat) (c : List dict_node) (mem : Nat)
    (nt : List (List dict_node)) :
    dict_resize_chain env ni c mem nt =
      { ok := decide (c.length ≤ mem), mem := mem - c.length,
        old := (c.take mem).map dict_node_free ++ c.drop mem,
        new_table := (c.take mem).foldl (rehash_link env ni) nt } := by
  induction c generalizing mem nt with
  | nil => simp [dict_resize_chain]
  | cons a c ih =>
    cases mem with
    | zero => simp [dict_resize_chain, dict_node_new]
    | succ m =>
      simp only [dict_resize_chain, dict_node_new, ih, List.length_cons, List.take_succ_cons,
        List.map_cons, List.cons_append, List.drop_succ_cons, List.foldl_cons, rehash_link,
        Nat.add_le_add_iff_right, Nat.add_sub_add_right]

theorem flatten_take_succ (t : List (List dict_node)) (n : Nat) :
    (t.take (n + 1)).flatten = (t.take n).flatten ++ t.getD n [] := by
  rw [List.take_succ, List.flatten_append, List.getD_eq_getElem?_getD]
  cases h : t[n]? with
  | none => simp
  | some c => simp

theorem dict_resize_loop_succ (env : dict_env) (ni n mem : Nat) (old nt : List (List dict_node)) :
    dict_resize_loop env ni (n + 1) mem old nt =
      dict_resize_bucket env ni (dict_resize_loop env ni n mem old nt) n := by
  simp [dict_resize_loop, List.range_succ, List.foldl_append]

theorem dict_resize_loop_enough (env : dict_env) (ni n mem : Nat)
    (old nt : List (List dict_node)) (h : ((old.take n).flatten).length ≤ mem) :
    (dict_resize_loop env ni n mem old nt).ok = true ∧
    (dict_resize_loop env ni n mem old nt).mem = mem - ((old.take n).flatten).length ∧
    (dict_resize_loop env ni n mem old nt).new_table =
      ((old.take n).flatten).foldl (rehash_link env ni) nt ∧
    ∀ i, n ≤ i → (dict_resize_loop env ni n mem old nt).old.getD i [] = old.getD i [] := by
  induction n with
  | zero => simp [dict_resize_loop]
  | succ n ih =>
    rw [flatten_take_succ, List.length_append] at h
    obtain ⟨h1, h2, h3, h4⟩ := ih (by omega)
    rw [dict_resize_loop_succ]
    simp only [dict_resize_bucket, h1, if_true, dict_resize_chain_eq, h4 n (le_refl n), h2, h3]
    have hle : (old.getD n []).length ≤ mem - ((old.take n).flatten).length := by omega
    refine ⟨by simpa using hle, ?_, ?_, ?_⟩
    · rw [flatten_take_succ, List.length_append]; omega
    · rw [flatten_take_succ, List.foldl_append, List.take_of_length_le hle]
    · intro i hi
      rw [getD_set_chain]
      have : ¬ (n = i ∧ n < (dict_resize_loop env ni n mem old nt).old.length) := by omega
      rw [if_neg this]
      exact h4 i (by omega)

theorem dict_resize_loop_short (env : dict_env) (ni n mem : Nat)
    (old nt : List (List dict_node)) (h : mem < ((old.take n).flatten).length) :
    (dict_resize_loop env ni n mem old nt).ok = false := by
  induction n with
  | zero => simp at h
  | succ n ih =>
    rw [dict_resize_loop_succ]
    by_cases h1 : mem < ((old.take n).flatten).length
    · simp [dict_resize_bucket, ih h1]
    · obtain ⟨h2, h3, _, h5⟩ := dict_resize_loop_enough env ni n mem old nt (not_lt.1 h1)
      rw [flatten_take_succ, List.length_append] at h
      simp only [dict_resize_bucket, h2, if_true, dict_resize_chain_eq, h5 n (le_refl n), h3]
      simp only [decide_eq_false_iff_not, not_le]
      omega

theorem set_same_kv (t : List (List dict_node)) (i : Nat) (c : List dict_node)
    (h : c.map node_kv = (t.getD i []).map node_kv) :
    (t.set i c).map (List.map node_kv) = t.map (List.map node_kv) := by
  induction t generalizing i with
  | nil => simp
  | cons a t ih =>
    cases i with
    | zero => simpa using h
    | succ i => simpa using ih i (by simpa using h)

theorem dict_resize_chain_kv (env : dict_env) (ni : Nat) (c : List dict_node) (mem : Nat)
    (nt : List (List dict_node)) :
    (dict_resize_chain env ni c mem nt).old.map node_kv = c.map node_kv := by
  rw [dict_resize_chain_eq]
  simp only [List.map_append, List.map_map]
  have : (node_kv ∘ dict_node_free) = node_kv := by
    funext n; rfl
  rw [this, ← List.map_append, List.take_append_drop]

theorem dict_resize_loop_kv (env : dict_env) (ni n mem : Nat) (old nt : List (List dict_node)) :
    (dict_resize_loop env ni n mem old nt).old.map (List.map node_kv) =
      old.map (List.map node_kv) := by
  induction n with
  | zero => simp [dict_resize_loop]
  | succ n ih =>
    rw [dict_resize_loop_succ]
    unfold dict_resize_bucket
    split
    · simp only
      rw [set_same_kv _ _ _ (dict_resize_chain_kv _ _ _ _ _), ih]
    · exact ih

/-! ### Placement and the table after a resize -/

theorem table_placed_chain_link (env : dict_env) (idx : Nat) (t : List (List dict_node))
    (n : dict_node) (h : table_placed env idx t) :
    table_placed env idx (chain_link t (dict_table_idx env idx n.key) n) := by
  intro i m hm
  rw [getD_chain_link] at hm
  split at hm
  · rename_i hc
    rcases List.mem_append.1 hm with h1 | h1
    · exact h _ m (hc.1 ▸ h1)
    · simp only [List.mem_singleton] at h1
      rw [h1]; exact hc.1
  · exact h i m hm

theorem rehash_fold_length (env : dict_env) (ni : Nat) (nodes : List dict_node)
    (t : List (List dict_node)) : (nodes.foldl (rehash_link env ni) t).length = t.length := by
  induction nodes generalizing t with
  | nil => rfl
  | cons a l ih => simp [List.foldl_cons, ih, rehash_link, chain_link_length]

theorem rehash_fold_placed (env : dict_env) (ni : Nat) (nodes : List dict_node)
    (t : List (List dict_node)) (h : table_placed env ni t) :
    table_placed env ni (nodes.foldl (rehash_link env ni) t) := by
  induction nodes generalizing t with
  | nil => exact h
  | cons a l ih =>
    rw [List.foldl_cons]
    exact ih _ (table_placed_chain_link env ni t
      { key := a.key, val := a.val, freed := false } h)

theorem rehash_fold_perm (env : dict_env) (ni : Nat) (nodes : List dict_node)
    (t : List (List dict_node)) (hpos : 0 < dict_table_size env ni)
    (hlen : t.length = dict_table_size env ni) (hlive : ∀ n ∈ nodes, n.freed = false) :
    List.Perm (nodes.foldl (rehash_link env ni) t).flatten (t.flatten ++ nodes) := by
  induction nodes generalizing t with
  | nil => simp
  | cons a l ih =>
    rw [List.foldl_cons]
    have ha : ({ key := a.key, val := a.val, freed := false } : dict_node) = a := by
      have := hlive a (List.mem_cons_self _ _)
      cases a; simp_all
    have hi : dict_table_idx env ni a.key < t.length := by
      rw [hlen]; exact Nat.mod_lt _ hpos
    have h1 := ih (rehash_link env ni t a) (by simp [rehash_link, chain_link_length, hlen])
      (fun n hn => hlive n (List.mem_cons_of_mem _ hn))
    refine h1.trans ?_
    have h2 : List.Perm (rehash_link env ni t a).flatten (a :: t.flatten) := by
      unfold rehash_link
      rw [ha]
      exact flatten_chain_link_perm t _ a hi
    refine (List.Perm.append_right l h2).trans ?_
    simp only [List.cons_append]
    exact (List.perm_middle).symm

theorem table_placed_replicate (env : dict_env) (idx n : Nat) :
    table_placed env idx (List.replicate n []) := by
  intro i m hm
  rw [getD_replicate_nil] at hm
  simp at hm

theorem dict_resize_loop_eq_loop (env : dict_env) (mem : Nat) (d : dict) :
    dict_resize env mem d =
      if d.idx + 1 > env.dict_idx_max then (DICT_ENOMEM, d, mem)
      else dict_resize_finish d (d.idx + 1)
        (dict_resize_loop env (d.idx + 1) (dict_table_size env d.idx) mem d.table
          (List.replicate (dict_table_size env (d.idx + 1)) [])) := by
  rfl

theorem dict_resize_enough (env : dict_env) (mem : Nat) (d : dict)
    (hlen : d.table.length = dict_table_size env d.idx)
    (hidx : d.idx < env.dict_idx_max) (hmem : (dict_nodes d).length ≤ mem) :
    dict_resize env mem d = (DICT_OK, dict_resized env d, mem - (dict_nodes d).length) := by
  have ht : d.table.take (dict_table_size env d.idx) = d.table := by
    rw [← hlen]; exact List.take_length _
  obtain ⟨h1, h2, h3, _⟩ := dict_resize_loop_enough env (d.idx + 1) (dict_table_size env d.idx)
    mem d.table (List.replicate (dict_table_size env (d.idx + 1)) [])
    (by rw [ht]; exact hmem)
  rw [dict_resize_loop_eq_loop, if_neg (by omega)]
  unfold dict_resize_finish
  rw [h1, if_pos rfl, h2, h3, ht]
  rfl

theorem dict_resize_short (env : dict_env) (mem : Nat) (d : dict)
    (hlen : d.table.length = dict_table_size env d.idx)
    (hmem : mem < (dict_nodes d).length) :
    (dict_resize env mem d).1 = DICT_ENOMEM := by
  have ht : d.table.take (dict_table_size env d.idx) = d.table := by
    rw [← hlen]; exact List.take_length _
  have h1 := dict_resize_loop_short env (d.idx + 1) (dict_table_size env d.idx)
    mem d.table (List.replicate (dict_table_size env (d.idx + 1)) [])
    (by rw [ht]; exact hmem)
  rw [dict_resize_loop_eq_loop]
  split
  · rfl
  · unfold dict_resize_finish
    rw [h1]; rfl

theorem dict_resize_full (env : dict_env) (mem : Nat) (d : dict)
    (hidx : env.dict_idx_max ≤ d.idx) : dict_resize env mem d = (DICT_ENOMEM, d, mem) := by
  rw [dict_resize_loop_eq_loop, if_pos (by omega)]

/-- A successful `dict_resize` had enough allocations and installs `dict_resized`. -/
theorem dict_resize_ok_inv (env : dict_env) (mem : Nat) (d d1 : dict) (m1 : Nat)
    (hlen : d.table.length = dict_table_size env d.idx)
    (h : dict_resize env mem d = (DICT_OK, d1, m1)) :
    d.idx < env.dict_idx_max ∧ (dict_nodes d).length ≤ mem ∧ d1 = dict_resized env d ∧
      m1 = mem - (dict_nodes d).length := by
  by_cases hidx : env.dict_idx_max ≤ d.idx
  · rw [dict_resize_full env mem d hidx] at h
    simp at h
  · by_cases hmem : mem < (dict_nodes d).length
    · have := dict_resize_short env mem d hlen hmem
      rw [h] at this
      simp at this
    · rw [dict_resize_enough env mem d hlen (by omega) (by omega)] at h
      simp only [Prod.mk.injEq, true_and] at h
      exact ⟨by omega, by omega, h.1.symm, h.2.symm⟩

theorem dict_resized_perm (env : dict_env) (d : dict) (he : env_ok env) (hw : dict_wf env d)
    (hidx : d.idx < env.dict_idx_max) :
    List.Perm (dict_nodes (dict_resized env d)) (dict_nodes d) := by
  have := rehash_fold_perm env (d.idx + 1) (dict_nodes d)
    (List.replicate (dict_table_size env (d.idx + 1)) []) (he _ (by omega)) (by simp) hw.live
  simpa [dict_nodes, dict_resized, flatten_replicate_nil] using this

theorem dict_resized_wf (env : dict_env) (d : dict) (he : env_ok env) (hw : dict_wf env d)
    (hidx : d.idx < env.dict_idx_max) : dict_wf env (dict_resized env d) := by
  have hp := dict_resized_perm env d he hw hidx
  refine ⟨by simp only [dict_resized]; omega, ?_, ?_, ?_, ?_, ?_⟩
  · simp [dict_resized, rehash_fold_length]
  · exact rehash_fold_placed env _ _ _ (table_placed_replicate env _ _)
  · exact ((hp.map dict_node.key).nodup_iff).2 hw.keys_nodup
  · rw [hp.length_eq]; exact hw.len_eq
  · intro n hn
    exact hw.live n (hp.subset hn)

/-! ### `dict_set` on a well-formed table -/

theorem dict_node_eq (a b : dict_node) (h1 : a.key = b.key) (h2 : a.val = b.val)
    (h3 : a.freed = b.freed) : a = b := by
  cases a; cases b; simp_all

theorem dict_set_chain_keep (c c1 : List dict_node) (k : Key) (v : Val)
    (h : dict_set_chain c k v = some c1) : ∀ n ∈ c, n.key ≠ k → n ∈ c1 := by
  induction c generalizing c1 with
  | nil => simp [dict_set_chain] at h
  | cons a c ih =>
    simp only [dict_set_chain, dict_key_equals_eq_decide] at h
    by_cases hk : a.key = k
    · simp only [hk, decide_True, if_true, Option.some.injEq] at h
      subst h
      intro n hn hne
      rcases List.mem_cons.1 hn with rfl | hn
      · exact absurd hk hne
      · exact List.mem_cons_of_mem _ hn
    · simp only [hk, decide_False, if_false] at h
      obtain ⟨c2, hc2, rfl⟩ := Option.map_eq_some'.1 h
      intro n hn hne
      rcases List.mem_cons.1 hn with rfl | hn
      · exact List.mem_cons_self _ _
      · exact List.mem_cons_of_mem _ (ih c2 hc2 n hn hne)

theorem dict_set_entry_found (env : dict_env) (mem : Nat) (d : dict) (k : Key) (v : Val)
    (c1 : List dict_node)
    (h : dict_set_chain (d.table.getD (dict_table_idx env d.idx k) []) k v = some c1) :
    dict_set_entry env mem d k v =
      (DICT_OK, ⟨d.idx, d.len, d.table.set (dict_table_idx env d.idx k) c1⟩) := by
  unfold dict_set_entry
  simp only [h]

theorem dict_set_entry_absent_zero (env : dict_env) (d : dict) (k : Key) (v : Val)
    (h : dict_set_chain (d.table.getD (dict_table_idx env d.idx k) []) k v = none) :
    dict_set_entry env 0 d k v = (DICT_ENOMEM, d) := by
  unfold dict_set_entry
  simp only [h, dict_node_new]

theorem dict_set_entry_absent_succ (env : dict_env) (m : Nat) (d : dict) (k : Key) (v : Val)
    (h : dict_set_chain (d.table.getD (dict_table_idx env d.idx k) []) k v = none) :
    dict_set_entry env (m + 1) d k v =
      (DICT_OK, ⟨d.idx, d.len + 1,
        chain_link d.table (dict_table_idx env d.idx k) ⟨k, v, false⟩⟩) := by
  unfold dict_set_entry
  simp only [h, dict_node_new]

theorem bucket_mem_nodes (d : dict) (i : Nat) (n : dict_node) (hn : n ∈ d.table.getD i []) :
    n ∈ dict_nodes d :=
  (mem_flatten_iff_getD d.table n).2 ⟨i, hn⟩

theorem dict_overwrite_wf (env : dict_env) (d : dict) (k : Key) (v : Val) (c1 : List dict_node)
    (he : env_ok env) (hw : dict_wf env d)
    (hc : dict_set_chain (d.table.getD (dict_table_idx env d.idx k) []) k v = some c1) :
    dict_wf env ⟨d.idx, d.len, d.table.set (dict_table_idx env d.idx k) c1⟩ := by
  have hi := dict_table_idx_lt env d he hw k
  have hp := flatten_perm_getD d.table _ hi
  have hp1 := flatten_set_perm d.table _ c1 hi
  have hkeys := dict_set_chain_keys _ _ _ _ hc
  have hmem1 := (dict_set_chain_mem _ _ _ _ hc).2
  have hlive1 := dict_set_chain_live _ _ _ _ hc
    (fun n hn => hw.live n (bucket_mem_nodes d _ n hn))
  have hkperm : List.Perm
      ((d.table.set (dict_table_idx env d.idx k) c1).flatten.map dict_node.key)
      ((dict_nodes d).map dict_node.key) := by
    refine (hp1.map _).trans ?_
    refine List.Perm.trans ?_ (hp.map _).symm
    rw [List.map_append, List.map_append, hkeys]
  refine ⟨hw.idx_le, ?_, ?_, ?_, ?_, ?_⟩
  · show (d.table.set _ c1).length = _
    rw [List.length_set]; exact hw.table_len
  · intro i n hn
    have hn2 : n ∈ (d.table.set (dict_table_idx env d.idx k) c1).getD i [] := hn
    rw [getD_set_chain] at hn2
    split at hn2
    · rename_i hc2
      rcases hmem1 n hn2 with h1 | h1
      · show dict_table_idx env d.idx n.key = i
        rw [h1]; exact hc2.1
      · exact hw.placed i n (hc2.1 ▸ h1)
    · exact hw.placed i n hn2
  · exact (hkperm.nodup_iff).2 hw.keys_nodup
  · show d.len = (d.table.set _ c1).flatten.length
    rw [hw.len_eq]
    have := hkperm.length_eq
    rw [List.length_map, List.length_map] at this
    exact this.symm
  · intro n hn
    rcases List.mem_append.1 (hp1.subset hn) with h1 | h1
    · exact hlive1 n h1
    · exact hw.live n (hp.symm.subset (List.mem_append_right _ h1))

theorem dict_overwrite_nodes (env : dict_env) (d : dict) (k : Key) (v : Val)
    (c1 : List dict_node) (he : env_ok env) (hw : dict_wf env d)
    (hc : dict_set_chain (d.table.getD (dict_table_idx env d.idx k) []) k v = some c1)
    (n : dict_node) :
    n ∈ (d.table.set (dict_table_idx env d.idx k) c1).flatten ↔
      (n = ⟨k, v, false⟩ ∨ (n ∈ dict_nodes d ∧ n.key ≠ k)) := by
  have hi := dict_table_idx_lt env d he hw k
  have hp := flatten_perm_getD d.table _ hi
  have hp1 := flatten_set_perm d.table _ c1 hi
  have hwf1 := dict_overwrite_wf env d k v c1 he hw hc
  obtain ⟨⟨n0, hn0, hn0k, hn0v⟩, hmem1⟩ := dict_set_chain_mem _ _ _ _ hc
  have hn0d : n0 ∈ dict_nodes ⟨d.idx, d.len, d.table.set (dict_table_idx env d.idx k) c1⟩ :=
    hp1.symm.subset (List.mem_append_left _ hn0)
  have hn0f : n0 = ⟨k, v, false⟩ := dict_node_eq _ _ hn0k hn0v (hwf1.live n0 hn0d)
  constructor
  · intro hn
    by_cases hk : n.key = k
    · left
      have h2 := dict_get_of_mem env _ hwf1 n hn
      have h3 := dict_get_of_mem env _ hwf1 n0 hn0d
      rw [hk] at h2; rw [hn0k, hn0v] at h3
      exact dict_node_eq _ _ hk (h2.symm.trans h3) (hwf1.live n hn)
    · right
      rcases List.mem_append.1 (hp1.subset hn) with h1 | h1
      · rcases hmem1 n h1 with h2 | h2
        · exact absurd h2 hk
        · exact ⟨bucket_mem_nodes d _ n h2, hk⟩
      · exact ⟨hp.symm.subset (List.mem_append_right _ h1), hk⟩
  · rintro (rfl | ⟨hn, hk⟩)
    · rw [← hn0f]; exact hn0d
    · rcases List.mem_append.1 (hp.subset hn) with h1 | h1
      · exact hp1.symm.subset (List.mem_append_left _ (dict_set_chain_keep _ _ _ _ hc n h1 hk))
      · exact hp1.symm.subset (List.mem_append_right _ h1)

theorem dict_absent_of_chain (env : dict_env) (d : dict) (k : Key) (v : Val)
    (hw : dict_wf env d)
    (hc : dict_set_chain (d.table.getD (dict_table_idx env d.idx k) []) k v = none) :
    ∀ n ∈ dict_nodes d, n.key ≠ k := by
  intro n hn hk
  have := mem_nodes_bucket env d hw n hn
  rw [hk] at this
  exact (dict_set_chain_none_iff _ k v).1 hc n this hk

theorem dict_append_wf (env : dict_env) (d : dict) (k : Key) (v : Val)
    (he : env_ok env) (hw : dict_wf env d) (habs : ∀ n ∈ dict_nodes d, n.key ≠ k) :
    dict_wf env ⟨d.idx, d.len + 1,
      chain_link d.table (dict_table_idx env d.idx k) ⟨k, v, false⟩⟩ := by
  have hi := dict_table_idx_lt env d he hw k
  have hp1 := flatten_chain_link_perm d.table _ ⟨k, v, false⟩ hi
  refine ⟨hw.idx_le, ?_, ?_, ?_, ?_, ?_⟩
  · show (chain_link _ _ _).length = _
    rw [chain_link_length]; exact hw.table_len
  · exact table_placed_chain_link env d.idx d.table ⟨k, v, false⟩ hw.placed
  · refine ((hp1.map dict_node.key).nodup_iff).2 ?_
    simp only [List.map_cons, List.nodup_cons, List.mem_map, not_exists, not_and]
    exact ⟨fun n hn => habs n hn, hw.keys_nodup⟩
  · show d.len + 1 = (chain_link _ _ _).flatten.length
    rw [hp1.length_eq, hw.len_eq]; rfl
  · intro n hn
    rcases List.mem_cons.1 (hp1.subset hn) with rfl | h1
    · rfl
    · exact hw.live n h1

theorem dict_append_nodes (env : dict_env) (d : dict) (k : Key) (v : Val)
    (he : env_ok env) (hw : dict_wf env d) (habs : ∀ n ∈ dict_nodes d, n.key ≠ k)
    (n : dict_node) :
    n ∈ (chain_link d.table (dict_table_idx env d.idx k) ⟨k, v, false⟩).flatten ↔
      (n = ⟨k, v, false⟩ ∨ (n ∈ dict_nodes d ∧ n.key ≠ k)) := by
  have hi := dict_table_idx_lt env d he hw k
  have hp1 := flatten_chain_link_perm d.table _ ⟨k, v, false⟩ hi
  constructor
  · intro hn
    rcases List.mem_cons.1 (hp1.subset hn) with rfl | h1
    · exact Or.inl rfl
    · exact Or.inr ⟨h1, habs n h1⟩
  · rintro (rfl | ⟨hn, _⟩)
    · exact hp1.symm.subset (List.mem_cons_self _ _)
    · exact hp1.symm.subset (List.mem_cons_of_mem _ hn)

/-- What a successful run of the body of `dict_set` does to a well-formed
table: the result is well-formed in the same size class, its entries are the
entry `(k, v)` and the old entries with another key. -/
theorem dict_set_entry_ok (env : dict_env) (mem : Nat) (d d1 : dict) (k : Key) (v : Val)
    (he : env_ok env) (hw : dict_wf env d)
    (h : dict_set_entry env mem d k v = (DICT_OK, d1)) :
    dict_wf env d1 ∧ d1.idx = d.idx ∧
    (∀ n, n ∈ dict_nodes d1 ↔
      (n = ⟨k, v, false⟩ ∨ (n ∈ dict_nodes d ∧ n.key ≠ k))) ∧
    ((∃ n ∈ dict_nodes d, n.key = k) → d1.len = d.len) ∧
    ((∀ n ∈ dict_nodes d, n.key ≠ k) → d1.len = d.len + 1) := by
  cases hc : dict_set_chain (d.table.getD (dict_table_idx env d.idx k) []) k v with
  | some c1 =>
    rw [dict_set_entry_found env mem d k v c1 hc] at h
    simp only [Prod.mk.injEq, true_and] at h
    subst h
    refine ⟨dict_overwrite_wf env d k v c1 he hw hc, rfl,
      dict_overwrite_nodes env d k v c1 he hw hc, fun _ => rfl, ?_⟩
    intro hno
    exfalso
    have := (dict_set_chain_none_iff (d.table.getD (dict_table_idx env d.idx k) []) k v).2
      (fun n hn hk => hno n (bucket_mem_nodes d _ n hn) hk)
    rw [hc] at this
    exact Option.noConfusion this
  | none =>
    have habs := dict_absent_of_chain env d k v hw hc
    cases mem with
    | zero =>
      rw [dict_set_entry_absent_zero env d k v hc] at h
      simp at h
    | succ m =>
      rw [dict_set_entry_absent_succ env m d k v hc] at h
      simp only [Prod.mk.injEq, true_and] at h
      subst h
      refine ⟨dict_append_wf env d k v he hw habs, rfl,
        dict_append_nodes env d k v he hw habs, ?_, fun _ => rfl⟩
      rintro ⟨n, hn, hk⟩
      exact absurd hk (habs n hn)

theorem dict_get_congr (env : dict_env) (d d1 : dict) (hw : dict_wf env d)
    (hw1 : dict_wf env d1) (k : Key)
    (h : ∀ n, n.key = k → (n ∈ dict_nodes d1 ↔ n ∈ dict_nodes d)) :
    dict_get env d1 k = dict_get env d k := by
  by_cases hex : ∃ n ∈ dict_nodes d, n.key = k
  · obtain ⟨n, hn, hk⟩ := hex
    have h1 := dict_get_of_mem env d hw n hn
    have h2 := dict_get_of_mem env d1 hw1 n ((h n hk).2 hn)
    rw [hk] at h1 h2
    rw [h1, h2]
  · have hno : ∀ n ∈ dict_nodes d, n.key ≠ k := fun n hn hk => hex ⟨n, hn, hk⟩
    have hno1 : ∀ n ∈ dict_nodes d1, n.key ≠ k := fun n hn hk => hno n ((h n hk).1 hn) hk
    rw [dict_get_of_not_mem env d k hno, dict_get_of_not_mem env d1 k hno1]

theorem dict_has_congr (env : dict_env) (d d1 : dict) (hw : dict_wf env d)
    (hw1 : dict_wf env d1) (k : Key)
    (h : ∀ n, n.key = k → (n ∈ dict_nodes d1 ↔ n ∈ dict_nodes d)) :
    dict_has env d1 k = dict_has env d k := by
  have h1 := dict_has_iff env d hw k
  have h2 := dict_has_iff env d1 hw1 k
  have h3 : (∃ n ∈ dict_nodes d1, n.key = k) ↔ (∃ n ∈ dict_nodes d, n.key = k) := by
    constructor
    · rintro ⟨n, hn, hk⟩; exact ⟨n, (h n hk).1 hn, hk⟩
    · rintro ⟨n, hn, hk⟩; exact ⟨n, (h n hk).2 hn, hk⟩
  rw [Bool.eq_iff_iff, h1, h2, h3]

theorem dict_set_no_resize (env : dict_env) (mem : Nat) (d : dict) (k : Key) (v : Val)
    (h : env.load_exceeded (dict_table_size env d.idx) (d.len + 1) = false) :
    dict_set env mem d k v = dict_set_entry env mem d k v := by
  unfold dict_set
  simp only [h, Bool.false_eq_true, if_false]

theorem dict_set_resize_ok (env : dict_env) (mem : Nat) (d d1 : dict) (m1 : Nat) (k : Key)
    (v : Val) (h : env.load_exceeded (dict_table_size env d.idx) (d.len + 1) = true)
    (hr : dict_resize env mem d = (DICT_OK, d1, m1)) :
    dict_set env mem d k v = dict_set_entry env m1 d1 k v := by
  unfold dict_set
  simp only [h, if_true, hr]

theorem dict_set_resize_fail (env : dict_env) (mem : Nat) (d d1 : dict) (m1 : Nat) (k : Key)
    (v : Val) (h : env.load_exceeded (dict_table_size env d.idx) (d.len + 1) = true)
    (hr : dict_resize env mem d = (DICT_ENOMEM, d1, m1)) :
    dict_set env mem d k v = (DICT_ENOMEM, d1) := by
  unfold dict_set
  simp only [h, if_true, hr]

/-- What a successful `dict_set` does to a well-formed table, resize
included: the result is well-formed, its size class is the same or the next
one, and its entries are `(k, v)` and the old entries with another key. -/
theorem dict_set_ok (env : dict_env) (mem : Nat) (d d1 : dict) (k : Key) (v : Val)
    (he : env_ok env) (hw : dict_wf env d)
    (h : dict_set env mem d k v = (DICT_OK, d1)) :
    dict_wf env d1 ∧ (d1.idx = d.idx ∨ d1.idx = d.idx + 1) ∧
    (∀ n, n ∈ dict_nodes d1 ↔
      (n = ⟨k, v, false⟩ ∨ (n ∈ dict_nodes d ∧ n.key ≠ k))) ∧
    ((∃ n ∈ dict_nodes d, n.key = k) → d1.len = d.len) ∧
    ((∀ n ∈ dict_nodes d, n.key ≠ k) → d1.len = d.len + 1) := by
  cases hl : env.load_exceeded (dict_table_size env d.idx) (d.len + 1) with
  | false =>
    rw [dict_set_no_resize env mem d k v hl] at h
    obtain ⟨h1, h2, h3, h4, h5⟩ := dict_set_entry_ok env mem d d1 k v he hw h
    exact ⟨h1, Or.inl h2, h3, h4, h5⟩
  | true =>
    rcases hr : dict_resize env mem d with ⟨s, d2, m2⟩
    cases s with
    | DICT_ENOMEM =>
      rw [dict_set_resize_fail env mem d d2 m2 k v hl hr] at h
      simp at h
    | DICT_OK =>
      rw [dict_set_resize_ok env mem d d2 m2 k v hl hr] at h
      obtain ⟨hidx, _, rfl, _⟩ := dict_resize_ok_inv env mem d d2 m2 hw.table_len hr
      have hw2 := dict_resized_wf env d he hw hidx
      have hp := dict_resized_perm env d he hw hidx
      obtain ⟨h1, h2, h3, h4, h5⟩ := dict_set_entry_ok env m2 _ d1 k v he hw2 h
      refine ⟨h1, Or.inr h2, ?_, ?_, ?_⟩
      · intro n
        rw [h3 n]
        constructor
        · rintro (h6 | ⟨h6, h7⟩)
          · exact Or.inl h6
          · exact Or.inr ⟨hp.subset h6, h7⟩
        · rintro (h6 | ⟨h6, h7⟩)
          · exact Or.inl h6
          · exact Or.inr ⟨hp.symm.subset h6, h7⟩
      · rintro ⟨n, hn, hk⟩
        exact h4 ⟨n, hp.symm.subset hn, hk⟩
      · intro hno
        exact h5 (fun n hn => hno n (hp.subset hn))

/-! ### `dict_pop` on a well-formed table -/

theorem size_dec_succ (n : Nat) : size_dec (n + 1) = n := by
  simp [size_dec]

theorem dict_pop_absent (env : dict_env) (d : dict) (k : Key)
    (h : dict_pop_chain (d.table.getD (dict_table_idx env d.idx k) []) k = none) :
    dict_pop env d k = (NULL, d) := by
  unfold dict_pop
  simp only [h]

theorem dict_pop_found (env : dict_env) (d : dict) (k : Key) (v : Val) (c1 : List dict_node)
    (h : dict_pop_chain (d.table.getD (dict_table_idx env d.idx k) []) k = some (v, c1)) :
    dict_pop env d k =
      (v, ⟨d.idx, size_dec d.len, d.table.set (dict_table_idx env d.idx k) c1⟩) := by
  unfold dict_pop
  simp only [h]

/-- What `dict_pop` does to a well-formed table that has an entry `m` for the
key: it returns the value of `m`, and the entries afterwards are the old ones
without `m`. -/
theorem dict_pop_present (env : dict_env) (d : dict) (m : dict_node)
    (he : env_ok env) (hw : dict_wf env d) (hm : m ∈ dict_nodes d) :
    (dict_pop env d m.key).1 = m.val ∧
    dict_wf env (dict_pop env d m.key).2 ∧
    (dict_pop env d m.key).2.idx = d.idx ∧
    (dict_pop env d m.key).2.len + 1 = d.len ∧
    List.Perm (dict_nodes d) (m :: dict_nodes (dict_pop env d m.key).2) := by
  have hi := dict_table_idx_lt env d he hw m.key
  have hp := flatten_perm_getD d.table _ hi
  have hmb := mem_nodes_bucket env d hw m hm
  cases hc : dict_pop_chain (d.table.getD (dict_table_idx env d.idx m.key) []) m.key with
  | none =>
    exact absurd rfl ((dict_pop_chain_none_iff _ _).1 hc m hmb)
  | some r =>
    obtain ⟨v, c1⟩ := r
    rw [dict_pop_found env d m.key v c1 hc]
    obtain ⟨n, hnk, hnv, hperm⟩ := dict_pop_chain_some _ _ _ _ hc
    have hnb : n ∈ d.table.getD (dict_table_idx env d.idx m.key) [] :=
      hperm.symm.subset (List.mem_cons_self _ _)
    have hnd : n ∈ dict_nodes d := bucket_mem_nodes d _ n hnb
    have hnm : n = m := by
      have h1 := dict_get_of_mem env d hw n hnd
      have h2 := dict_get_of_mem env d hw m hm
      rw [hnk] at h1
      exact dict_node_eq _ _ hnk (h1.symm.trans h2)
        ((hw.live n hnd).trans (hw.live m hm).symm)
    subst hnm
    have hp1 := flatten_set_perm d.table (dict_table_idx env d.idx n.key) c1 hi
    have hall : List.Perm (dict_nodes d)
        (n :: (d.table.set (dict_table_idx env d.idx n.key) c1).flatten) := by
      refine hp.trans ?_
      refine (List.Perm.append_right _ hperm).trans ?_
      exact List.Perm.cons n hp1.symm
    have hlen : d.len = (d.table.set (dict_table_idx env d.idx n.key) c1).flatten.length + 1 := by
      rw [hw.len_eq, hall.length_eq]; rfl
    refine ⟨hnv.symm, ⟨hw.idx_le, ?_, ?_, ?_, ?_, ?_⟩, rfl, ?_, hall⟩
    · show (d.table.set _ c1).length = _
      rw [List.length_set]; exact hw.table_len
    · intro i x hx
      have hx2 : x ∈ (d.table.set (dict_table_idx env d.idx n.key) c1).getD i [] := hx
      rw [getD_set_chain] at hx2
      split at hx2
      · rename_i hc2
        exact hw.placed i x (hc2.1 ▸ hperm.symm.subset (List.mem_cons_of_mem _ hx2))
      · exact hw.placed i x hx2
    · have := ((hall.map dict_node.key).nodup_iff).1 hw.keys_nodup
      rw [List.map_cons] at this
      exact (List.nodup_cons.1 this).2
    · show size_dec d.len = _
      rw [hlen, size_dec_succ]; rfl
    · intro x hx
      exact hw.live x (hall.symm.subset (List.mem_cons_of_mem _ hx))
    · show size_dec d.len + 1 = d.len
      rw [hlen, size_dec_succ]

theorem dict_pop_present_gone (env : dict_env) (d : dict) (m : dict_node)
    (he : env_ok env) (hw : dict_wf env d) (hm : m ∈ dict_nodes d) :
    ∀ n ∈ dict_nodes (dict_pop env d m.key).2, n.key ≠ m.key := by
  obtain ⟨_, _, _, _, hperm⟩ := dict_pop_present env d m he hw hm
  have := ((hperm.map dict_node.key).nodup_iff).1 hw.keys_nodup
  rw [List.map_cons] at this
  intro n hn hk
  exact (List.nodup_cons.1 this).1 (List.mem_map.2 ⟨n, hn, hk⟩)

/-! ### `dict_clear` -/

theorem dict_clear_chain_eq (c : List dict_node) (len : Nat) (h : c.length ≤ len) :
    dict_clear_chain c len = len - c.length := by
  induction c generalizing len with
  | nil => simp [dict_clear_chain]
  | cons a c ih =>
    simp only [List.length_cons] at h
    have hd : size_dec len = len - 1 := by
      unfold size_dec
      rw [if_neg (by omega)]
    simp only [dict_clear_chain, List.length_cons, hd]
    rw [ih (len - 1) (by omega)]
    omega

theorem dict_clear_succ (d : dict) (n : Nat) :
    (List.range (n + 1)).foldl dict_clear_bucket d =
      dict_clear_bucket ((List.range n).foldl dict_clear_bucket d) n := by
  simp [List.range_succ, List.foldl_append]

theorem dict_clear_loop_spec (d : dict) (n : Nat)
    (h : ((d.table.take n).flatten).length ≤ d.len) :
    ((List.range n).foldl dict_clear_bucket d).idx = d.idx ∧
    ((List.range n).foldl dict_clear_bucket d).len = d.len - ((d.table.take n).flatten).length ∧
    ((List.range n).foldl dict_clear_bucket d).table.length = d.table.length ∧
    ∀ i, ((List.range n).foldl dict_clear_bucket d).table.getD i [] =
      if i < n then [] else d.table.getD i [] := by
  induction n with
  | zero => simp
  | succ n ih =>
    rw [flatten_take_succ, List.length_append] at h
    obtain ⟨h1, h2, h3, h4⟩ := ih (by omega)
    rw [dict_clear_succ]
    refine ⟨h1, ?_, ?_, ?_⟩
    · show dict_clear_chain _ _ = _
      have h5 := h4 n
      rw [if_neg (lt_irrefl n)] at h5
      rw [h5, h2, dict_clear_chain_eq _ _ (by omega), flatten_take_succ, List.length_append]
      omega
    · show (List.set _ _ _).length = _
      rw [List.length_set]; exact h3
    · intro i
      show (List.set _ _ _).getD i [] = _
      rw [getD_set_chain]
      by_cases hi : n = i
      · subst hi
        by_cases hl : n < ((List.range n).foldl dict_clear_bucket d).table.length
        · simp [hl]
        · rw [if_neg (by tauto), h4 n, if_neg (lt_irrefl n), if_pos (Nat.lt_succ_self n)]
          rw [h3] at hl
          exact List.getD_eq_default _ _ (not_lt.1 hl)
      · rw [if_neg (by tauto), h4 i]
        by_cases hl : i < n
        · rw [if_pos hl, if_pos (by omega)]
        · rw [if_neg hl, if_neg (by omega)]

theorem dict_clear_spec (env : dict_env) (d : dict) (hw : dict_wf env d) :
    (dict_clear env d).idx = d.idx ∧ (dict_clear env d).len = 0 ∧
    (dict_clear env d).table = List.replicate (dict_table_size env d.idx) [] := by
  have ht : d.table.take (dict_table_size env d.idx) = d.table := by
    rw [← hw.table_len]; exact List.take_length _
  have hlen : ((d.table.take (dict_table_size env d.idx)).flatten).length ≤ d.len := by
    rw [ht, hw.len_eq]; rfl
  obtain ⟨h1, h2, h3, h4⟩ := dict_clear_loop_spec d (dict_table_size env d.idx) hlen
  refine ⟨h1, ?_, ?_⟩
  · show ((List.range _).foldl dict_clear_bucket d).len = 0
    rw [h2, ht, hw.len_eq]
    exact Nat.sub_self _
  · show ((List.range _).foldl dict_clear_bucket d).table = _
    apply List.ext_getElem
    · rw [h3, hw.table_len, List.length_replicate]
    · intro i hi1 hi2
      have h5 := h4 i
      rw [List.getD_eq_getElem _ _ hi1] at h5
      rw [h5, List.getElem_replicate]
      rw [h3, hw.table_len] at hi1
      rw [if_pos hi1]

/-! ### The iterator on a table without entries -/

theorem dict_iter_seek_empty (table : List (List dict_node)) (table_size : Nat)
    (h : ∀ i, table.getD i [] = []) (fuel index : Nat) :
    (dict_iter_seek table table_size fuel index []).2 = [] := by
  induction fuel generalizing index with
  | zero => rfl
  | succ fuel ih =>
    unfold dict_iter_seek
    split
    · rfl
    · rw [h index]
      exact ih (index + 1)

theorem dict_iter_next_empty (env : dict_env) (iter : dict_iter)
    (h : ∀ i, iter.dict.table.getD i [] = []) (hn : iter.node = []) :
    (dict_iter_next env iter).1 = none := by
  unfold dict_iter_next
  simp only
  split
  · rfl
  · have h1 := dict_iter_seek_empty iter.dict.table (dict_table_size env iter.dict.idx) h
      (dict_table_size env iter.dict.idx - iter.index + 1) iter.index
    rw [hn]
    split
    · rfl
    · rename_i heq
      rw [heq] at h1
      simp at h1

theorem dict_iter_pass_empty (env : dict_env) (iter : dict_iter)
    (h : ∀ i, iter.dict.table.getD i [] = []) (hn : iter.node = []) (calls : Nat) :
    dict_iter_pass env calls iter = [] := by
  cases calls with
  | zero => rfl
  | succ calls =>
    have h1 := dict_iter_next_empty env iter h hn
    unfold dict_iter_pass
    split
    · rfl
    · rename_i heq
      rw [heq] at h1
      simp at h1

/-! ### Entries with a given key -/

theorem filter_key_singleton (l : List dict_node) (n : dict_node)
    (hnd : (l.map dict_node.key).Nodup) (hn : n ∈ l) :
    l.filter (fun x => decide (x.key = n.key)) = [n] := by
  induction l with
  | nil => simp at hn
  | cons a l ih =>
    simp only [List.map_cons, List.nodup_cons, List.mem_map, not_exists, not_and] at hnd
    rcases List.mem_cons.1 hn with rfl | hn
    · have hno : l.filter (fun x => decide (x.key = n.key)) = [] := by
        rw [List.filter_eq_nil_iff]
        intro x hx
        simpa using hnd.1 x hx
      simp [List.filter_cons, hno]
    · have hne : a.key ≠ n.key := fun e => hnd.1 n hn e.symm
      simp [List.filter_cons, hne, ih hnd.2 hn]

/-! ### Resize and repeated insertion -/

theorem dict_resized_get (env : dict_env) (d : dict) (he : env_ok env) (hw : dict_wf env d)
    (hidx : d.idx < env.dict_idx_max) (k : Key) :
    dict_get env (dict_resized env d) k = dict_get env d k ∧
    dict_has env (dict_resized env d) k = dict_has env d k := by
  have hw1 := dict_resized_wf env d he hw hidx
  have hp := dict_resized_perm env d he hw hidx
  exact ⟨dict_get_congr env d _ hw hw1 k (fun n _ => ⟨fun h => hp.subset h, fun h => hp.symm.subset h⟩),
    dict_has_congr env d _ hw hw1 k (fun n _ => ⟨fun h => hp.subset h, fun h => hp.symm.subset h⟩)⟩

theorem dict_set_get_other (env : dict_env) (mem : Nat) (d d1 : dict) (k k1 : Key) (v : Val)
    (he : env_ok env) (hw : dict_wf env d) (h : dict_set env mem d k v = (DICT_OK, d1))
    (hne : k1 ≠ k) : dict_get env d1 k1 = dict_get env d k1 := by
  obtain ⟨hw1, _, hm, _, _⟩ := dict_set_ok env mem d d1 k v he hw h
  refine dict_get_congr env d d1 hw hw1 k1 ?_
  intro n hk
  rw [hm n]
  constructor
  · rintro (rfl | ⟨h1, _⟩)
    · exact absurd hk.symm hne
    · exact h1
  · intro h1
    exact Or.inr ⟨h1, fun e => hne (hk.symm.trans e)⟩

theorem dict_set_list_cons (env : dict_env) (mem : Nat) (k : Key) (v : Val)
    (rest : List (Nat × Key × Val)) (d d2 : dict)
    (h : dict_set_list env ((mem, k, v) :: rest) d = some d2) :
    ∃ d1, dict_set env mem d k v = (DICT_OK, d1) ∧ dict_set_list env rest d1 = some d2 := by
  unfold dict_set_list at h
  rcases hs : dict_set env mem d k v with ⟨s, d1⟩
  rw [hs] at h
  cases s with
  | DICT_OK => exact ⟨d1, rfl, h⟩
  | DICT_ENOMEM => simp at h

theorem dict_set_list_spec (env : dict_env) (he : env_ok env) (l : List (Nat × Key × Val))
    (d0 d : dict) (hw : dict_wf env d0)
    (hnd : (l.map (fun p => p.2.1)).Nodup)
    (hfresh : ∀ p ∈ l, ∀ n ∈ dict_nodes d0, n.key ≠ p.2.1)
    (h : dict_set_list env l d0 = some d) :
    dict_wf env d ∧ d.len = d0.len + l.length ∧
    (∀ p ∈ l, dict_get env d p.2.1 = p.2.2) ∧
    (∀ k, (∀ p ∈ l, p.2.1 ≠ k) → dict_get env d k = dict_get env d0 k) := by
  induction l generalizing d0 with
  | nil =>
    simp only [dict_set_list, Option.some.injEq] at h
    subst h
    exact ⟨hw, rfl, by simp, fun _ _ => rfl⟩
  | cons p rest ih =>
    obtain ⟨mem, k, v⟩ := p
    obtain ⟨d1, hs, hrest⟩ := dict_set_list_cons env mem k v rest d0 d h
    simp only [List.map_cons, List.nodup_cons, List.mem_map, not_exists, not_and] at hnd
    obtain ⟨hw1, _, hm, _, hlen⟩ := dict_set_ok env mem d0 d1 k v he hw hs
    have hfresh1 : ∀ p ∈ rest, ∀ n ∈ dict_nodes d1, n.key ≠ p.2.1 := by
      intro p hp n hn
      rcases (hm n).1 hn with rfl | ⟨h1, _⟩
      · exact fun e => hnd.1 p hp e.symm
      · exact hfresh p (List.mem_cons_of_mem _ hp) n h1
    obtain ⟨h1, h2, h3, h4⟩ := ih d1 hw1 hnd.2 hfresh1 hrest
    have hlen1 := hlen (fun n hn => hfresh (mem, k, v) (List.mem_cons_self _ _) n hn)
    refine ⟨h1, ?_, ?_, ?_⟩
    · rw [h2, hlen1, List.length_cons]; omega
    · intro p hp
      rcases List.mem_cons.1 hp with rfl | hp
      · have := h4 k (fun q hq e => hnd.1 q hq e)
        rw [this]
        exact dict_get_of_mem env d1 hw1 ⟨k, v, false⟩ ((hm _).2 (Or.inl rfl))
      · exact h3 p hp
    · intro k1 hk1
      rw [h4 k1 (fun q hq => hk1 q (List.mem_cons_of_mem _ hq))]
      exact dict_set_get_other env mem d0 d1 k k1 v he hw hs
        (fun e => hk1 (mem, k, v) (List.mem_cons_self _ _) e.symm)

set_option maxRecDepth 100000 in
theorem key_k_number_key_k : ∀ i, i < 1000 → key_k_number (key_k i) = i := by
  decide

theorem calls_k_keys_nodup (mem : Nat → Nat) (n : Nat) (hn : n ≤ 1000) :
    ((calls_k mem n).map (fun p => p.2.1)).Nodup := by
  unfold calls_k
  rw [List.map_map]
  refine List.Nodup.map_on ?_ (List.nodup_range n)
  intro i hi j hj hij
  have hi1 : i < 1000 := lt_of_lt_of_le (List.mem_range.1 hi) hn
  have hj1 : j < 1000 := lt_of_lt_of_le (List.mem_range.1 hj) hn
  have := congrArg key_k_number (show key_k i = key_k j from hij)
  rwa [key_k_number_key_k i hi1, key_k_number_key_k j hj1] at this

/-! ### The outcomes of a failed `dict_set` -/

theorem set_getD_self (t : List (List dict_node)) (i : Nat) : t.set i (t.getD i []) = t := by
  induction t generalizing i with
  | nil => rfl
  | cons a t ih =>
    cases i with
    | zero => rfl
    | succ i =>
      rw [List.getD_cons_succ, List.set_cons_succ, ih i]

theorem dict_resize_loop_zero (env : dict_env) (ni n : Nat) (old nt : List (List dict_node)) :
    (dict_resize_loop env ni n 0 old nt).old = old ∧
    (dict_resize_loop env ni n 0 old nt).mem = 0 := by
  induction n with
  | zero => exact ⟨rfl, rfl⟩
  | succ n ih =>
    rw [dict_resize_loop_succ]
    unfold dict_resize_bucket
    split
    · simp only [dict_resize_chain_eq, ih.2, List.take_zero, List.map_nil, List.nil_append,
        List.drop_zero, Nat.zero_sub, and_true]
      rw [set_getD_self]
      exact ih.1
    · exact ih

theorem dict_resize_zero (env : dict_env) (d : dict)
    (hlen : d.table.length = dict_table_size env d.idx) (hpos : 0 < (dict_nodes d).length) :
    dict_resize env 0 d = (DICT_ENOMEM, d, 0) := by
  by_cases hidx : env.dict_idx_max ≤ d.idx
  · exact dict_resize_full env 0 d hidx
  · have ht : d.table.take (dict_table_size env d.idx) = d.table := by
      rw [← hlen]; exact List.take_length _
    have h1 := dict_resize_loop_short env (d.idx + 1) (dict_table_size env d.idx)
      0 d.table (List.replicate (dict_table_size env (d.idx + 1)) [])
      (by rw [ht]; exact hpos)
    have h2 := dict_resize_loop_zero env (d.idx + 1) (dict_table_size env d.idx) d.table
      (List.replicate (dict_table_size env (d.idx + 1)) [])
    rw [dict_resize_loop_eq_loop, if_neg (by omega)]
    unfold dict_resize_finish
    rw [h1, h2.1, h2.2]
    rfl

theorem dict_set_entry_enomem (env : dict_env) (mem : Nat) (d d1 : dict) (k : Key) (v : Val)
    (h : dict_set_entry env mem d k v = (DICT_ENOMEM, d1)) : d1 = d ∧ mem = 0 := by
  cases hc : dict_set_chain (d.table.getD (dict_table_idx env d.idx k) []) k v with
  | some c1 =>
    rw [dict_set_entry_found env mem d k v c1 hc] at h
    simp at h
  | none =>
    cases mem with
    | zero =>
      rw [dict_set_entry_absent_zero env d k v hc] at h
      simp only [Prod.mk.injEq, true_and] at h
      exact ⟨h.symm, rfl⟩
    | succ m =>
      rw [dict_set_entry_absent_succ env m d k v hc] at h
      simp at h

/-- A failed `dict_set` leaves a well-formed table when no rehash failed after
its first node allocation: without memory at all, or with memory for every
node of the table. -/
theorem dict_set_enomem_wf (env : dict_env) (mem : Nat) (d d1 : dict) (k : Key) (v : Val)
    (he : env_ok env) (hw : dict_wf env d)
    (h : dict_set env mem d k v = (DICT_ENOMEM, d1)) (hm : mem = 0 ∨ d.len ≤ mem) :
    dict_wf env d1 := by
  cases hl : env.load_exceeded (dict_table_size env d.idx) (d.len + 1) with
  | false =>
    rw [dict_set_no_resize env mem d k v hl] at h
    rw [(dict_set_entry_enomem env mem d d1 k v h).1]
    exact hw
  | true =>
    by_cases hidx : env.dict_idx_max ≤ d.idx
    · have hr := dict_resize_full env mem d hidx
      rw [dict_set_resize_fail env mem d d mem k v hl hr] at h
      simp only [Prod.mk.injEq, true_and] at h
      rw [← h]; exact hw
    · by_cases hmem : d.len ≤ mem
      · have hr := dict_resize_enough env mem d hw.table_len (by omega)
          (by rw [← hw.len_eq]; exact hmem)
        rw [dict_set_resize_ok env mem d _ _ k v hl hr] at h
        rw [(dict_set_entry_enomem env _ _ d1 k v h).1]
        exact dict_resized_wf env d he hw (by omega)
      · have h0 : mem = 0 := by
          rcases hm with h0 | h0
          · exact h0
          · exact absurd h0 hmem
        subst h0
        have hr := dict_resize_zero env d hw.table_len (by rw [← hw.len_eq]; omega)
        rw [dict_set_resize_fail env 0 d d 0 k v hl hr] at h
        simp only [Prod.mk.injEq, true_and] at h
        rw [← h]; exact hw

/-! ### Calls that succeed -/

theorem dict_set_entry_succ (env : dict_env) (m : Nat) (d : dict) (k : Key) (v : Val) :
    (dict_set_entry env (m + 1) d k v).1 = DICT_OK := by
  cases hc : dict_set_chain (d.table.getD (dict_table_idx env d.idx k) []) k v with
  | some c1 => rw [dict_set_entry_found env (m + 1) d k v c1 hc]
  | none => rw [dict_set_entry_absent_succ env m d k v hc]

/-- With memory for one node more than the table holds, and a size class left
when the load test asks for one, `dict_set` returns `DICT_OK`; the size class
afterwards is the next one exactly when the load test asked for a resize. -/
theorem dict_set_enough (env : dict_env) (mem : Nat) (d : dict) (k : Key) (v : Val)
    (he : env_ok env) (hw : dict_wf env d) (hmem : d.len + 1 ≤ mem)
    (hcap : env.load_exceeded (dict_table_size env d.idx) (d.len + 1) = true →
      d.idx < env.dict_idx_max) :
    (dict_set env mem d k v).1 = DICT_OK ∧
    (dict_set env mem d k v).2.idx =
      if env.load_exceeded (dict_table_size env d.idx) (d.len + 1) then d.idx + 1 else d.idx := by
  obtain ⟨m, rfl⟩ : ∃ m, mem = m + 1 := ⟨mem - 1, by omega⟩
  cases hl : env.load_exceeded (dict_table_size env d.idx) (d.len + 1) with
  | false =>
    rw [dict_set_no_resize env (m + 1) d k v hl]
    have h1 := dict_set_entry_succ env m d k v
    refine ⟨h1, ?_⟩
    have h2 := (dict_set_entry_ok env (m + 1) d (dict_set_entry env (m + 1) d k v).2 k v he hw
      (Prod.ext h1 rfl)).2.1
    simpa using h2
  | true =>
    have hlen := hw.len_eq
    have hr := dict_resize_enough env (m + 1) d hw.table_len (hcap hl) (by omega)
    rw [dict_set_resize_ok env (m + 1) d _ _ k v hl hr]
    obtain ⟨m2, hm2⟩ : ∃ m2, m + 1 - (dict_nodes d).length = m2 + 1 :=
      ⟨m + 1 - (dict_nodes d).length - 1, by omega⟩
    rw [hm2]
    have h1 := dict_set_entry_succ env m2 (dict_resized env d) k v
    refine ⟨h1, ?_⟩
    have h2 := (dict_set_entry_ok env (m2 + 1) _ (dict_set_entry env (m2 + 1)
      (dict_resized env d) k v).2 k v he (dict_resized_wf env d he hw (hcap hl))
      (Prod.ext h1 rfl)).2.1
    simpa [dict_resized] using h2

theorem dict_set_list_append (env : dict_env) (l1 l2 : List (Nat × Key × Val)) (d : dict) :
    dict_set_list env (l1 ++ l2) d = (dict_set_list env l1 d).bind (dict_set_list env l2) := by
  induction l1 generalizing d with
  | nil => rfl
  | cons p l1 ih =>
    obtain ⟨mem, k, v⟩ := p
    simp only [List.cons_append, dict_set_list]
    rcases dict_set env mem d k v with ⟨s, d1⟩
    cases s with
    | DICT_OK => exact ih d1
    | DICT_ENOMEM => rfl

theorem calls_k_succ (mem : Nat → Nat) (n : Nat) :
    calls_k mem (n + 1) = calls_k mem n ++ [(mem n, key_k n, n)] := by
  simp [calls_k, List.range_succ]

/-! ### The iterator loop does not depend on its fuel -/

theorem dict_iter_seek_fuel (table : List (List dict_node)) (table_size : Nat)
    (fuel1 fuel2 index : Nat) (node : List dict_node)
    (h1 : table_size - index + 1 ≤ fuel1) (h2 : table_size - index + 1 ≤ fuel2) :
    dict_iter_seek table table_size fuel1 index node =
      dict_iter_seek table table_size fuel2 index node := by
  induction fuel1 generalizing fuel2 index node with
  | zero => omega
  | succ f1 ih =>
    cases fuel2 with
    | zero => omega
    | succ f2 =>
      cases node with
      | cons a c => simp [dict_iter_seek]
      | nil =>
        simp only [dict_iter_seek]
        split
        · rfl
        · exact ih f2 (index + 1) _ (by omega) (by omega)

/-- At `index >= table_size` the function `dict_iter_next` returns `NULL` and
leaves the iterator as it is, whatever node is pending. -/
theorem dict_iter_next_at_end (env : dict_env) (iter : dict_iter)
    (h : dict_table_size env iter.dict.idx ≤ iter.index) :
    dict_iter_next env iter = (none, iter) := by
  unfold dict_iter_next
  simp only [ge_iff_le, h, if_true]

/-! ### Tables built by calls that leave the heap sound -/

theorem dict_pop_wf (env : dict_env) (d : dict) (k : Key) (he : env_ok env)
    (hw : dict_wf env d) : dict_wf env (dict_pop env d k).2 := by
  by_cases hex : ∃ n ∈ dict_nodes d, n.key = k
  · obtain ⟨n, hn, rfl⟩ := hex
    exact (dict_pop_present env d n he hw hn).2.1
  · have hno : dict_pop_chain (d.table.getD (dict_table_idx env d.idx k) []) k = none :=
      (dict_pop_chain_none_iff _ _).2
        (fun n hn hk => hex ⟨n, bucket_mem_nodes d _ n hn, hk⟩)
    rw [dict_pop_absent env d k hno]
    exact hw

theorem dict_clear_wf (env : dict_env) (d : dict) (hw : dict_wf env d) :
    dict_wf env (dict_clear env d) := by
  obtain ⟨h1, h2, h3⟩ := dict_clear_spec env d hw
  refine ⟨by rw [h1]; exact hw.idx_le, by rw [h3, h1, List.length_replicate], ?_, ?_, ?_, ?_⟩
  · rw [h3]; exact table_placed_replicate env _ _
  · simp [dict_nodes, h3, flatten_replicate_nil]
  · simp [dict_nodes, h3, h2, flatten_replicate_nil]
  · simp [dict_nodes, h3, flatten_replicate_nil]

/-- Every table built by such calls is well-formed. -/
theorem dict_built_wf (env : dict_env) (he : env_ok env) (d : dict) (h : dict_built env d) :
    dict_wf env d := by
  induction h with
  | new d h => exact dict_new_wf env d h
  | set mem d d1 k v _ hs ih => exact (dict_set_ok env mem d d1 k v he ih hs).1
  | set_enomem mem d d1 k v _ hs hm ih =>
    exact dict_set_enomem_wf env mem d d1 k v he ih hs hm
  | pop d k _ ih => exact dict_pop_wf env d k he ih
  | clear d _ ih => exact dict_clear_wf env d ih
  | resize mem d d1 m1 _ hr ih =>
    obtain ⟨hidx, _, rfl, _⟩ := dict_resize_ok_inv env mem d d1 m1 ih.table_len hr
    exact dict_resized_wf env d he ih hidx

/-- On every table built by such calls `dict_len` is the number of linked
nodes, all of them live, and the number of distinct keys. -/
theorem dict_built_count (env : dict_env) (he : env_ok env) (d : dict) (h : dict_built env d) :
    dict_len d = (dict_nodes d).length ∧
    (dict_nodes d).length = ((dict_nodes d).map dict_node.key).dedup.length ∧
    ∀ n ∈ dict_nodes d, n.freed = false := by
  have hw := dict_built_wf env he d h
  refine ⟨hw.len_eq, ?_, hw.live⟩
  rw [List.Nodup.dedup hw.keys_nodup, List.length_map]

/-! ### Lemmas on a pass of the iterator -/

theorem dict_iter_yield_cons_nil (l : List (List dict_node)) :
    dict_iter_yield ([] :: l) = dict_iter_yield l := by
  cases l with
  | nil => rfl
  | cons c rest => rfl

theorem dict_iter_yield_cons (a : dict_node) (c : List dict_node) (l : List (List dict_node)) :
    dict_iter_yield ((a :: c) :: l) = if l = [] then [a] else a :: c ++ dict_iter_yield l := by
  cases l with
  | nil => rfl
  | cons c1 rest => rfl

theorem drop_eq_getD_cons (t : List (List dict_node)) (i : Nat) (h : i < t.length) :
    t.drop i = t.getD i [] :: t.drop (i + 1) := by
  rw [List.getD_eq_getElem _ _ h]
  exact List.drop_eq_getElem_cons h

/-- The loop of `dict_iter_next` started without a pending node: either it ends
without a node and nothing was left to return, or it ends on the head of a
chain and what is left to return starts with that head. -/
theorem dict_iter_seek_spec (t : List (List dict_node)) (fuel i : Nat)
    (hf : t.length - i + 1 ≤ fuel) :
    ((dict_iter_seek t t.length fuel i []).2 = [] → dict_iter_yield (t.drop i) = []) ∧
    ∀ a c, (dict_iter_seek t t.length fuel i []).2 = a :: c →
      i < (dict_iter_seek t t.length fuel i []).1 ∧
      (dict_iter_seek t t.length fuel i []).1 ≤ t.length ∧
      dict_iter_yield (t.drop i) =
        if (dict_iter_seek t t.length fuel i []).1 = t.length then [a]
        else a :: c ++ dict_iter_yield (t.drop (dict_iter_seek t t.length fuel i []).1) := by
  induction fuel generalizing i with
  | zero => omega
  | succ fuel ih =>
    by_cases hi : t.length ≤ i
    · have hs : dict_iter_seek t t.length (fuel + 1) i [] = (i, []) := by
        simp [dict_iter_seek, hi]
      rw [hs]
      refine ⟨fun _ => by rw [List.drop_eq_nil_of_le hi]; rfl, ?_⟩
      intro a c h
      simp at h
    · have hlt : i < t.length := not_le.1 hi
      have hs : dict_iter_seek t t.length (fuel + 1) i [] =
          dict_iter_seek t t.length fuel (i + 1) (t.getD i []) := by
        simp [dict_iter_seek, hi]
      rw [hs, drop_eq_getD_cons t i hlt]
      cases hc : t.getD i [] with
      | nil =>
        rw [dict_iter_yield_cons_nil]
        obtain ⟨h1, h2⟩ := ih (i + 1) (by omega)
        refine ⟨h1, ?_⟩
        intro a c h
        obtain ⟨h3, h4, h5⟩ := h2 a c h
        exact ⟨by omega, h4, h5⟩
      | cons a c =>
        have hs2 : dict_iter_seek t t.length fuel (i + 1) (a :: c) = (i + 1, a :: c) := by
          cases fuel <;> rfl
        rw [hs2, dict_iter_yield_cons]
        refine ⟨fun h => by simp at h, ?_⟩
        intro a1 c1 h
        simp only [List.cons.injEq] at h
        obtain ⟨rfl, rfl⟩ := h
        refine ⟨Nat.lt_succ_self i, hlt, ?_⟩
        by_cases hl : i + 1 = t.length
        · rw [if_pos hl, if_pos (List.drop_eq_nil_of_le (le_of_eq hl.symm))]
        · rw [if_neg hl, if_neg]
          intro hnil
          have := List.drop_eq_nil_iff.1 hnil
          omega

/-- A pass of enough calls returns what is left to return. -/
theorem dict_iter_pass_left (env : dict_env) (calls : Nat) (iter : dict_iter)
    (hlen : iter.dict.table.length = dict_table_size env iter.dict.idx)
    (hc : (dict_iter_left env iter).length ≤ calls) :
    dict_iter_pass env calls iter = dict_iter_left env iter := by
  induction calls generalizing iter with
  | zero =>
    have : dict_iter_left env iter = [] := List.length_eq_zero.1 (Nat.le_zero.1 hc)
    rw [this]; rfl
  | succ calls ih =>
    by_cases hend : dict_table_size env iter.dict.idx ≤ iter.index
    · have hl : dict_iter_left env iter = [] := by simp [dict_iter_left, hend]
      rw [hl]
      unfold dict_iter_pass
      rw [dict_iter_next_at_end env iter hend]
    · have hleft : dict_iter_left env iter =
          iter.node ++ dict_iter_yield (iter.dict.table.drop iter.index) := by
        simp [dict_iter_left, hend]
      unfold dict_iter_pass dict_iter_next
      simp only [ge_iff_le, hend, if_false]
      cases hn : iter.node with
      | cons a c =>
        have hs : dict_iter_seek iter.dict.table (dict_table_size env iter.dict.idx)
            (dict_table_size env iter.dict.idx - iter.index + 1) iter.index (a :: c) =
            (iter.index, a :: c) := rfl
        rw [hs]
        simp only
        have hl2 : dict_iter_left env ⟨iter.dict, iter.index, c⟩ =
            c ++ dict_iter_yield (iter.dict.table.drop iter.index) := by
          simp [dict_iter_left, hend]
        rw [hleft, hn] at hc ⊢
        rw [ih ⟨iter.dict, iter.index, c⟩ hlen
          (by rw [hl2]; simp only [List.cons_append, List.length_cons] at hc; omega), hl2]
        rfl
      | nil =>
        rw [hleft, hn, List.nil_append] at hc ⊢
        rw [← hlen] at hend ⊢
        obtain ⟨h1, h2⟩ := dict_iter_seek_spec iter.dict.table
          (iter.dict.table.length - iter.index + 1) iter.index (le_refl _)
        rcases hs : dict_iter_seek iter.dict.table iter.dict.table.length
            (iter.dict.table.length - iter.index + 1) iter.index [] with ⟨j, q⟩
        rw [hs] at h1 h2
        cases q with
        | nil =>
          simp only
          exact (h1 rfl).symm
        | cons a c =>
          simp only
          obtain ⟨_, h4, h5⟩ := h2 a c rfl
          simp only at h4 h5
          have hl2 : dict_iter_left env ⟨iter.dict, j, c⟩ =
              if j = iter.dict.table.length then []
              else c ++ dict_iter_yield (iter.dict.table.drop j) := by
            unfold dict_iter_left
            simp only
            rw [← hlen]
            by_cases hj : j = iter.dict.table.length
            · rw [if_pos (le_of_eq hj.symm), if_pos hj]
            · rw [if_neg (by omega), if_neg hj]
          rw [h5] at hc ⊢
          rw [ih ⟨iter.dict, j, c⟩ hlen (by
            rw [hl2]
            by_cases hj : j = iter.dict.table.length
            · simp [hj]
            · rw [if_neg hj] at hc ⊢
              simp only [List.cons_append, List.length_cons] at hc
              omega), hl2]
          by_cases hj : j = iter.dict.table.length
          · rw [if_pos hj, if_pos hj]
          · rw [if_neg hj, if_neg hj]; rfl

theorem dict_iter_yield_flatten (t : List (List dict_node)) :
    dict_iter_yield t ++ (t.getLastD []).drop 1 = t.flatten := by
  induction t with
  | nil => rfl
  | cons c t ih =>
    cases t with
    | nil =>
      cases c with
      | nil => rfl
      | cons a c => simp [dict_iter_yield]
    | cons c1 rest =>
      simp only [dict_iter_yield, List.flatten_cons, List.append_assoc]
      have : (c :: c1 :: rest).getLastD [] = (c1 :: rest).getLastD [] := by simp
      rw [this, ih]
      rfl

/-- On a table whose array has the size of its class, a pass of `dict_len`
calls or more from a fresh iterator returns `dict_iter_yield` of the buckets:
all entries but those behind the head of the last bucket. -/
theorem dict_iter_pass_fresh (env : dict_env) (d : dict) (calls : Nat)
    (hw : dict_wf env d) (hc : d.len ≤ calls) :
    dict_iter_pass env calls ⟨d, 0, []⟩ = dict_iter_yield d.table := by
  have hfl := dict_iter_yield_flatten d.table
  have hle : (dict_iter_yield d.table).length ≤ d.len := by
    rw [hw.len_eq]
    show _ ≤ d.table.flatten.length
    rw [← hfl, List.length_append]
    omega
  have hleft : dict_iter_left env ⟨d, 0, []⟩ = dict_iter_yield d.table := by
    unfold dict_iter_left
    simp only [List.drop_zero, List.nil_append]
    split
    · rename_i h0
      have : d.table = [] := by
        have := hw.table_len
        exact List.length_eq_zero.1 (by omega)
      rw [this]; rfl
    · rfl
  rw [dict_iter_pass_left env calls ⟨d, 0, []⟩ hw.table_len (by rw [hleft]; omega), hleft]

/-- A pass returns `dict_len` entries less the entries behind the head of the
last bucket. -/
theorem dict_iter_pass_count (env : dict_env) (d : dict) (calls : Nat)
    (hw : dict_wf env d) (hc : d.len ≤ calls) :
    (dict_iter_pass env calls ⟨d, 0, []⟩).length + ((d.table.getLastD []).drop 1).length =
      dict_len d := by
  rw [dict_iter_pass_fresh env d calls hw hc, ← List.length_append, dict_iter_yield_flatten]
  exact hw.len_eq.symm

/-! ### A rehash that fails part-way -/

theorem countP_freed_map_free (c : List dict_node) :
    (c.map dict_node_free).countP (fun n => n.freed) = c.length := by
  induction c with
  | nil => rfl
  | cons a c ih => simp [dict_node_free, ih]

theorem countP_freed_live (c : List dict_node) (h : ∀ n ∈ c, n.freed = false) :
    c.countP (fun n => n.freed) = 0 := by
  rw [List.countP_eq_zero]
  intro n hn
  simp [h n hn]

theorem countP_freed_set (t : List (List dict_node)) (i : Nat) (c : List dict_node)
    (hlive : ∀ n ∈ t.getD i [], n.freed = false)
    (hc : i < t.length ∨ c = []) :
    (t.set i c).flatten.countP (fun n => n.freed) =
      t.flatten.countP (fun n => n.freed) + c.countP (fun n => n.freed) := by
  by_cases hi : i < t.length
  · rw [(flatten_set_perm t i c hi).countP_eq, (flatten_perm_getD t i hi).countP_eq,
      List.countP_append, List.countP_append, countP_freed_live _ hlive]
    omega
  · rcases hc with hc | hc
    · exact absurd hc hi
    · rw [List.set_eq_of_length_le (not_lt.1 hi), hc]
      rfl

/-- The rehash loop run over the first `n` buckets of an array of live nodes
leaves exactly `min mem total` freed nodes linked in the old array, `total`
being the number of nodes in those buckets. -/
theorem dict_resize_loop_freed (env : dict_env) (ni n mem : Nat)
    (old nt : List (List dict_node)) (hlive : ∀ x ∈ old.flatten, x.freed = false) :
    (dict_resize_loop env ni n mem old nt).old.flatten.countP (fun x => x.freed) =
      min mem ((old.take n).flatten).length := by
  induction n with
  | zero =>
    simp only [dict_resize_loop, List.range_zero, List.foldl_nil, List.take_zero,
      List.flatten_nil, List.length_nil, Nat.min_zero]
    exact countP_freed_live _ hlive
  | succ n ih =>
    rw [dict_resize_loop_succ, flatten_take_succ, List.length_append]
    by_cases hm : mem < ((old.take n).flatten).length
    · have hok := dict_resize_loop_short env ni n mem old nt hm
      simp only [dict_resize_bucket, hok, Bool.false_eq_true, if_false]
      rw [ih]
      omega
    · obtain ⟨h1, h2, _, h4⟩ := dict_resize_loop_enough env ni n mem old nt (not_lt.1 hm)
      have hget := h4 n (le_refl n)
      simp only [dict_resize_bucket, h1, if_true, dict_resize_chain_eq, hget, h2]
      have hlive_n : ∀ x ∈ (dict_resize_loop env ni n mem old nt).old.getD n [],
          x.freed = false := by
        intro x hx
        rw [hget] at hx
        exact hlive x ((mem_flatten_iff_getD old x).2 ⟨n, hx⟩)
      have hcase : n < (dict_resize_loop env ni n mem old nt).old.length ∨
          (List.map dict_node_free (List.take (mem - ((old.take n).flatten).length)
            (old.getD n [])) ++
            List.drop (mem - ((old.take n).flatten).length) (old.getD n [])) = [] := by
        by_cases hn : n < (dict_resize_loop env ni n mem old nt).old.length
        · exact Or.inl hn
        · right
          have : (dict_resize_loop env ni n mem old nt).old.getD n [] = [] :=
            List.getD_eq_default _ _ (not_lt.1 hn)
          rw [hget] at this
          rw [this]
          simp
      rw [countP_freed_set _ n _ hlive_n hcase, ih, List.countP_append, countP_freed_map_free,
        countP_freed_live _ (fun x hx => hlive x ((mem_flatten_iff_getD old x).2
          ⟨n, List.mem_of_mem_drop hx⟩)), List.length_take]
      omega

/-- The defect of `dict_resize`: on a well-formed table below the largest size
class, when the node allocations succeed `mem` times with
`0 < mem < dict_len`, the call returns `DICT_ENOMEM` with the size class and
`len` as they were and with `mem` freed nodes still linked in the table. -/
theorem dict_resize_partial (env : dict_env) (mem : Nat) (d : dict) (hw : dict_wf env d)
    (hidx : d.idx < env.dict_idx_max) (hmem : mem < d.len) :
    (dict_resize env mem d).1 = DICT_ENOMEM ∧
    (dict_resize env mem d).2.1.idx = d.idx ∧
    (dict_resize env mem d).2.1.len = d.len ∧
    (dict_nodes (dict_resize env mem d).2.1).countP (fun x => x.freed) = mem := by
  have ht : d.table.take (dict_table_size env d.idx) = d.table := by
    rw [← hw.table_len]; exact List.take_length _
  have hlen := hw.len_eq
  have hshort := dict_resize_loop_short env (d.idx + 1) (dict_table_size env d.idx)
    mem d.table (List.replicate (dict_table_size env (d.idx + 1)) [])
    (by rw [ht]; show mem < (dict_nodes d).length; omega)
  have hfreed := dict_resize_loop_freed env (d.idx + 1) (dict_table_size env d.idx)
    mem d.table (List.replicate (dict_table_size env (d.idx + 1)) []) hw.live
  rw [ht] at hfreed
  rw [dict_resize_loop_eq_loop, if_neg (by omega)]
  unfold dict_resize_finish
  rw [hshort, if_neg (by simp)]
  refine ⟨rfl, rfl, rfl, ?_⟩
  show List.countP _ (List.flatten _) = mem
  rw [hfreed]
  have : d.table.flatten.length = d.len := hlen.symm
  omega

/-! ### Other keys, and the size class, along a call -/

theorem dict_set_has_other (env : dict_env) (mem : Nat) (d d1 : dict) (k k1 : Key) (v : Val)
    (he : env_ok env) (hw : dict_wf env d) (h : dict_set env mem d k v = (DICT_OK, d1))
    (hne : k1 ≠ k) : dict_has env d1 k1 = dict_has env d k1 := by
  obtain ⟨hw1, _, hm, _, _⟩ := dict_set_ok env mem d d1 k v he hw h
  refine dict_has_congr env d d1 hw hw1 k1 ?_
  intro n hk
  rw [hm n]
  constructor
  · rintro (rfl | ⟨h1, _⟩)
    · exact absurd hk.symm hne
    · exact h1
  · intro h1
    exact Or.inr ⟨h1, fun e => hne (hk.symm.trans e)⟩

theorem dict_pop_nodes_other (env : dict_env) (d : dict) (k : Key) (he : env_ok env)
    (hw : dict_wf env d) (n : dict_node) (hne : n.key ≠ k) :
    n ∈ dict_nodes (dict_pop env d k).2 ↔ n ∈ dict_nodes d := by
  by_cases hex : ∃ m ∈ dict_nodes d, m.key = k
  · obtain ⟨m, hm, rfl⟩ := hex
    obtain ⟨_, _, _, _, hperm⟩ := dict_pop_present env d m he hw hm
    constructor
    · intro h
      exact hperm.symm.subset (List.mem_cons_of_mem _ h)
    · intro h
      rcases List.mem_cons.1 (hperm.subset h) with h1 | h1
      · exact absurd (congrArg dict_node.key h1) hne
      · exact h1
  · have hno : dict_pop_chain (d.table.getD (dict_table_idx env d.idx k) []) k = none :=
      (dict_pop_chain_none_iff _ _).2
        (fun m hm hk => hex ⟨m, bucket_mem_nodes d _ m hm, hk⟩)
    rw [dict_pop_absent env d k hno]

theorem dict_pop_other (env : dict_env) (d : dict) (k k1 : Key) (he : env_ok env)
    (hw : dict_wf env d) (hne : k1 ≠ k) :
    dict_get env (dict_pop env d k).2 k1 = dict_get env d k1 ∧
    dict_has env (dict_pop env d k).2 k1 = dict_has env d k1 := by
  have hw1 := dict_pop_wf env d k he hw
  have hm : ∀ n, n.key = k1 →
      (n ∈ dict_nodes (dict_pop env d k).2 ↔ n ∈ dict_nodes d) :=
    fun n hk => dict_pop_nodes_other env d k he hw n (fun e => hne (hk.symm.trans e))
  exact ⟨dict_get_congr env d _ hw hw1 k1 hm, dict_has_congr env d _ hw hw1 k1 hm⟩

theorem dict_key_equals_false_iff (k1 k2 : Key) : dict_key_equals k1 k2 = false ↔ k1 ≠ k2 := by
  rw [dict_key_equals_eq_decide]
  simp

theorem dict_key_equals_bytes (k1 k2 : Key) :
    dict_key_equals k1 k2 = true ↔
      k1.length = k2.length ∧ ∀ i, i < k1.length → k1.getD i 0 = k2.getD i 0 := by
  rw [dict_key_equals_iff]
  constructor
  · rintro rfl
    exact ⟨rfl, fun _ _ => rfl⟩
  · rintro ⟨hl, hb⟩
    apply List.ext_getElem hl
    intro i h1 h2
    have := hb i h1
    rwa [List.getD_eq_getElem _ _ h1, List.getD_eq_getElem _ _ h2] at this

theorem dict_resize_idx (env : dict_env) (mem : Nat) (d : dict) :
    (dict_resize env mem d).2.1.idx = d.idx ∨
    ((dict_resize env mem d).2.1.idx = d.idx + 1 ∧ d.idx + 1 ≤ env.dict_idx_max) := by
  rw [dict_resize_loop_eq_loop]
  split
  · exact Or.inl rfl
  · rename_i h
    unfold dict_resize_finish
    split
    · exact Or.inr ⟨rfl, by omega⟩
    · exact Or.inl rfl

theorem dict_set_entry_idx (env : dict_env) (mem : Nat) (d : dict) (k : Key) (v : Val) :
    (dict_set_entry env mem d k v).2.idx = d.idx := by
  cases hc : dict_set_chain (d.table.getD (dict_table_idx env d.idx k) []) k v with
  | some c1 => rw [dict_set_entry_found env mem d k v c1 hc]
  | none =>
    cases mem with
    | zero => rw [dict_set_entry_absent_zero env d k v hc]
    | succ m => rw [dict_set_entry_absent_succ env m d k v hc]

theorem dict_set_idx (env : dict_env) (mem : Nat) (d : dict) (k : Key) (v : Val) :
    (dict_set env mem d k v).2.idx = d.idx ∨
    ((dict_set env mem d k v).2.idx = d.idx + 1 ∧ d.idx + 1 ≤ env.dict_idx_max) := by
  cases hl : env.load_exceeded (dict_table_size env d.idx) (d.len + 1) with
  | false =>
    rw [dict_set_no_resize env mem d k v hl]
    exact Or.inl (dict_set_entry_idx env mem d k v)
  | true =>
    have hr := dict_resize_idx env mem d
    rcases hres : dict_resize env mem d with ⟨s, d2, m2⟩
    rw [hres] at hr
    cases s with
    | DICT_ENOMEM =>
      rw [dict_set_resize_fail env mem d d2 m2 k v hl hres]
      exact hr
    | DICT_OK =>
      rw [dict_set_resize_ok env mem d d2 m2 k v hl hres, dict_set_entry_idx]
      exact hr

theorem dict_pop_idx (env : dict_env) (d : dict) (k : Key) : (dict_pop env d k).2.idx = d.idx := by
  cases hc : dict_pop_chain (d.table.getD (dict_table_idx env d.idx k) []) k with
  | none => rw [dict_pop_absent env d k hc]
  | some r =>
    obtain ⟨v, c1⟩ := r
    rw [dict_pop_found env d k v c1 hc]

theorem dict_clear_idx (env : dict_env) (d : dict) : (dict_clear env d).idx = d.idx := by
  unfold dict_clear
  generalize dict_table_size env d.idx = n
  induction n with
  | zero => rfl
  | succ n ih =>
    rw [dict_clear_succ]
    exact ih

theorem dict_iter_next_dict (env : dict_env) (iter : dict_iter) :
    (dict_iter_next env iter).2.dict = iter.dict := by
  unfold dict_iter_next
  simp only
  split
  · rfl
  · split <;> rfl

theorem dict_iter_after_dict (env : dict_env) (n : Nat) (iter : dict_iter) :
    (dict_iter_after env n iter).dict = iter.dict := by
  induction n generalizing iter with
  | zero => rfl
  | succ n ih =>
    show (dict_iter_after env n (dict_iter_next env iter).2).dict = iter.dict
    rw [ih, dict_iter_next_dict]

/-- When the loop of `dict_iter_next` ends without a node, the index has reached
the size of the array. -/
theorem dict_iter_seek_end (t : List (List dict_node)) (fuel i : Nat)
    (hf : t.length - i + 1 ≤ fuel) (h : (dict_iter_seek t t.length fuel i []).2 = []) :
    t.length ≤ (dict_iter_seek t t.length fuel i []).1 := by
  induction fuel generalizing i with
  | zero => omega
  | succ fuel ih =>
    by_cases hi : t.length ≤ i
    · have hs : dict_iter_seek t t.length (fuel + 1) i [] = (i, []) := by
        simp [dict_iter_seek, hi]
      rw [hs]; exact hi
    · have hs : dict_iter_seek t t.length (fuel + 1) i [] =
          dict_iter_seek t t.length fuel (i + 1) (t.getD i []) := by
        simp [dict_iter_seek, hi]
      rw [hs] at h ⊢
      cases hc : t.getD i [] with
      | nil =>
        rw [hc] at h
        exact ih (i + 1) (by omega) h
      | cons a c =>
        rw [hc] at h
        have hs2 : dict_iter_seek t t.length fuel (i + 1) (a :: c) = (i + 1, a :: c) := by
          cases fuel <;> rfl
        rw [hs2] at h
        simp at h

theorem dict_iter_left_of_end (env : dict_env) (iter : dict_iter)
    (h : dict_table_size env iter.dict.idx ≤ iter.index) : dict_iter_left env iter = [] := by
  simp [dict_iter_left, h]

/-- One call of `dict_iter_next`: it returns `NULL` when nothing is left to
return, and nothing is left afterwards; or it returns the first of the nodes
left and leaves the others. -/
theorem dict_iter_next_left (env : dict_env) (iter : dict_iter)
    (hlen : iter.dict.table.length = dict_table_size env iter.dict.idx) :
    ((dict_iter_next env iter).1 = none →
      dict_iter_left env iter = [] ∧ dict_iter_left env (dict_iter_next env iter).2 = []) ∧
    ∀ a, (dict_iter_next env iter).1 = some a →
      dict_iter_left env iter = a :: dict_iter_left env (dict_iter_next env iter).2 := by
  by_cases hend : dict_table_size env iter.dict.idx ≤ iter.index
  · rw [dict_iter_next_at_end env iter hend]
    refine ⟨fun _ => ⟨dict_iter_left_of_end env iter hend, dict_iter_left_of_end env iter hend⟩, ?_⟩
    intro a h
    simp at h
  · have hleft : dict_iter_left env iter =
        iter.node ++ dict_iter_yield (iter.dict.table.drop iter.index) := by
      simp [dict_iter_left, hend]
    unfold dict_iter_next
    simp only [ge_iff_le, hend, if_false]
    cases hn : iter.node with
    | cons a c =>
      have hs : dict_iter_seek iter.dict.table (dict_table_size env iter.dict.idx)
          (dict_table_size env iter.dict.idx - iter.index + 1) iter.index (a :: c) =
          (iter.index, a :: c) := rfl
      rw [hs]
      simp only
      refine ⟨fun h => by simp at h, ?_⟩
      intro a1 h
      simp only [Option.some.injEq] at h
      subst h
      rw [hleft, hn]
      have hl2 : dict_iter_left env ⟨iter.dict, iter.index, c⟩ =
          c ++ dict_iter_yield (iter.dict.table.drop iter.index) := by
        simp [dict_iter_left, hend]
      rw [hl2]
      rfl
    | nil =>
      rw [hleft, hn, List.nil_append]
      rw [← hlen] at hend ⊢
      obtain ⟨h1, h2⟩ := dict_iter_seek_spec iter.dict.table
        (iter.dict.table.length - iter.index + 1) iter.index (le_refl _)
      have h3 := dict_iter_seek_end iter.dict.table
        (iter.dict.table.length - iter.index + 1) iter.index (le_refl _)
      rcases hs : dict_iter_seek iter.dict.table iter.dict.table.length
          (iter.dict.table.length - iter.index + 1) iter.index [] with ⟨j, q⟩
      rw [hs] at h1 h2 h3
      cases q with
      | nil =>
        simp only
        refine ⟨fun _ => ⟨h1 rfl, ?_⟩, fun a h => by simp at h⟩
        apply dict_iter_left_of_end
        show dict_table_size env iter.dict.idx ≤ j
        rw [← hlen]
        exact h3 rfl
      | cons a c =>
        simp only
        refine ⟨fun h => by simp at h, ?_⟩
        intro a1 h
        simp only [Option.some.injEq] at h
        subst h
        obtain ⟨_, h4, h5⟩ := h2 a c rfl
        simp only at h4 h5
        rw [h5]
        unfold dict_iter_left
        simp only
        rw [← hlen]
        by_cases hj : j = iter.dict.table.length
        · rw [if_pos hj, if_pos (le_of_eq hj.symm)]
        · rw [if_neg hj, if_neg (by omega)]
          rfl

/-- The `n` results of successive calls are the nodes left to return, in order,
and then `NULL`. -/
theorem dict_iter_calls_eq (env : dict_env) (n : Nat) (iter : dict_iter)
    (hlen : iter.dict.table.length = dict_table_size env iter.dict.idx) :
    dict_iter_calls env n iter = (List.range n).map (fun i => (dict_iter_left env iter)[i]?) := by
  induction n generalizing iter with
  | zero => rfl
  | succ n ih =>
    have hd := dict_iter_next_dict env iter
    have ih1 := ih (dict_iter_next env iter).2 (by rw [hd]; exact hlen)
    obtain ⟨h1, h2⟩ := dict_iter_next_left env iter hlen
    rw [List.range_succ_eq_map, List.map_cons, List.map_map]
    show (dict_iter_next env iter).1 :: dict_iter_calls env n (dict_iter_next env iter).2 = _
    rw [ih1]
    cases hr : (dict_iter_next env iter).1 with
    | none =>
      obtain ⟨h3, h4⟩ := h1 hr
      rw [h3, h4]
      simp only [List.getElem?_nil, Function.comp_def]
    | some a =>
      rw [h2 a hr]
      simp [Function.comp_def]

theorem dict_iter_yield_sublist (t : List (List dict_node)) :
    List.Sublist (dict_iter_yield t) t.flatten := by
  have h := dict_iter_yield_flatten t
  rw [← h]
  exact List.sublist_append_left _ _

theorem dict_iter_left_fresh (env : dict_env) (d : dict) (hw : dict_wf env d) :
    dict_iter_left env ⟨d, 0, []⟩ = dict_iter_yield d.table := by
  unfold dict_iter_left
  simp only [List.drop_zero, List.nil_append]
  split
  · rename_i h0
    have : d.table = [] := by
      have := hw.table_len
      exact List.length_eq_zero.1 (by omega)
    rw [this]; rfl
  · rfl

theorem dict_nodes_nodup (env : dict_env) (d : dict) (hw : dict_wf env d) :
    (dict_nodes d).Nodup :=
  List.Nodup.of_map _ hw.keys_nodup

theorem range_map_getElem_filterMap (l : List dict_node) (n : Nat) :
    ((List.range n).map (fun i => l[i]?)).filterMap id = l.take n := by
  induction n generalizing l with
  | zero => simp
  | succ n ih =>
    rw [List.range_succ_eq_map, List.map_cons, List.map_map]
    cases l with
    | nil => simp [Function.comp_def]
    | cons a l1 =>
      have h := ih l1
      simp only [Function.comp_def, List.getElem?_cons_succ, List.getElem?_cons_zero,
        List.filterMap_cons, id, List.take_succ_cons]
      rw [h]

theorem range_map_getElem (l : List dict_node) (n i : Nat) (h : i < n) :
    ((List.range n).map (fun i => l[i]?))[i]? = some l[i]? := by
  rw [List.getElem?_map, List.getElem?_range h]
  rfl

/-! ### The chains of the new array after a rehash -/

theorem rehash_link_length (env : dict_env) (ni : Nat) (t : List (List dict_node))
    (n : dict_node) : (rehash_link env ni t n).length = t.length := by
  have h := rehash_fold_length env ni [n] t
  exact h

/-- Linking the copies of `nodes` one after the other appends to every chain
the copies of the nodes that hash to it, in the order of `nodes`. -/
theorem rehash_fold_getD (env : dict_env) (ni : Nat) (nodes : List dict_node)
    (t : List (List dict_node)) (j : Nat) (hj : j < t.length) :
    (nodes.foldl (rehash_link env ni) t).getD j [] =
      t.getD j [] ++ ((nodes.filter (fun n => decide (dict_table_idx env ni n.key = j))).map
        (fun n => (⟨n.key, n.val, false⟩ : dict_node))) := by
  induction nodes generalizing t with
  | nil => simp
  | cons n ns ih =>
    rw [List.foldl_cons, ih (rehash_link env ni t n) (by rw [rehash_link_length]; exact hj)]
    unfold rehash_link
    rw [getD_chain_link]
    by_cases hi : dict_table_idx env ni n.key = j
    · rw [if_pos ⟨hi, by rw [hi]; exact hj⟩, List.filter_cons_of_pos (by simpa using hi), hi]
      simp
    · rw [if_neg (fun h => hi h.1), List.filter_cons_of_neg (by simpa using hi)]

theorem map_copy_live (l : List dict_node) (h : ∀ n ∈ l, n.freed = false) :
    l.map (fun n => (⟨n.key, n.val, false⟩ : dict_node)) = l := by
  induction l with
  | nil => rfl
  | cons a l ih =>
    have ha := h a (List.mem_cons_self _ _)
    rw [List.map_cons, ih (fun n hn => h n (List.mem_cons_of_mem _ hn))]
    congr 1
    cases a
    simp only at ha
    rw [ha]

/-- The chains of the table a successful `dict_resize` installs. -/
theorem dict_resized_getD (env : dict_env) (d : dict) (he : env_ok env) (hw : dict_wf env d)
    (hidx : d.idx < env.dict_idx_max) (j : Nat) :
    (dict_resized env d).table.getD j [] =
      (dict_nodes d).filter (fun n => decide (dict_table_idx env (d.idx + 1) n.key = j)) := by
  have hpos := he (d.idx + 1) hidx
  by_cases hj : j < dict_table_size env (d.idx + 1)
  · unfold dict_resized
    simp only
    rw [rehash_fold_getD env (d.idx + 1) (dict_nodes d) _ j (by rw [List.length_replicate]; exact hj)]
    rw [map_copy_live _ (fun n hn => hw.live n (List.mem_of_mem_filter hn))]
    have h0 : (List.replicate (dict_table_size env (d.idx + 1)) ([] : List dict_node)).getD j [] =
        [] := by
      rw [List.getD_eq_getElem?_getD, List.getElem?_replicate]
      split <;> rfl
    rw [h0, List.nil_append]
  · have hl : (dict_resized env d).table.length = dict_table_size env (d.idx + 1) := by
      unfold dict_resized
      simp only
      rw [rehash_fold_length, List.length_replicate]
    have h1 : (dict_resized env d).table.getD j [] = [] := by
      rw [List.getD_eq_getElem?_getD, List.getElem?_eq_none (by omega)]
      rfl
    rw [h1]
    symm
    rw [List.filter_eq_nil_iff]
    intro n _
    have hlt : dict_table_idx env (d.idx + 1) n.key < dict_table_size env (d.idx + 1) :=
      Nat.mod_lt _ hpos
    simp only [decide_eq_true_eq]
    omega

/-! ### The allocation of the bucket array -/

theorem dict_resize_alloc_ok (env : dict_env) (mem : Nat) (d : dict) :
    dict_resize_alloc env true mem d = some (dict_resize env mem d) := by
  unfold dict_resize_alloc
  simp only [Bool.true_eq_false, false_and, if_false]
  split
  · rename_i h
    rw [dict_resize_full env mem d (by omega)]
  · rfl

theorem dict_resize_alloc_null (env : dict_env) (mem : Nat) (d : dict)
    (hidx : d.idx < env.dict_idx_max) (hpos : 0 < dict_table_size env (d.idx + 1)) :
    dict_resize_alloc env false mem d = none := by
  unfold dict_resize_alloc
  simp only
  rw [if_neg (by omega), if_pos ⟨trivial, hpos⟩]

theorem dict_set_alloc_ok (env : dict_env) (mem : Nat) (d : dict) (k : Key) (v : Val) :
    dict_set_alloc env true mem d k v = some (dict_set env mem d k v) := by
  unfold dict_set_alloc dict_set
  rw [dict_resize_alloc_ok]
  split
  · rcases dict_resize env mem d with ⟨s, d1, m1⟩
    cases s <;> rfl
  · rfl

/-! ### Reachable tables that link no freed node -/

theorem dict_resize_live_wf (env : dict_env) (mem : Nat) (d : dict) (he : env_ok env)
    (hw : dict_wf env d)
    (hl : ∀ n ∈ dict_nodes (dict_resize env mem d).2.1, n.freed = false) :
    dict_wf env (dict_resize env mem d).2.1 := by
  by_cases hidx : env.dict_idx_max ≤ d.idx
  · rw [dict_resize_full env mem d hidx]
    exact hw
  · have hidx1 : d.idx < env.dict_idx_max := by omega
    have hlen := hw.len_eq
    by_cases hmem : (dict_nodes d).length ≤ mem
    · rw [dict_resize_enough env mem d hw.table_len hidx1 hmem]
      exact dict_resized_wf env d he hw hidx1
    · cases mem with
      | zero =>
        rw [dict_resize_zero env d hw.table_len (by omega)]
        exact hw
      | succ m =>
        exfalso
        have hp := ( dict_resize_partial env (m + 1) d hw hidx1 (by omega)).2.2.2
        rw [countP_freed_live _ hl] at hp
        omega

theorem dict_set_live_wf (env : dict_env) (mem : Nat) (d : dict) (k : Key) (v : Val)
    (he : env_ok env) (hw : dict_wf env d)
    (hl : ∀ n ∈ dict_nodes (dict_set env mem d k v).2, n.freed = false) :
    dict_wf env (dict_set env mem d k v).2 := by
  rcases hs : dict_set env mem d k v with ⟨s, d1⟩
  cases s with
  | DICT_OK => exact (dict_set_ok env mem d d1 k v he hw hs).1
  | DICT_ENOMEM =>
    cases hload : env.load_exceeded (dict_table_size env d.idx) (d.len + 1) with
    | false =>
      have hs1 := hs
      rw [dict_set_no_resize env mem d k v hload] at hs1
      exact dict_set_enomem_wf env mem d d1 k v he hw hs
        (Or.inl (dict_set_entry_enomem env mem d d1 k v hs1).2)
    | true =>
      rcases hres : dict_resize env mem d with ⟨s2, d2, m2⟩
      cases s2 with
      | DICT_OK =>
        obtain ⟨_, hmem, _, _⟩ := dict_resize_ok_inv env mem d d2 m2 hw.table_len hres
        exact dict_set_enomem_wf env mem d d1 k v he hw hs
          (Or.inr (by rw [hw.len_eq]; exact hmem))
      | DICT_ENOMEM =>
        have hs2 := dict_set_resize_fail env mem d d2 m2 k v hload hres
        have hd : d1 = (dict_resize env mem d).2.1 := by
          rw [hs2] at hs
          rw [hres]
          exact (congrArg Prod.snd hs).symm
        have hl1 : ∀ n ∈ dict_nodes (dict_resize env mem d).2.1, n.freed = false := by
          rw [← hd]
          intro n hn
          apply hl
          rw [hs]
          exact hn
        show dict_wf env d1
        rw [hd]
        exact dict_resize_live_wf env mem d he hw hl1

/-- Every reachable table that links no freed node is well-formed: every node
stands in the bucket of its hash, the keys are pairwise different, and `len`
counts the nodes. -/
theorem dict_reachable_live_wf (env : dict_env) (he : env_ok env) (d : dict)
    (h : dict_reachable env d) (hl : ∀ n ∈ dict_nodes d, n.freed = false) : dict_wf env d := by
  revert hl
  induction h with
  | new d h => exact fun _ => dict_new_wf env d h
  | set mem d k v _ hl0 ih => exact fun hl => dict_set_live_wf env mem d k v he (ih hl0) hl
  | pop d k _ hl0 ih => exact fun _ => dict_pop_wf env d k he (ih hl0)
  | clear d _ hl0 ih => exact fun _ => dict_clear_wf env d (ih hl0)
  | resize mem d _ hl0 ih => exact fun hl => dict_resize_live_wf env mem d he (ih hl0) hl

/-- Whatever the allocation of the bucket array gives, a result of
`dict_resize_alloc` is the result of `dict_resize`. -/
theorem dict_resize_alloc_some (env : dict_env) (table_ok : Bool) (mem : Nat) (d : dict)
    (r : dict_status × dict × Nat) (h : dict_resize_alloc env table_ok mem d = some r) :
    dict_resize env mem d = r := by
  unfold dict_resize_alloc at h
  simp only at h
  split at h
  · rename_i hidx
    rw [dict_resize_full env mem d (by omega)]
    exact Option.some.inj h
  · split at h
    · simp at h
    · exact Option.some.inj h

/-- Whatever the allocation of the bucket array gives, a result of
`dict_set_alloc` is the result of `dict_set`. -/
theorem dict_set_alloc_some (env : dict_env) (table_ok : Bool) (mem : Nat) (d : dict)
    (k : Key) (v : Val) (r : dict_status × dict)
    (h : dict_set_alloc env table_ok mem d k v = some r) : dict_set env mem d k v = r := by
  unfold dict_set_alloc at h
  unfold dict_set
  split at h
  · rename_i hload
    rw [if_pos hload]
    cases hres : dict_resize_alloc env table_ok mem d with
    | none =>
      rw [hres] at h
      simp at h
    | some r1 =>
      rw [hres] at h
      rw [dict_resize_alloc_some env table_ok mem d r1 hres]
      obtain ⟨s, d1, m1⟩ := r1
      cases s <;> exact Option.some.inj h
  · rename_i hload
    rw [if_neg hload]
    exact Option.some.inj h

theorem key_drop_eq_getD_cons (key : Key) (i : Nat) (h : i < key.length) :
    key.drop i = key.getD i 0 :: key.drop (i + 1) := by
  rw [List.drop_eq_getElem_cons h, List.getD_eq_getElem?_getD, List.getElem?_eq_getElem h]
  rfl

/-- On a key shorter than `2^32` bytes the loop ends: started at `i` it has
folded the rounds over the bytes from `i` on. -/
theorem jenkins_hash_loop_drop (char_signed : Bool) (key : Key) (hlen : key.length < 2 ^ 32)
    (fuel i hash : Nat) (hi : i ≤ key.length) (hf : key.length - i + 1 ≤ fuel) :
    jenkins_hash_loop char_signed key fuel i hash =
      some (jenkins_final ((key.drop i).foldl
        (fun hash b => jenkins_round hash (char_to_uint32 char_signed b)) hash)) := by
  induction fuel generalizing i hash with
  | zero => omega
  | succ fuel ih =>
    unfold jenkins_hash_loop
    by_cases h : i < key.length
    · rw [if_pos h, Nat.mod_eq_of_lt (by omega), ih (i + 1) _ (by omega) (by omega),
        key_drop_eq_getD_cons key i h, List.foldl_cons]
    · rw [if_neg h, List.drop_eq_nil_of_le (by omega)]
      rfl

/-- On a key of `2^32` bytes or more the loop never ends: the counter stays
below `2^32`, so the test `i < len` never fails. -/
theorem jenkins_hash_loop_never_ends (char_signed : Bool) (key : Key)
    (hlen : 2 ^ 32 ≤ key.length) (fuel i hash : Nat) (hi : i < 2 ^ 32) :
    jenkins_hash_loop char_signed key fuel i hash = none := by
  induction fuel generalizing i hash with
  | zero => rfl
  | succ fuel ih =>
    unfold jenkins_hash_loop
    rw [if_pos (by omega)]
    exact ih _ _ (Nat.mod_lt _ (by norm_num))

theorem jenkins_round_spec (hash c : Nat) :
    jenkins_round hash c =
      (((hash + c) % 2 ^ 32 + (((hash + c) % 2 ^ 32) <<< 10)) % 2 ^ 32) ^^^
        ((((hash + c) % 2 ^ 32 + (((hash + c) % 2 ^ 32) <<< 10)) % 2 ^ 32) >>> 6) := by
  unfold jenkins_round
  simp only [Nat.add_mod_mod]

theorem jenkins_hash_eq_spec (char_signed : Bool) (key : Key) :
    jenkins_hash char_signed key = one_at_a_time_spec (key.map (char_to_uint32 char_signed)) := by
  unfold jenkins_hash one_at_a_time_spec jenkins_final
  simp only [List.foldl_map, Nat.add_mod_mod, jenkins_round_spec]

theorem jenkins_hash_lt (char_signed : Bool) (key : Key) :
    jenkins_hash char_signed key < 2 ^ 32 := by
  unfold jenkins_hash jenkins_final
  exact Nat.mod_lt _ (by norm_num)

theorem char_to_uint32_low (char_signed : Bool) (b : Fin 256)
    (h : char_signed = false ∨ b.val < 128) : char_to_uint32 char_signed b = b.val := by
  unfold char_to_uint32
  rcases h with h | h
  · rw [h]; rfl
  · rw [if_neg]
    simp only [Bool.and_eq_true, decide_eq_true_eq, not_and, not_le]
    intro _
    exact h

/-! ## Facts about the examples -/

theorem env_example_ok : env_ok env_example := by
  intro idx h
  have h8 : idx ≤ 8 := h
  interval_cases idx <;> decide

theorem dict_empty_example_new : dict_new env_example true true = some dict_empty_example := by
  decide

theorem dict_wf_of_dec (env : dict_env) (d : dict) (h : dict_wf_dec env d) : dict_wf env d := by
  obtain ⟨h1, h2, h3, h4, h5, h6⟩ := h
  refine ⟨h1, h2, ?_, h4, h5, h6⟩
  intro i n hn
  by_cases hi : i < d.table.length
  · exact h3 i hi n hn
  · rw [List.getD_eq_default _ _ (not_lt.1 hi)] at hn
    simp at hn

theorem dict_five_example_wf : dict_wf env_example dict_five_example :=
  dict_wf_of_dec _ _ (by decide)

theorem dict_five_example_reachable : dict_reachable env_example dict_five_example := by
  have h : (dict_set env_example 1 (dict_set env_example 1 (dict_set env_example 1
      (dict_set env_example 1 (dict_set env_example 1 dict_empty_example
        [97] 1).2 [98] 2).2 [99] 3).2 [100] 4).2 [101] 5).2 = dict_five_example := by
    decide
  rw [← h]
  exact .set _ _ _ _ (.set _ _ _ _ (.set _ _ _ _ (.set _ _ _ _ (.set _ _ _ _
    (.new _ dict_empty_example_new) (by decide)) (by decide)) (by decide)) (by decide))
    (by decide)

/-- The keys "x", "y", "z" of the example in the specification are returned in
full by a pass: the last bucket holds only "x". -/
theorem dict_xyz_example_pass :
    dict_set env_example 1 (dict_set env_example 1 (dict_set env_example 1 dict_empty_example
      [120] 1).2 [121] 2).2 [122] 3 = (DICT_OK, dict_xyz_example) ∧
    dict_iter_pass env_example 4 ⟨dict_xyz_example, 0, []⟩ =
      [⟨[121], 2, false⟩, ⟨[122], 3, false⟩, ⟨[120], 1, false⟩] :=
  ⟨by decide, by decide⟩

theorem dict_four_example_wf : dict_wf env_example dict_four_example :=
  dict_wf_of_dec _ _ (by decide)

theorem env_example_size_grows (idx : Nat) (h : idx < 8) :
    2 * dict_table_size env_example idx ≤ dict_table_size env_example (idx + 1) := by
  interval_cases idx <;> decide

theorem env_example_size_last (idx : Nat) (h : idx ≤ 8)
    (hs : dict_table_size env_example idx * 72 < 100000) : idx < 8 := by
  interval_cases idx <;> first | omega | (exfalso; revert hs; decide)

/-- In the example parameters the calls `set("k0", 0)`, ..., `set("k" n-1, n-1)`
on the empty table, the call for "k" i having memory for `i + 1` nodes, all
return `DICT_OK` for `n` up to 1000. -/
theorem calls_k_example_succeed (n : Nat) (hn : n ≤ 1000) :
    ∃ d, dict_set_list env_example (calls_k (fun i => i + 1) n) dict_empty_example = some d ∧
      dict_wf env_example d ∧ d.len = n ∧
      n * 100 ≤ dict_table_size env_example d.idx * 72 := by
  induction n with
  | zero =>
    exact ⟨dict_empty_example, rfl, dict_new_wf _ _ dict_empty_example_new, rfl, by decide⟩
  | succ n ih =>
    obtain ⟨d, h1, hw, hlen, hJ⟩ := ih (by omega)
    have hcap : env_example.load_exceeded (dict_table_size env_example d.idx) (d.len + 1) = true →
        d.idx < env_example.dict_idx_max := by
      intro hl
      have hl2 : dict_table_size env_example d.idx * 72 < (d.len + 1) * 100 := by
        simpa [env_example] using hl
      exact env_example_size_last d.idx hw.idx_le (by omega)
    obtain ⟨hs1, hs2⟩ := dict_set_enough env_example (n + 1) d (key_k n) n env_example_ok hw
      (by omega) hcap
    have hset : dict_set env_example (n + 1) d (key_k n) n =
        (DICT_OK, (dict_set env_example (n + 1) d (key_k n) n).2) := Prod.ext hs1 rfl
    have hlist : dict_set_list env_example (calls_k (fun i => i + 1) (n + 1))
        dict_empty_example = some (dict_set env_example (n + 1) d (key_k n) n).2 := by
      rw [calls_k_succ, dict_set_list_append, h1]
      simp only [Option.some_bind, dict_set_list]
      rw [hset]
    have hspec := dict_set_list_spec env_example env_example_ok _ dict_empty_example _
      (dict_new_wf _ _ dict_empty_example_new)
      (calls_k_keys_nodup (fun i => i + 1) (n + 1) hn)
      (fun p _ x hx => by
        have : dict_nodes dict_empty_example = [] := by decide
        rw [this] at hx; simp at hx) hlist
    refine ⟨_, hlist, hspec.1, ?_, ?_⟩
    · rw [hspec.2.1]
      simp [calls_k, dict_empty_example]
    · rw [hs2]
      split
      · rename_i hl
        have := env_example_size_grows d.idx (hcap hl)
        have hpos := env_example_ok d.idx hw.idx_le
        omega
      · rename_i hl
        have hl2 : ¬ dict_table_size env_example d.idx * 72 < (d.len + 1) * 100 := by
          simpa [env_example] using hl
        omega

/-! ## Theorems -/

/-- C1. Round trip: if `dict_set(d, k, v)` on a well-formed table returns
`DICT_OK`, then `dict_get` with the key `k` on the resulting table returns `v`,
whether or not the set resized the table. -/
theorem dict_set_get_roundtrip (env : dict_env) (mem : Nat) (d d1 : dict) (k : Key) (v : Val)
    (he : env_ok env) (hw : dict_wf env d)
    (h : dict_set env mem d k v = (DICT_OK, d1)) :
    dict_get env d1 k = v := by
  obtain ⟨hw1, _, hmem, _, _⟩ := dict_set_ok env mem d d1 k v he hw h
  exact dict_get_of_mem env d1 hw1 ⟨k, v, false⟩ ((hmem _).2 (Or.inl rfl))

/-- Witness of C1: the key "f" set in a table of five entries, a set that
resizes the table from 7 to 17 buckets. -/
theorem dict_set_get_roundtrip_witness :
    dict_get env_example
      { idx := 1, len := 6,
        table := [[], [], [], [⟨[97], 1, false⟩], [⟨[100], 4, false⟩, ⟨[101], 5, false⟩],
          [], [], [], [], [], [⟨[98], 2, false⟩], [⟨[99], 3, false⟩], [], [], [], [],
          [⟨[102], 6, false⟩]] } [102] = 6 :=
  dict_set_get_roundtrip env_example 10 dict_five_example _ [102] 6 env_example_ok
    dict_five_example_wf (by decide)

/-- C2 on a failing input: the keys "x" and "v" both hash to bucket 6, the last
of the 7 buckets.  After `set("x",1)` and `set("v",2)` the table is well-formed
with `dict_len` 2 and the two entries chained in bucket 6, but a pass from a
fresh iterator returns "x" only: the first `dict_iter_next` loads bucket 6 and
leaves `index = 7`, and the second returns `NULL` on `index >= table_size`
with the entry "v" still pending. -/
theorem dict_iter_pass_misses_entry :
    dict_set env_example 1 (dict_set env_example 1 dict_empty_example [120] 1).2 [118] 2 =
      (DICT_OK, dict_xv_example) ∧
    dict_wf env_example dict_xv_example ∧
    dict_len dict_xv_example = 2 ∧
    dict_nodes dict_xv_example = [⟨[120], 1, false⟩, ⟨[118], 2, false⟩] ∧
    dict_iter_new dict_xv_example true = some ⟨dict_xv_example, 0, []⟩ ∧
    dict_iter_next env_example ⟨dict_xv_example, 0, []⟩ =
      (some ⟨[120], 1, false⟩, ⟨dict_xv_example, 7, [⟨[118], 2, false⟩]⟩) ∧
    dict_iter_next env_example ⟨dict_xv_example, 7, [⟨[118], 2, false⟩]⟩ =
      (none, ⟨dict_xv_example, 7, [⟨[118], 2, false⟩]⟩) ∧
    dict_iter_pass env_example 3 ⟨dict_xv_example, 0, []⟩ = [⟨[120], 1, false⟩] :=
  ⟨by decide, dict_wf_of_dec _ _ (by decide), by decide, by decide, by decide, by decide,
    by decide, by decide⟩

/-- C3. Pop removes: on a well-formed table with an entry for `k` holding `v`,
`dict_pop(k)` returns `v`; afterwards `dict_get(k)` returns `NULL`,
`dict_has(k)` returns false and `dict_len` is one less than before. -/
theorem dict_pop_removes (env : dict_env) (d : dict) (k : Key) (v : Val)
    (he : env_ok env) (hw : dict_wf env d)
    (hex : ∃ n ∈ dict_nodes d, n.key = k ∧ n.val = v) :
    (dict_pop env d k).1 = v ∧
    dict_get env (dict_pop env d k).2 k = NULL ∧
    dict_has env (dict_pop env d k).2 k = false ∧
    dict_len (dict_pop env d k).2 + 1 = dict_len d := by
  obtain ⟨m, hm, rfl, rfl⟩ := hex
  obtain ⟨h1, h2, _, h4, _⟩ := dict_pop_present env d m he hw hm
  have hgone := dict_pop_present_gone env d m he hw hm
  refine ⟨h1, dict_get_of_not_mem env _ _ hgone, ?_, h4⟩
  cases hb : dict_has env (dict_pop env d m.key).2 m.key with
  | false => rfl
  | true =>
    obtain ⟨n, hn, hk⟩ := (dict_has_iff env _ h2 _).1 hb
    exact absurd hk (hgone n hn)

/-- Witness of C3: popping "e" from the table of five entries. -/
theorem dict_pop_removes_witness :
    (dict_pop env_example dict_five_example [101]).1 = 5 ∧
    dict_get env_example (dict_pop env_example dict_five_example [101]).2 [101] = NULL ∧
    dict_has env_example (dict_pop env_example dict_five_example [101]).2 [101] = false ∧
    dict_len (dict_pop env_example dict_five_example [101]).2 + 1 = dict_len dict_five_example :=
  dict_pop_removes env_example dict_five_example [101] 5 env_example_ok dict_five_example_wf
    ⟨⟨[101], 5, false⟩, by decide, rfl, rfl⟩

/-- C4 as stated fails: `dict_set` makes its load test before it looks the key
up.  In the table of four entries `set("e", 5)` succeeds and brings `dict_len`
to 5; the load test of `set("e", 9)` then asks for a resize (7 * 0.72 < 6), the
resize finds no memory, and the call returns `DICT_ENOMEM` with the entry for
"e" still holding 5. -/
theorem dict_overwrite_can_fail :
    dict_wf env_example dict_four_example ∧
    dict_set env_example 1 dict_four_example [101] 5 = (DICT_OK, dict_five_example) ∧
    dict_set env_example 0 dict_five_example [101] 9 = (DICT_ENOMEM, dict_five_example) ∧
    dict_get env_example dict_five_example [101] = 5 ∧
    ¬ ∃ n ∈ dict_nodes dict_five_example, n.key = [101] ∧ n.val = 9 :=
  ⟨dict_four_example_wf, by decide, by decide, by decide, by decide⟩

/-- C4, amended. Idempotent overwrite: on a well-formed table, if
`dict_set(k, v1)` and then `dict_set(k, v2)` both return `DICT_OK`, the table
has exactly one entry whose key equals `k`, that entry holds `v2`, and
`dict_len` is unchanged by the second call. -/
theorem dict_set_overwrite (env : dict_env) (mem1 mem2 : Nat) (d d1 d2 : dict) (k : Key)
    (v1 v2 : Val) (he : env_ok env) (hw : dict_wf env d)
    (h1 : dict_set env mem1 d k v1 = (DICT_OK, d1))
    (h2 : dict_set env mem2 d1 k v2 = (DICT_OK, d2)) :
    (dict_nodes d2).filter (fun n => decide (n.key = k)) = [⟨k, v2, false⟩] ∧
    dict_get env d2 k = v2 ∧
    dict_len d2 = dict_len d1 := by
  obtain ⟨hw1, _, hm1, _, _⟩ := dict_set_ok env mem1 d d1 k v1 he hw h1
  obtain ⟨hw2, _, hm2, hlen, _⟩ := dict_set_ok env mem2 d1 d2 k v2 he hw1 h2
  have hin : (⟨k, v2, false⟩ : dict_node) ∈ dict_nodes d2 := (hm2 _).2 (Or.inl rfl)
  refine ⟨filter_key_singleton (dict_nodes d2) ⟨k, v2, false⟩ hw2.keys_nodup hin,
    dict_get_of_mem env d2 hw2 ⟨k, v2, false⟩ hin, ?_⟩
  exact hlen ⟨⟨k, v1, false⟩, (hm1 _).2 (Or.inl rfl), rfl⟩

/-- Witness of C4, amended: `set("e", 5)` then `set("e", 9)` with memory for
the resize that the second call makes. -/
theorem dict_set_overwrite_witness :
    (dict_nodes (dict_set env_example 5 dict_five_example [101] 9).2).filter
      (fun n => decide (n.key = [101])) = [⟨[101], 9, false⟩] ∧
    dict_get env_example (dict_set env_example 5 dict_five_example [101] 9).2 [101] = 9 ∧
    dict_len (dict_set env_example 5 dict_five_example [101] 9).2 = dict_len dict_five_example :=
  dict_set_overwrite env_example 1 5 dict_four_example dict_five_example _ [101] 5 9
    env_example_ok dict_four_example_wf (by decide) (by decide)

/-- C5 on a failing input: five successful `dict_set` calls on a new table give
the table of five entries; the load test of `set("f", 6)` asks for a resize,
and with memory for one node `dict_resize` copies and frees the node of "a",
fails on the second allocation and returns `DICT_ENOMEM` with the old array
still installed.  The table reached has `dict_len` 5, while bucket 0 starts
with the freed node and only 4 of the linked nodes are live entries. -/
theorem dict_len_counts_freed_node :
    dict_reachable env_example dict_five_example ∧
    dict_wf env_example dict_five_example ∧
    dict_set env_example 1 dict_five_example [102] 6 = (DICT_ENOMEM, dict_broken_example) ∧
    dict_reachable env_example dict_broken_example ∧
    dict_len dict_broken_example = 5 ∧
    (dict_live_nodes dict_broken_example).length = 4 ∧
    dict_broken_example.table.getD 0 [] =
      [⟨[97], 1, true⟩, ⟨[99], 3, false⟩, ⟨[100], 4, false⟩] :=
  ⟨dict_five_example_reachable, dict_five_example_wf, by decide,
    (by decide : (dict_set env_example 1 dict_five_example [102] 6).2 = dict_broken_example) ▸
      dict_reachable.set 1 dict_five_example [102] 6 dict_five_example_reachable
        dict_five_example_wf.live,
    by decide, by decide, by decide⟩

/-- C6 as stated fails: `dict_resize` allocates a node for every entry, and
returns `DICT_ENOMEM` when `dict_node_new` returns `NULL`.  The table of five
entries is well-formed and below the largest size class, and with the new
bucket array allocated and no memory for the first node `dict_resize` returns
`DICT_ENOMEM`, not `DICT_OK`.  And when the `malloc` of the new bucket array
returns `NULL`, with memory for all five nodes, `dict_resize` returns nothing:
the source stores through the pointer without a test. -/
theorem dict_resize_can_fail :
    dict_wf env_example dict_five_example ∧
    dict_five_example.idx < env_example.dict_idx_max ∧
    dict_resize env_example 0 dict_five_example = (DICT_ENOMEM, dict_five_example, 0) ∧
    dict_resize_alloc env_example true 0 dict_five_example =
      some (DICT_ENOMEM, dict_five_example, 0) ∧
    dict_resize_alloc env_example false 5 dict_five_example = none :=
  ⟨dict_five_example_wf, by decide, by decide, by decide, by decide⟩

/-- C6, amended. Resize preserves content: on a well-formed table below the
largest size class, when the allocation of the new bucket array and every
node allocation of the rehash succeed, `dict_resize` returns `DICT_OK` and
leaves `dict_len` and the results of `dict_get` and `dict_has` unchanged for
every key.  Hence after inserting
pairwise distinct keys into a new table by `dict_set` calls that all return
`DICT_OK`, `dict_get` returns each key's own value and `dict_len` is the
number of keys; for the keys "k0" .. "k999" mapped to their index,
`get("k537")` is 537 and `dict_len` is 1000. -/
theorem dict_resize_preserves_content (env : dict_env) (he : env_ok env) :
    (∀ mem d, dict_wf env d → d.idx < env.dict_idx_max → dict_len d ≤ mem →
      dict_resize_alloc env true mem d = some (dict_resize env mem d) ∧
      (dict_resize env mem d).1 = DICT_OK ∧
      dict_len (dict_resize env mem d).2.1 = dict_len d ∧
      ∀ k, dict_get env (dict_resize env mem d).2.1 k = dict_get env d k ∧
        dict_has env (dict_resize env mem d).2.1 k = dict_has env d k) ∧
    (∀ l d0 d, dict_new env true true = some d0 → (l.map (fun p => p.2.1)).Nodup →
      dict_set_list env l d0 = some d →
      dict_len d = l.length ∧ ∀ p ∈ l, dict_get env d p.2.1 = p.2.2) ∧
    (∀ mem d0 d, dict_new env true true = some d0 →
      dict_set_list env (calls_k mem 1000) d0 = some d →
      dict_get env d (key_k 537) = 537 ∧ dict_len d = 1000) := by
  have hlist : ∀ l d0 d, dict_new env true true = some d0 →
      (l.map (fun p => p.2.1)).Nodup → dict_set_list env l d0 = some d →
      dict_len d = l.length ∧ ∀ p ∈ l, dict_get env d p.2.1 = p.2.2 := by
    intro l d0 d hnew hnd hl
    have hw0 := dict_new_wf env d0 hnew
    have hempty : dict_nodes d0 = [] := by
      rw [dict_new_eq env d0 hnew]
      exact flatten_replicate_nil _
    obtain ⟨_, h2, h3, _⟩ := dict_set_list_spec env he l d0 d hw0 hnd
      (fun p _ n hn => by rw [hempty] at hn; simp at hn) hl
    refine ⟨?_, h3⟩
    show d.len = l.length
    rw [h2, dict_new_eq env d0 hnew]
    simp
  refine ⟨?_, hlist, ?_⟩
  · intro mem d hw hidx hmem
    have hmem1 : (dict_nodes d).length ≤ mem := by
      rw [← hw.len_eq]; exact hmem
    refine ⟨dict_resize_alloc_ok env mem d, ?_⟩
    rw [dict_resize_enough env mem d hw.table_len hidx hmem1]
    exact ⟨rfl, rfl, dict_resized_get env d he hw hidx⟩
  · intro mem d0 d hnew hl
    obtain ⟨h1, h2⟩ := hlist (calls_k mem 1000) d0 d hnew
      (calls_k_keys_nodup mem 1000 (le_refl _)) hl
    refine ⟨?_, ?_⟩
    · exact h2 (mem 537, key_k 537, 537)
        (List.mem_map.2 ⟨537, List.mem_range.2 (by decide), rfl⟩)
    · rw [h1]
      simp [calls_k]

/-- Witness of C6, amended: the resize of the table of five entries with the
new bucket array allocated and memory for its five nodes; six calls from
`set("k0", 0)` to `set("k5", 5)` on the empty table, the last of which
resizes; and the thousand calls from `set("k0", 0)` to `set("k999", 999)`,
which all return `DICT_OK` in the example parameters when every bucket array
is allocated and the call for "k" i has memory for `i + 1` nodes. -/
theorem dict_resize_preserves_content_witness :
    (dict_resize_alloc env_example true 5 dict_five_example =
        some (dict_resize env_example 5 dict_five_example) ∧
      (dict_resize env_example 5 dict_five_example).1 = DICT_OK ∧
      dict_len (dict_resize env_example 5 dict_five_example).2.1 = dict_len dict_five_example ∧
      ∀ k, dict_get env_example (dict_resize env_example 5 dict_five_example).2.1 k =
          dict_get env_example dict_five_example k ∧
        dict_has env_example (dict_resize env_example 5 dict_five_example).2.1 k =
          dict_has env_example dict_five_example k) ∧
    (dict_len dict_k_example = 6 ∧
      ∀ p ∈ calls_k (fun i => i + 1) 6, dict_get env_example dict_k_example p.2.1 = p.2.2) ∧
    ∃ d, dict_set_list env_example (calls_k (fun i => i + 1) 1000) dict_empty_example = some d ∧
      dict_get env_example d (key_k 537) = 537 ∧ dict_len d = 1000 :=
  ⟨(dict_resize_preserves_content env_example env_example_ok).1 5 dict_five_example
      dict_five_example_wf (by decide) (by decide),
   (dict_resize_preserves_content env_example env_example_ok).2.1
      (calls_k (fun i => i + 1) 6) dict_empty_example dict_k_example
      dict_empty_example_new (by decide) (by decide),
   (calls_k_example_succeed 1000 (le_refl _)).elim (fun d hd =>
      ⟨d, hd.1, (dict_resize_preserves_content env_example env_example_ok).2.2
        (fun i => i + 1) dict_empty_example d dict_empty_example_new hd.1⟩)⟩

/-- C7. Capacity exhaustion: at the largest size class `dict_resize` returns
`DICT_ENOMEM`, a status other than `DICT_OK`, and leaves the table as it was;
a `dict_set` whose load test asks for a resize there returns `DICT_ENOMEM` and
leaves the table as it was. -/
theorem dict_capacity_exhausted (env : dict_env) (mem : Nat) (d : dict)
    (hidx : d.idx = env.dict_idx_max) :
    dict_resize env mem d = (DICT_ENOMEM, d, mem) ∧
    DICT_ENOMEM ≠ DICT_OK ∧
    ∀ k v, env.load_exceeded (dict_table_size env d.idx) (d.len + 1) = true →
      dict_set env mem d k v = (DICT_ENOMEM, d) := by
  have hr := dict_resize_full env mem d (le_of_eq hidx.symm)
  refine ⟨hr, by decide, ?_⟩
  intro k v hl
  exact dict_set_resize_fail env mem d d mem k v hl hr

/-- Witness of C7: the table of three entries in the last of two size classes;
`dict_resize` and `dict_set("d", 4)` fail and leave it as it was. -/
theorem dict_capacity_exhausted_witness :
    dict_resize env_small 10 dict_full_small = (DICT_ENOMEM, dict_full_small, 10) ∧
    DICT_ENOMEM ≠ DICT_OK ∧
    dict_set env_small 10 dict_full_small [100] 4 = (DICT_ENOMEM, dict_full_small) :=
  ⟨(dict_capacity_exhausted env_small 10 dict_full_small rfl).1,
   (dict_capacity_exhausted env_small 10 dict_full_small rfl).2.1,
   (dict_capacity_exhausted env_small 10 dict_full_small rfl).2.2 [100] 4 (by decide)⟩

/-- C8 as stated fails: when the resize succeeds and the allocation of the new
entry then fails, `dict_set` returns `DICT_ENOMEM` and leaves the resized
table.  With memory for five nodes, `set("f", 6)` on the table of five entries
rehashes them into 17 buckets, finds no memory for the entry and returns
`DICT_ENOMEM`; the size class is 1, it was 0 before the call. -/
theorem dict_set_enomem_after_resize :
    dict_wf env_example dict_five_example ∧
    (dict_set env_example 5 dict_five_example [102] 6).1 = DICT_ENOMEM ∧
    dict_five_example.idx = 0 ∧
    (dict_set env_example 5 dict_five_example [102] 6).2.idx = 1 ∧
    (dict_set env_example 5 dict_five_example [102] 6).2.table.length = 17 :=
  ⟨dict_five_example_wf, by decide, by decide, by decide, by decide⟩

/-- C8, amended. When `dict_set` on a well-formed table returns `DICT_ENOMEM`,
the table is in its pre-call state if no resize was asked for (the allocation
of the entry failed), if the table stands in the largest size class, or if
the first node allocation of the rehash failed.  If the resize succeeded and
the allocation of the entry failed, the table is the one `dict_resize` leaves:
the next size class, with `dict_len` and the results of `dict_get` and
`dict_has` as before the call.  Nothing is stated for a rehash that fails
after its first node allocation. -/
theorem dict_set_enomem_state (env : dict_env) (mem : Nat) (d d1 : dict) (k : Key) (v : Val)
    (he : env_ok env) (hw : dict_wf env d)
    (h : dict_set env mem d k v = (DICT_ENOMEM, d1)) :
    ((env.load_exceeded (dict_table_size env d.idx) (d.len + 1) = false ∨
        d.idx = env.dict_idx_max ∨ (mem = 0 ∧ 0 < d.len)) → d1 = d) ∧
    ((env.load_exceeded (dict_table_size env d.idx) (d.len + 1) = true ∧
        d.idx < env.dict_idx_max ∧ d.len ≤ mem) →
      d1 = (dict_resize env mem d).2.1 ∧ d1.idx = d.idx + 1 ∧ dict_len d1 = dict_len d ∧
      ∀ k1, dict_get env d1 k1 = dict_get env d k1 ∧ dict_has env d1 k1 = dict_has env d k1) := by
  cases hl : env.load_exceeded (dict_table_size env d.idx) (d.len + 1) with
  | false =>
    rw [dict_set_no_resize env mem d k v hl] at h
    refine ⟨fun _ => (dict_set_entry_enomem env mem d d1 k v h).1, ?_⟩
    rintro ⟨h1, _⟩
    exact absurd h1 (by simp)
  | true =>
    constructor
    · rintro (h1 | h1 | ⟨h1, h2⟩)
      · exact absurd h1 (by simp)
      · have hr := dict_resize_full env mem d (le_of_eq h1.symm)
        rw [dict_set_resize_fail env mem d d mem k v hl hr] at h
        simp only [Prod.mk.injEq, true_and] at h
        exact h.symm
      · subst h1
        have hr := dict_resize_zero env d hw.table_len (by rw [← hw.len_eq]; exact h2)
        rw [dict_set_resize_fail env 0 d d 0 k v hl hr] at h
        simp only [Prod.mk.injEq, true_and] at h
        exact h.symm
    · rintro ⟨_, hidx, hmem⟩
      have hr := dict_resize_enough env mem d hw.table_len hidx
        (by rw [← hw.len_eq]; exact hmem)
      rw [dict_set_resize_ok env mem d _ _ k v hl hr] at h
      have h1 := (dict_set_entry_enomem env _ _ d1 k v h).1
      rw [hr]
      subst h1
      exact ⟨rfl, rfl, rfl, dict_resized_get env d he hw hidx⟩

/-- Witness of C8, amended: `set("f", 6)` on the table of five entries without
memory leaves the table as it was, and with memory for five nodes leaves the
resized table. -/
theorem dict_set_enomem_state_witness :
    (dict_set env_example 0 dict_five_example [102] 6).2 = dict_five_example ∧
    ((dict_set env_example 5 dict_five_example [102] 6).2 =
        (dict_resize env_example 5 dict_five_example).2.1 ∧
      (dict_set env_example 5 dict_five_example [102] 6).2.idx = dict_five_example.idx + 1 ∧
      dict_len (dict_set env_example 5 dict_five_example [102] 6).2 = dict_len dict_five_example ∧
      ∀ k1, dict_get env_example (dict_set env_example 5 dict_five_example [102] 6).2 k1 =
          dict_get env_example dict_five_example k1 ∧
        dict_has env_example (dict_set env_example 5 dict_five_example [102] 6).2 k1 =
          dict_has env_example dict_five_example k1) :=
  ⟨(dict_set_enomem_state env_example 0 dict_five_example _ [102] 6 env_example_ok
      dict_five_example_wf (by decide)).1 (Or.inr (Or.inr (by decide))),
   (dict_set_enomem_state env_example 5 dict_five_example _ [102] 6 env_example_ok
      dict_five_example_wf (by decide)).2 (by decide)⟩

/-- C9. Clear empties: after `dict_clear` on a well-formed table `dict_len` is
0, every bucket slot is empty, the size class and the number of slots are the
ones before the clear, and on a fresh iterator the first `dict_iter_next`
returns `NULL`, so that a pass yields no entry. -/
theorem dict_clear_empties (env : dict_env) (d : dict) (hw : dict_wf env d) :
    dict_len (dict_clear env d) = 0 ∧
    (∀ c ∈ (dict_clear env d).table, c = []) ∧
    (dict_clear env d).table.length = d.table.length ∧
    (dict_clear env d).idx = d.idx ∧
    ∀ iter, dict_iter_new (dict_clear env d) true = some iter →
      (dict_iter_next env iter).1 = none ∧ ∀ calls, dict_iter_pass env calls iter = [] := by
  obtain ⟨h1, h2, h3⟩ := dict_clear_spec env d hw
  refine ⟨h2, ?_, ?_, h1, ?_⟩
  · intro c hc
    rw [h3] at hc
    exact List.eq_of_mem_replicate hc
  · rw [h3, List.length_replicate, hw.table_len]
  · intro iter hit
    simp only [dict_iter_new, if_true, Option.some.injEq] at hit
    subst hit
    have hall : ∀ i, (dict_clear env d).table.getD i [] = [] := by
      intro i; rw [h3]; exact getD_replicate_nil _ i
    exact ⟨dict_iter_next_empty env _ hall rfl, dict_iter_pass_empty env _ hall rfl⟩

/-- Witness of C9: clearing the table of five entries, then a pass of up to 8
calls from a fresh iterator. -/
theorem dict_clear_empties_witness :
    dict_len (dict_clear env_example dict_five_example) = 0 ∧
    (∀ c ∈ (dict_clear env_example dict_five_example).table, c = []) ∧
    (dict_clear env_example dict_five_example).table.length = dict_five_example.table.length ∧
    (dict_clear env_example dict_five_example).idx = dict_five_example.idx ∧
    (dict_iter_next env_example ⟨dict_clear env_example dict_five_example, 0, []⟩).1 = none ∧
    dict_iter_pass env_example 8 ⟨dict_clear env_example dict_five_example, 0, []⟩ = [] :=
  ⟨(dict_clear_empties env_example dict_five_example dict_five_example_wf).1,
   (dict_clear_empties env_example dict_five_example dict_five_example_wf).2.1,
   (dict_clear_empties env_example dict_five_example dict_five_example_wf).2.2.1,
   (dict_clear_empties env_example dict_five_example dict_five_example_wf).2.2.2.1,
   ((dict_clear_empties env_example dict_five_example dict_five_example_wf).2.2.2.2
      ⟨dict_clear env_example dict_five_example, 0, []⟩ rfl).1,
   ((dict_clear_empties env_example dict_five_example dict_five_example_wf).2.2.2.2
      ⟨dict_clear env_example dict_five_example, 0, []⟩ rfl).2 8⟩

/-- C11. Other keys are untouched: on a well-formed table, for keys `k` and `k1`
that `dict_key_equals` tells apart, a `dict_set(k, v)` that returns `DICT_OK`
and a `dict_pop(k)` both leave `dict_get(k1)` and `dict_has(k1)` as they were
before the call. -/
theorem dict_other_keys_untouched (env : dict_env) (d : dict) (k k1 : Key)
    (he : env_ok env) (hw : dict_wf env d) (hne : dict_key_equals k k1 = false) :
    (∀ mem v d1, dict_set env mem d k v = (DICT_OK, d1) →
      dict_get env d1 k1 = dict_get env d k1 ∧ dict_has env d1 k1 = dict_has env d k1) ∧
    dict_get env (dict_pop env d k).2 k1 = dict_get env d k1 ∧
    dict_has env (dict_pop env d k).2 k1 = dict_has env d k1 := by
  have hk : k1 ≠ k := fun e => (dict_key_equals_false_iff k k1).1 hne e.symm
  refine ⟨?_, dict_pop_other env d k k1 he hw hk⟩
  intro mem v d1 hs
  exact ⟨dict_set_get_other env mem d d1 k k1 v he hw hs hk,
    dict_set_has_other env mem d d1 k k1 v he hw hs hk⟩

/-- Witness of C11: in the table of five entries, `set("f", 6)` with memory for
nine nodes (it resizes) and `pop("e")` leave `get("a")` and `has("a")` as they
were. -/
theorem dict_other_keys_untouched_witness :
    (dict_get env_example (dict_set env_example 9 dict_five_example [102] 6).2 [97] =
        dict_get env_example dict_five_example [97] ∧
      dict_has env_example (dict_set env_example 9 dict_five_example [102] 6).2 [97] =
        dict_has env_example dict_five_example [97]) ∧
    dict_get env_example (dict_pop env_example dict_five_example [101]).2 [97] =
      dict_get env_example dict_five_example [97] ∧
    dict_has env_example (dict_pop env_example dict_five_example [101]).2 [97] =
      dict_has env_example dict_five_example [97] :=
  ⟨(dict_other_keys_untouched env_example dict_five_example [102] [97] env_example_ok
      dict_five_example_wf (by decide)).1 9 6 _ (by decide),
   (dict_other_keys_untouched env_example dict_five_example [101] [97] env_example_ok
      dict_five_example_wf (by decide)).2⟩

/-- C12. Rewind: for every table `d`, `dict_iter_rewind` puts an iterator on
`d` in any state (any bucket index and pending chain, in particular the state
after `m` calls of `dict_iter_next` on a fresh iterator, for every `m`) in the
state `dict_iter_new` gives a fresh iterator for `d`: bucket index 0 and no
pending node. So `n` successive calls after the rewind return what the first
`n` calls of a fresh iterator return, and a full pass after the rewind yields
the sequence of the first full pass. -/
theorem dict_iter_rewind_fresh (env : dict_env) (d : dict) (index : Nat)
    (node : List dict_node) (m : Nat) :
    dict_iter_new d true = some (dict_iter_rewind ⟨d, index, node⟩) ∧
    (dict_iter_rewind ⟨d, index, node⟩).index = 0 ∧
    (dict_iter_rewind ⟨d, index, node⟩).node = [] ∧
    (dict_iter_rewind ⟨d, index, node⟩).dict = d ∧
    dict_iter_new d true = some (dict_iter_rewind (dict_iter_after env m ⟨d, 0, []⟩)) ∧
    (∀ n, dict_iter_calls env n (dict_iter_rewind (dict_iter_after env m ⟨d, 0, []⟩)) =
      dict_iter_calls env n ⟨d, 0, []⟩) ∧
    (∀ calls, dict_iter_pass env calls (dict_iter_rewind (dict_iter_after env m ⟨d, 0, []⟩)) =
      dict_iter_pass env calls ⟨d, 0, []⟩) ∧
    ∀ calls, dict_iter_pass env calls (dict_iter_rewind ⟨d, index, node⟩) =
      dict_iter_pass env calls ⟨d, 0, []⟩ := by
  have h : dict_iter_rewind (dict_iter_after env m ⟨d, 0, []⟩) = ⟨d, 0, []⟩ := by
    have hd := dict_iter_after_dict env m ⟨d, 0, []⟩
    unfold dict_iter_rewind
    rw [hd]
  refine ⟨rfl, rfl, rfl, rfl, ?_, ?_, ?_, fun _ => rfl⟩
  · rw [h]; rfl
  · intro n; rw [h]
  · intro calls; rw [h]

/-- In the example of the specification, with the keys "x", "y", "z": an
iterator that has made two calls, or five, is rewound to the fresh state, and
the pass after the rewind returns the three entries of the first pass. -/
theorem dict_iter_rewind_fresh_witness :
    dict_iter_after env_example 2 ⟨dict_xyz_example, 0, []⟩ =
      ⟨dict_xyz_example, 6, []⟩ ∧
    dict_iter_after env_example 5 ⟨dict_xyz_example, 0, []⟩ =
      ⟨dict_xyz_example, 7, []⟩ ∧
    dict_iter_pass env_example 4 (dict_iter_rewind
      (dict_iter_after env_example 2 ⟨dict_xyz_example, 0, []⟩)) =
      [⟨[121], 2, false⟩, ⟨[122], 3, false⟩, ⟨[120], 1, false⟩] ∧
    dict_iter_pass env_example 4 (dict_iter_rewind
      (dict_iter_after env_example 5 ⟨dict_xyz_example, 0, []⟩)) =
      dict_iter_pass env_example 4 ⟨dict_xyz_example, 0, []⟩ :=
  ⟨by decide, by decide, by decide,
    (dict_iter_rewind_fresh env_example dict_xyz_example 0 [] 5).2.2.2.2.2.2.1 4⟩

/-- C13. `dict_has` is a presence test: two keys are equal for `dict_key_equals`
exactly when they have the same length and the same bytes; on a well-formed
table `dict_has(k)` is true exactly when some entry has a key equal to `k`;
when `dict_get(k)` is not `NULL`, `dict_has(k)` is true; and after a
`dict_set(k, NULL)` that returns `DICT_OK`, `dict_has(k)` is true while
`dict_get(k)` returns `NULL`. -/
theorem dict_has_presence (env : dict_env) (d : dict) (k : Key)
    (he : env_ok env) (hw : dict_wf env d) :
    (∀ k1 k2, dict_key_equals k1 k2 = true ↔
      k1.length = k2.length ∧ ∀ i, i < k1.length → k1.getD i 0 = k2.getD i 0) ∧
    (dict_has env d k = true ↔ ∃ n ∈ dict_nodes d, dict_key_equals n.key k = true) ∧
    (dict_get env d k ≠ NULL → dict_has env d k = true) ∧
    ∀ mem d1, dict_set env mem d k NULL = (DICT_OK, d1) →
      dict_has env d1 k = true ∧ dict_get env d1 k = NULL := by
  have hiff : dict_has env d k = true ↔ ∃ n ∈ dict_nodes d, dict_key_equals n.key k = true := by
    rw [dict_has_iff env d hw k]
    constructor
    · rintro ⟨n, hn, hk⟩
      exact ⟨n, hn, (dict_key_equals_iff _ _).2 hk⟩
    · rintro ⟨n, hn, hk⟩
      exact ⟨n, hn, (dict_key_equals_iff _ _).1 hk⟩
  refine ⟨dict_key_equals_bytes, hiff, ?_, ?_⟩
  · intro hget
    by_contra hhas
    apply hget
    apply dict_get_of_not_mem env d k
    intro n hn hk
    exact hhas ((dict_has_iff env d hw k).2 ⟨n, hn, hk⟩)
  · intro mem d1 hs
    obtain ⟨hw1, _, hm, _, _⟩ := dict_set_ok env mem d d1 k NULL he hw hs
    have hin : (⟨k, NULL, false⟩ : dict_node) ∈ dict_nodes d1 := (hm _).2 (Or.inl rfl)
    exact ⟨(dict_has_iff env d1 hw1 k).2 ⟨_, hin, rfl⟩, dict_get_of_mem env d1 hw1 ⟨k, NULL, false⟩ hin⟩

/-- Witness of C13: the table of five entries, the key "e", and `set("e", NULL)`
with memory for the resize. -/
theorem dict_has_presence_witness :
    (dict_has env_example dict_five_example [101] = true ↔
      ∃ n ∈ dict_nodes dict_five_example, dict_key_equals n.key [101] = true) ∧
    dict_has env_example dict_five_example [101] = true ∧
    dict_has env_example (dict_set env_example 5 dict_five_example [101] NULL).2 [101] = true ∧
    dict_get env_example (dict_set env_example 5 dict_five_example [101] NULL).2 [101] = NULL :=
  ⟨(dict_has_presence env_example dict_five_example [101] env_example_ok
      dict_five_example_wf).2.1,
   (dict_has_presence env_example dict_five_example [101] env_example_ok
      dict_five_example_wf).2.2.1 (by decide),
   (dict_has_presence env_example dict_five_example [101] env_example_ok
      dict_five_example_wf).2.2.2 5 _ (by decide)⟩

/-- C14. No shrink: the calls never lower the size-class index.  On a
well-formed table `dict_pop`, `dict_clear` and `dict_iter_next` leave `idx` as
it is (`dict_get` and `dict_has` write nothing to the table and return a value
only), and `dict_set` and `dict_resize`, whatever they return, leave `idx` as
it is or raise it by one, never beyond `dict_idx_max`. -/
theorem dict_no_shrink (env : dict_env) (d : dict) (hw : dict_wf env d) :
    (∀ k, (dict_pop env d k).2.idx = d.idx) ∧
    (dict_clear env d).idx = d.idx ∧
    (∀ iter, iter.dict = d → (dict_iter_next env iter).2.dict.idx = d.idx) ∧
    (∀ mem k v, ((dict_set env mem d k v).2.idx = d.idx ∨
        (dict_set env mem d k v).2.idx = d.idx + 1) ∧
      (dict_set env mem d k v).2.idx ≤ env.dict_idx_max) ∧
    ∀ mem, ((dict_resize env mem d).2.1.idx = d.idx ∨
        (dict_resize env mem d).2.1.idx = d.idx + 1) ∧
      (dict_resize env mem d).2.1.idx ≤ env.dict_idx_max := by
  have hle := hw.idx_le
  refine ⟨fun k => dict_pop_idx env d k, dict_clear_idx env d, ?_, ?_, ?_⟩
  · intro iter hit
    rw [dict_iter_next_dict, hit]
  · intro mem k v
    rcases dict_set_idx env mem d k v with h | ⟨h, h1⟩
    · exact ⟨Or.inl h, by rw [h]; exact hle⟩
    · exact ⟨Or.inr h, by rw [h]; exact h1⟩
  · intro mem
    rcases dict_resize_idx env mem d with h | ⟨h, h1⟩
    · exact ⟨Or.inl h, by rw [h]; exact hle⟩
    · exact ⟨Or.inr h, by rw [h]; exact h1⟩

/-- Witness of C14: the table of five entries; `pop("e")`, `dict_clear`, a
`dict_iter_next`, `set("f", 6)` with and without memory, and `dict_resize`. -/
theorem dict_no_shrink_witness :
    (dict_pop env_example dict_five_example [101]).2.idx = dict_five_example.idx ∧
    (dict_clear env_example dict_five_example).idx = dict_five_example.idx ∧
    (dict_iter_next env_example ⟨dict_five_example, 0, []⟩).2.dict.idx = dict_five_example.idx ∧
    (((dict_set env_example 9 dict_five_example [102] 6).2.idx = dict_five_example.idx ∨
        (dict_set env_example 9 dict_five_example [102] 6).2.idx = dict_five_example.idx + 1) ∧
      (dict_set env_example 9 dict_five_example [102] 6).2.idx ≤ env_example.dict_idx_max) ∧
    (((dict_set env_example 1 dict_five_example [102] 6).2.idx = dict_five_example.idx ∨
        (dict_set env_example 1 dict_five_example [102] 6).2.idx = dict_five_example.idx + 1) ∧
      (dict_set env_example 1 dict_five_example [102] 6).2.idx ≤ env_example.dict_idx_max) ∧
    ((dict_resize env_example 5 dict_five_example).2.1.idx = dict_five_example.idx ∨
        (dict_resize env_example 5 dict_five_example).2.1.idx = dict_five_example.idx + 1) ∧
      (dict_resize env_example 5 dict_five_example).2.1.idx ≤ env_example.dict_idx_max :=
  ⟨(dict_no_shrink env_example dict_five_example dict_five_example_wf).1 [101],
   (dict_no_shrink env_example dict_five_example dict_five_example_wf).2.1,
   (dict_no_shrink env_example dict_five_example dict_five_example_wf).2.2.1 _ rfl,
   (dict_no_shrink env_example dict_five_example dict_five_example_wf).2.2.2.1 9 [102] 6,
   (dict_no_shrink env_example dict_five_example dict_five_example_wf).2.2.2.1 1 [102] 6,
   (dict_no_shrink env_example dict_five_example dict_five_example_wf).2.2.2.2 5⟩

/-- C15. Pop of an absent key: on a table, well-formed or not, in which no entry
has a key equal to `k`, `dict_pop(k)` returns `NULL` and leaves the table as it
was: same `len`, same size class, same bucket chains. -/
theorem dict_pop_absent_key (env : dict_env) (d : dict) (k : Key)
    (habs : ∀ n ∈ dict_nodes d, dict_key_equals n.key k = false) :
    (dict_pop env d k).1 = NULL ∧ (dict_pop env d k).2 = d ∧
    dict_len (dict_pop env d k).2 = dict_len d ∧
    (dict_pop env d k).2.idx = d.idx ∧ (dict_pop env d k).2.table = d.table := by
  have hno : dict_pop_chain (d.table.getD (dict_table_idx env d.idx k) []) k = none :=
    (dict_pop_chain_none_iff _ _).2
      (fun n hn => (dict_key_equals_false_iff _ _).1 (habs n (bucket_mem_nodes d _ n hn)))
  rw [dict_pop_absent env d k hno]
  exact ⟨rfl, rfl, rfl, rfl, rfl⟩

/-- Witness of C15: `pop("f")` on the table of five entries "a" to "e". -/
theorem dict_pop_absent_key_witness :
    (dict_pop env_example dict_five_example [102]).1 = NULL ∧
    (dict_pop env_example dict_five_example [102]).2 = dict_five_example ∧
    dict_len (dict_pop env_example dict_five_example [102]).2 = dict_len dict_five_example ∧
    (dict_pop env_example dict_five_example [102]).2.idx = dict_five_example.idx ∧
    (dict_pop env_example dict_five_example [102]).2.table = dict_five_example.table :=
  dict_pop_absent_key env_example dict_five_example [102] (by decide)

/-- C16. Rehash order: when `dict_resize` returns `DICT_OK` on a well-formed
table `d`, the new table stands in the next size class with an array of that
size, and each chain `j` of it holds exactly the entries of `d` whose key
hashes to `j` under the new size, in the order in which a walk of the old
table in bucket order then chain order (`dict_nodes d`) meets them; the
entries of the new table are those of the old one, none lost and none twice,
and `dict_len` is kept. -/
theorem dict_resize_rehash_order (env : dict_env) (mem : Nat) (d d1 : dict) (m1 : Nat)
    (he : env_ok env) (hw : dict_wf env d) (h : dict_resize env mem d = (DICT_OK, d1, m1)) :
    d1.idx = d.idx + 1 ∧
    d1.table.length = dict_table_size env d1.idx ∧
    (∀ j, d1.table.getD j [] =
      (dict_nodes d).filter (fun n => decide (dict_table_idx env d1.idx n.key = j))) ∧
    List.Perm (dict_nodes d1) (dict_nodes d) ∧
    (dict_nodes d1).Nodup ∧
    dict_len d1 = dict_len d := by
  obtain ⟨hidx, _, hd1, _⟩ := dict_resize_ok_inv env mem d d1 m1 hw.table_len h
  have hp := dict_resized_perm env d he hw hidx
  subst hd1
  refine ⟨rfl, ?_, fun j => dict_resized_getD env d he hw hidx j, hp, ?_, rfl⟩
  · unfold dict_resized
    simp only
    rw [rehash_fold_length, List.length_replicate]
  · exact (List.Perm.nodup_iff hp).2 (dict_nodes_nodup env d hw)

/-- In the example parameters, `dict_resize` on the table of "a" to "e" with
memory for five nodes: among the 17 new buckets, bucket 4 holds "d" (met in
old bucket 0) before "e" (met in old bucket 3), and "a", "b", "c" stand in the
buckets 3, 10 and 11. -/
theorem dict_resize_rehash_order_witness :
    dict_resize env_example 5 dict_five_example =
      (DICT_OK, (dict_resize env_example 5 dict_five_example).2.1, 0) ∧
    (dict_resize env_example 5 dict_five_example).2.1.table.getD 4 [] =
      [⟨[100], 4, false⟩, ⟨[101], 5, false⟩] ∧
    ∀ j, (dict_resize env_example 5 dict_five_example).2.1.table.getD j [] =
      (dict_nodes dict_five_example).filter (fun n => decide (dict_table_idx env_example
        (dict_resize env_example 5 dict_five_example).2.1.idx n.key = j)) :=
  ⟨by decide, by decide,
    (dict_resize_rehash_order env_example 5 dict_five_example _ 0 env_example_ok
      dict_five_example_wf (by decide)).2.2.1⟩

/-- The one-byte key `0x80` where `char` is signed: `key[0]` is the `char`
-128, the statement `hash += key[0]` adds `2^32 - 128`, and `jenkins_hash`
returns `0xc31d4e27`; with the byte taken as its value 128 the hash of the
specification is `0x277fcedb`. -/
theorem jenkins_hash_signed_byte :
    char_to_uint32 true 128 = 2 ^ 32 - 128 ∧
    jenkins_hash_loop true [128] 2 0 0 = some 0xc31d4e27 ∧
    jenkins_hash true [128] = 0xc31d4e27 ∧
    one_at_a_time_spec (([128] : Key).map Fin.val) = 0x277fcedb ∧
    jenkins_hash true [128] ≠ one_at_a_time_spec (([128] : Key).map Fin.val) :=
  ⟨by decide, by decide, by decide, by decide, by decide⟩

/-- C17 (amended). On a key shorter than `2^32` bytes `jenkins_hash` returns,
and what it returns is the one-at-a-time hash in 32-bit wrapping arithmetic
of the bytes taken as `char` values converted to `uint32_t`: a byte `b` counts
as `b`, except that where `char` is signed a byte `b ≥ 128` counts as
`2^32 - 256 + b`. Where `char` is unsigned, and on every key whose bytes are
all below 128, this is the hash of the byte values 0..255. -/
theorem jenkins_hash_one_at_a_time (char_signed : Bool) (key : Key)
    (hlen : key.length < 2 ^ 32) :
    jenkins_hash_loop char_signed key (key.length + 1) 0 0 =
      some (jenkins_hash char_signed key) ∧
    jenkins_hash char_signed key =
      one_at_a_time_spec (key.map (fun b =>
        if char_signed = true ∧ 128 ≤ b.val then 2 ^ 32 - 256 + b.val else b.val)) ∧
    ((char_signed = false ∨ ∀ b ∈ key, b.val < 128) →
      jenkins_hash char_signed key = one_at_a_time_spec (key.map Fin.val)) ∧
    jenkins_hash char_signed key < 2 ^ 32 := by
  refine ⟨?_, ?_, ?_, jenkins_hash_lt char_signed key⟩
  · rw [jenkins_hash_loop_drop char_signed key hlen _ 0 0 (Nat.zero_le _) (by omega)]
    rfl
  · rw [jenkins_hash_eq_spec]
    congr 1
    apply List.map_congr_left
    intro b _
    unfold char_to_uint32
    simp only [Bool.and_eq_true, decide_eq_true_eq]
  · intro h
    rw [jenkins_hash_eq_spec]
    congr 1
    apply List.map_congr_left
    intro b hb
    apply char_to_uint32_low
    rcases h with h | h
    · exact Or.inl h
    · exact Or.inr (h b hb)

/-- The one-byte key "a" hashes to `0xca2e9442`, and the two-byte key
`0xc3 0xa9` hashes to `0x019148ae` where `char` is signed. -/
theorem jenkins_hash_one_at_a_time_witness :
    jenkins_hash_loop true [97] 2 0 0 = some (jenkins_hash true [97]) ∧
    jenkins_hash true [97] = 0xca2e9442 ∧
    jenkins_hash false [97] = 0xca2e9442 ∧
    one_at_a_time_spec (([97] : Key).map Fin.val) = 0xca2e9442 ∧
    jenkins_hash true [195, 169] = 0x019148ae :=
  ⟨(jenkins_hash_one_at_a_time true [97] (by decide)).1, by decide, by decide, by decide,
    by decide⟩

/-- C19. Iterator soundness: on a well-formed table `d`, for the successive
calls of `dict_iter_next` on a fresh iterator or on a rewound one (both are in
the state of `dict_iter_new`): every node returned is an entry of `d`; the
nodes returned have pairwise different keys, so no entry is returned twice;
`NULL` is returned within the first `dict_len d + 1` calls; once a call has
returned `NULL` every later call returns `NULL`; and no call of
`dict_iter_next`, in any iterator state, changes the table the iterator
stands on. -/
theorem dict_iter_sound (env : dict_env) (d : dict) (iter : dict_iter)
    (hw : dict_wf env d) (hd : iter.dict = d) :
    dict_iter_new d true = some (dict_iter_rewind iter) ∧
    (∀ n a, some a ∈ dict_iter_calls env n (dict_iter_rewind iter) → a ∈ dict_nodes d) ∧
    (∀ n, (((dict_iter_calls env n (dict_iter_rewind iter)).filterMap id).map
      dict_node.key).Nodup) ∧
    none ∈ dict_iter_calls env (dict_len d + 1) (dict_iter_rewind iter) ∧
    (∀ n i j, i ≤ j → j < n →
      (dict_iter_calls env n (dict_iter_rewind iter))[i]? = some none →
      (dict_iter_calls env n (dict_iter_rewind iter))[j]? = some none) ∧
    ∀ it : dict_iter, (dict_iter_next env it).2 =
      ⟨it.dict, (dict_iter_next env it).2.index, (dict_iter_next env it).2.node⟩ := by
  have hr : dict_iter_rewind iter = ⟨d, 0, []⟩ := by
    unfold dict_iter_rewind
    rw [hd]
  have hc : ∀ n, dict_iter_calls env n (dict_iter_rewind iter) =
      (List.range n).map (fun i => (dict_iter_yield d.table)[i]?) := by
    intro n
    rw [hr, dict_iter_calls_eq env n ⟨d, 0, []⟩ hw.table_len, dict_iter_left_fresh env d hw]
  have hsub := dict_iter_yield_sublist d.table
  refine ⟨by rw [hr]; rfl, ?_, ?_, ?_, ?_, ?_⟩
  · intro n a ha
    rw [hc, List.mem_map] at ha
    obtain ⟨i, _, hi⟩ := ha
    exact hsub.subset (List.getElem?_mem hi)
  · intro n
    rw [hc, range_map_getElem_filterMap]
    exact List.Nodup.sublist (((List.take_sublist n _).trans hsub).map _) hw.keys_nodup
  · rw [hc, List.mem_map]
    refine ⟨(dict_iter_yield d.table).length, ?_, List.getElem?_eq_none (le_refl _)⟩
    rw [List.mem_range]
    have h1 := hsub.length_le
    have h2 := hw.len_eq
    unfold dict_nodes at h2
    unfold dict_len
    omega
  · intro n i j hij hj h
    rw [hc] at h ⊢
    rw [range_map_getElem _ n i (by omega)] at h
    rw [range_map_getElem _ n j hj]
    simp only [Option.some.injEq] at h ⊢
    rw [List.getElem?_eq_none_iff] at h ⊢
    omega
  · intro it
    have h := dict_iter_next_dict env it
    rcases hn : (dict_iter_next env it).2 with ⟨a, b, c⟩
    rw [hn] at h
    simp only at h
    rw [h]

/-- In the example of the specification, with the keys "x", "y", "z" and
`dict_len` 3: five calls on a rewound iterator return the three entries and
then `NULL` twice. -/
theorem dict_iter_sound_witness :
    dict_iter_calls env_example 5 (dict_iter_rewind ⟨dict_xyz_example, 6, []⟩) =
      [some ⟨[121], 2, false⟩, some ⟨[122], 3, false⟩, some ⟨[120], 1, false⟩, none, none] ∧
    none ∈ dict_iter_calls env_example (dict_len dict_xyz_example + 1)
      (dict_iter_rewind ⟨dict_xyz_example, 6, []⟩) :=
  ⟨by decide,
    (dict_iter_sound env_example dict_xyz_example ⟨dict_xyz_example, 6, []⟩
      (dict_wf_of_dec _ _ (by decide)) rfl).2.2.2.1⟩

/-- C20. Bucket index in range: when every size class up to `dict_idx_max` has
a positive size, `dict_table_idx(idx, key, len)` is less than
`dict_table_sizes[idx]` for every `idx <= dict_idx_max` and every key.  Hence
on a well-formed table the assertion `idx <= dict_idx_max` holds and the
bucket index that `dict_get`, `dict_has`, `dict_pop` and `dict_set` compute is
inside the bucket array; so it is for the array of the next size class that
`dict_set` indexes after a successful resize. -/
theorem dict_table_idx_in_range (env : dict_env) (he : env_ok env) :
    (∀ idx key, idx ≤ env.dict_idx_max →
      dict_table_idx env idx key < dict_table_size env idx) ∧
    ∀ d, dict_wf env d →
      d.idx ≤ env.dict_idx_max ∧
      ∀ key, dict_table_idx env d.idx key < d.table.length ∧
        ∀ mem d1 m1, dict_resize env mem d = (DICT_OK, d1, m1) →
          d1.idx ≤ env.dict_idx_max ∧ dict_table_idx env d1.idx key < d1.table.length := by
  refine ⟨fun idx key h => Nat.mod_lt _ (he idx h), ?_⟩
  intro d hw
  refine ⟨hw.idx_le, ?_⟩
  intro key
  refine ⟨dict_table_idx_lt env d he hw key, ?_⟩
  intro mem d1 m1 hr
  obtain ⟨hidx, _, rfl, _⟩ := dict_resize_ok_inv env mem d d1 m1 hw.table_len hr
  have hw1 := dict_resized_wf env d he hw hidx
  exact ⟨hw1.idx_le, dict_table_idx_lt env _ he hw1 key⟩

/-- Witness of C20: the example parameters, the key "f", the table of five
entries and its resize. -/
theorem dict_table_idx_in_range_witness :
    dict_table_idx env_example 3 [102] < dict_table_size env_example 3 ∧
    dict_five_example.idx ≤ env_example.dict_idx_max ∧
    dict_table_idx env_example dict_five_example.idx [102] < dict_five_example.table.length ∧
    (dict_resized env_example dict_five_example).idx ≤ env_example.dict_idx_max ∧
    dict_table_idx env_example (dict_resized env_example dict_five_example).idx [102] <
      (dict_resized env_example dict_five_example).table.length :=
  ⟨(dict_table_idx_in_range env_example env_example_ok).1 3 [102] (by decide),
   ((dict_table_idx_in_range env_example env_example_ok).2 dict_five_example
      dict_five_example_wf).1,
   (((dict_table_idx_in_range env_example env_example_ok).2 dict_five_example
      dict_five_example_wf).2 [102]).1,
   ((((dict_table_idx_in_range env_example env_example_ok).2 dict_five_example
      dict_five_example_wf).2 [102]).2 5 (dict_resized env_example dict_five_example) 0
      (by decide)).1,
   ((((dict_table_idx_in_range env_example env_example_ok).2 dict_five_example
      dict_five_example_wf).2 [102]).2 5 (dict_resized env_example dict_five_example) 0
      (by decide)).2⟩

end CSnip
